import Mathlib

/-!
# Type-shape trees of the program dependence graph (`src/lib/Tree.cpp`)

A shallow embedding of `pdg::TreeNode`, `pdg::Tree` and `pdg::ArgAccessTree`.

* Objects allocated with `new` live in arenas (lists); a pointer is an index into the
  arena, `none` is the null pointer, and `new` appends at the end of the arena.
* Debug-info type descriptors (`llvm::DIType*`), IR values (`llvm::Value*`) and functions
  are borrowed from LLVM; they are represented by identifiers.
* The helpers of `dbgutils` / `pdgutils` and the LLVM queries used by the code are not part
  of `Tree.cpp`; they are the fields of `Env`, over which everything is parametric.
* Dereferencing a null (or dangling) pointer is undefined behaviour in the source; the
  embedding returns `none` there, so `f … = some r` says that the run of `f` is free of such
  dereferences and ends with `r`.
* `int` is a 32-bit two's-complement integer: the depth `_depth + 1` passed to a new node
  and the level counter `current_tree_depth` of `Tree::build` wrap around (`wrapInt 32`).
  The member `_size` is declared outside `Tree.cpp`; it is an unbounded integer.
-/

namespace pdg

/-- Identifier of a debug-info type descriptor (`llvm::DIType`). -/
abbrev DIType := Nat

/-- Identifier of an IR value or instruction (`llvm::Value`). -/
abbrev Value := Nat

/-- Identifier of an IR function (`llvm::Function`). -/
abbrev Func := Nat

/-- Node category label (`GraphNodeType`), stored and passed on, never inspected here. -/
abbrev GraphNodeType := Nat

/-- Access classification (`AccessTag`). -/
abbrev AccessTag := Nat

/-- The edge kinds of the dependence graph that `Tree.cpp` names, and all the others. -/
inductive EdgeType where
  | PARAMETER_IN
  | PARAMETER_FIELD
  | OTHER (k : Nat)
deriving DecidableEq, Repr

/-- Dynamic class of a user of a value, as tested by `dyn_cast<LoadInst>` and
`dyn_cast<GetElementPtrInst>`. -/
inductive InstKind where
  | load
  | gep
  | other
deriving DecidableEq, Repr

/-- The collaborators of `Tree.cpp`: `dbgutils`, `pdgutils` and the LLVM use lists. -/
structure Env where
  /-- `dbgutils::stripMemberTag` -/
  stripMemberTag : DIType → DIType
  /-- `dbgutils::stripAttributes` -/
  stripAttributes : DIType → DIType
  /-- `dbgutils::isPointerType` -/
  isPointerType : DIType → Bool
  /-- `dbgutils::isProjectableType` -/
  isProjectableType : DIType → Bool
  /-- `dbgutils::getLowestDIType`, the pointee of a pointer type (may be null) -/
  getLowestDIType : DIType → Option DIType
  /-- `dyn_cast<DICompositeType>(dt)->getElements()`, each element under `dyn_cast<DIType>` -/
  getElements : DIType → List (Option DIType)
  /-- `dbgutils::isStructType` -/
  isStructType : DIType → Bool
  /-- `dbgutils::isStructPointerType` -/
  isStructPointerType : DIType → Bool
  /-- `llvm::Value::users()` -/
  users : Value → List Value
  /-- dynamic class of an instruction -/
  instKind : Value → InstKind
  /-- `pdgutils::isGEPOffsetMatchDIOffset` -/
  isGEPOffsetMatchDIOffset : DIType → Value → Bool

/-- The members of `pdg::TreeNode` (with those of its base class `pdg::Node` that
`Tree.cpp` reads or writes). -/
structure TreeNode where
  /-- `Node::_node_type` -/
  nodeType : GraphNodeType
  /-- `Node::_val` -/
  val : Option Value
  /-- `Node::_func` -/
  func : Option Func
  /-- `Node::_node_di_type` -/
  diType : Option DIType
  /-- `_depth` -/
  depth : Int
  /-- `_parent_node` -/
  parentNode : Option Nat
  /-- `_tree` -/
  tree : Option Nat
  /-- `_children` -/
  children : List Nat
  /-- `_addr_vars`, an `unordered_set<Value*>`: a duplicate-free list under `setInsert` -/
  addrVars : List (Option Value)
  /-- the tags recorded by `addAccessTag` -/
  accTags : List AccessTag
deriving DecidableEq, Repr

/-- The members of `pdg::Tree`. -/
structure Tree where
  /-- `_root_node` -/
  rootNode : Nat
  /-- `_base_val` -/
  baseVal : Option Value
  /-- `_size` -/
  size : Int
deriving DecidableEq, Repr

/-- An edge of the dependence graph, from `src` to `dst`. -/
structure Edge where
  src : Nat
  dst : Nat
  type : EdgeType
deriving DecidableEq, Repr

/-- The memory the code works on: the arena of tree nodes, the arena of trees and the edge
registry of the dependence graph. -/
structure Heap where
  nodes : List TreeNode
  trees : List Tree
  edges : List Edge
deriving DecidableEq, Repr

/-- Values of the members that a `TreeNode` constructor does not assign. They are fixed by
the declarations of `Tree.h` and `Graph.h`, which are not part of `Tree.cpp`. -/
structure NodeDefaults where
  val : Option Value
  depth : Int
  parentNode : Option Nat
  tree : Option Nat
deriving DecidableEq, Repr

/-- Overwrite the node at address `i`. -/
def Heap.setNode (h : Heap) (i : Nat) (n : TreeNode) : Heap :=
  { h with nodes := h.nodes.set i n }

/-- Allocate a node (`new TreeNode`): it is placed at address `h.nodes.length`. -/
def Heap.allocNode (h : Heap) (n : TreeNode) : Heap :=
  { h with nodes := h.nodes ++ [n] }

/-- Modelled from the spec: `Node::addNeighbor(neighbor, edge_type)` is declared outside
`Tree.cpp`; it records an edge of the given kind from this node to the neighbour in the
append-only edge registry. -/
def Heap.addNeighbor (h : Heap) (self neighbor : Nat) (ty : EdgeType) : Heap :=
  { h with edges := h.edges ++ [{ src := self, dst := neighbor, type := ty }] }

/-- The edges of kind `ty` that enter the node `self`. -/
def Heap.inEdgesWithDepType (h : Heap) (self : Nat) (ty : EdgeType) : List Edge :=
  h.edges.filter (fun e => decide (e.dst = self) && decide (e.type = ty))

/-- Modelled from the spec: `Node::getOutNeighborsWithDepType(edge_type)` is declared outside
`Tree.cpp`. The spec describes the query that the `ArgAccessTree` constructor makes with it as
the inbound edges of the given kind of the node (`getInboundEdges(node, edgeKind)`): the
result has one neighbour, the source, for every edge of kind `ty` that enters `self`. -/
def Heap.getOutNeighborsWithDepType (h : Heap) (self : Nat) (ty : EdgeType) : List Nat :=
  (h.inEdgesWithDepType self ty).map Edge.src

/-- `std::unordered_set::insert`. -/
def setInsert (s : List (Option Value)) (v : Option Value) : List (Option Value) :=
  if v ∈ s then s else s ++ [v]

/-- Body of the loop over the users of one base address variable
(`Tree.cpp`, lines 95-104). -/
def scanUser (E : Env) (ty : DIType) (isStructField : Bool)
    (acc : List (Option Value)) (user : Value) : List (Option Value) :=
  let acc1 :=
    if E.instKind user = InstKind.load then
      (if !isStructField then setInsert acc (some user) else acc)
    else acc
  if E.instKind user = InstKind.gep then
    (if E.isGEPOffsetMatchDIOffset ty user then setInsert acc1 (some user) else acc1)
  else acc1

/-- Body of the loop over the base address variables (`Tree.cpp`, lines 91-106). -/
def scanBaseVar (E : Env) (ty : DIType) (isStructField : Bool)
    (acc : List (Option Value)) (baseVar : Option Value) : List (Option Value) :=
  match baseVar with
  | none => acc
  | some v => (E.users v).foldl (scanUser E ty isStructField) acc

/-- The base set chosen at `Tree.cpp`, lines 78-85, for a node whose parent `pn` has the
type descriptor `pty`. -/
def baseAddrVars (E : Env) (h : Heap) (pn : TreeNode) (pty : DIType) :
    Option (List (Option Value)) :=
  match pn.parentNode with
  | none => some pn.addrVars
  | some g =>
    if E.isStructType pty then
      match h.nodes[g]? with
      | none => none
      | some gn =>
        match gn.diType with
        | none => none
        | some gty =>
          if E.isStructPointerType gty then some gn.addrVars else some pn.addrVars
    else some pn.addrVars

/-- `pdg::TreeNode::computeDerivedAddrVarsFromParent`, run on the node at address `self`. -/
def computeDerivedAddrVarsFromParent (E : Env) (h : Heap) (self : Nat) : Option Heap :=
  match h.nodes[self]? with
  | none => none
  | some me =>
    match me.parentNode with
    | none => some h
    | some p =>
      match me.diType with
      | none => some h
      | some ty =>
        match h.nodes[p]? with
        | none => none
        | some pn =>
          match pn.diType with
          | none => none
          | some pty =>
            match baseAddrVars E h pn pty with
            | none => none
            | some base =>
              let isStructField := E.isStructType pty
              some (h.setNode self
                { me with addrVars := base.foldl (scanBaseVar E ty isStructField) me.addrVars })

/-- The value of a signed `w`-bit integer after an arithmetic result `x` is stored in it:
two's-complement wrap-around. -/
def wrapInt (w : Nat) (x : Int) : Int :=
  (x + 2 ^ (w - 1)) % 2 ^ w - 2 ^ (w - 1)

/-- The value `_tree->getRootNode()->getValue()` read by the node `me`. -/
def rootValue (h : Heap) (me : TreeNode) : Option (Option Value) :=
  match me.tree with
  | none => none
  | some t =>
    match h.trees[t]? with
    | none => none
    | some T =>
      match h.nodes[T.rootNode]? with
      | none => none
      | some r => some r.val

/-- One child creation of `expandNode` (`Tree.cpp`, lines 48-52 and 60-64): construct the
child with the six-argument constructor, set its value, derive its address variables, append
it to the children of `self` and record the edge. -/
def addChild (E : Env) (h : Heap) (self : Nat) (childTy : Option DIType) : Option Heap :=
  match h.nodes[self]? with
  | none => none
  | some me =>
    match rootValue h me with
    | none => none
    | some rv =>
      let c := h.nodes.length
      let child : TreeNode :=
        { nodeType := me.nodeType, val := rv, func := me.func, diType := childTy,
          depth := wrapInt 32 (me.depth + 1), parentNode := some self, tree := me.tree,
          children := [], addrVars := [], accTags := [] }
      match computeDerivedAddrVarsFromParent E (h.allocNode child) c with
      | none => none
      | some h1 =>
        match h1.nodes[self]? with
        | none => none
        | some me1 =>
          some ((h1.setNode self { me1 with children := me1.children ++ [c] }).addNeighbor
            self c EdgeType.PARAMETER_FIELD)

/-- The loop over the elements of a composite type (`Tree.cpp`, lines 58-65). -/
def addChildren (E : Env) (self : Nat) : List (Option DIType) → Heap → Option Heap
  | [], h => some h
  | ft :: rest, h =>
    match addChild E h self ft with
    | none => none
    | some h1 => addChildren E self rest h1

/-- `pdg::TreeNode::expandNode`, run on the node at address `self`; the result is the new
memory and the returned count. -/
def expandNode (E : Env) (h : Heap) (self : Nat) : Option (Heap × Int) :=
  match h.nodes[self]? with
  | none => none
  | some me =>
    match me.diType with
    | none => some (h, 0)
    | some t =>
      let dt := E.stripAttributes (E.stripMemberTag t)
      if !E.isPointerType dt && !E.isProjectableType dt then some (h, 0)
      else if E.isPointerType dt then
        match addChild E h self (E.getLowestDIType dt) with
        | none => none
        | some h1 => some (h1, 1)
      else if E.isProjectableType dt then
        match addChildren E self (E.getElements dt) h with
        | none => none
        | some h1 => some (h1, ((E.getElements dt).length : Int))
      else some (h, 0)

/-- `_size++` of the tree at address `t`. -/
def incSize (h : Heap) (t : Nat) : Option Heap :=
  match h.trees[t]? with
  | none => none
  | some T => some { h with trees := h.trees.set t { T with size := T.size + 1 } }

/-- The inner loop of `Tree::build` (`Tree.cpp`, lines 161-171); the first argument is
`queue_size`. -/
def buildLevel (E : Env) (t : Nat) : Nat → Heap → List Nat → Option (Heap × List Nat)
  | 0, h, q => some (h, q)
  | k + 1, h, q =>
    match q with
    | [] => none
    | cur :: q1 =>
      match incSize h t with
      | none => none
      | some h1 =>
        match expandNode E h1 cur with
        | none => none
        | some (h2, cnt) =>
          if cnt > 0 then
            match h2.nodes[cur]? with
            | none => none
            | some n => buildLevel E t k h2 (q1 ++ n.children)
          else buildLevel E t k h2 q1

/-- The outer loop of `Tree::build` (`Tree.cpp`, lines 155-172) with the level counter
`current_tree_depth` held in a signed `w`-bit `int`: the increment wraps around. The inner
loop is `buildLevel`. `fuel` bounds the number of iterations: the result is `none` when the
loop has not been left after `fuel` of them. -/
def buildLoopW (E : Env) (t : Nat) (w : Nat) (maxTreeDepth : Int) :
    Nat → Int → Heap → List Nat → Option Heap
  | 0, _, _, _ => none
  | fuel + 1, cur, h, q =>
    if q.isEmpty then some h
    else if wrapInt w (cur + 1) > maxTreeDepth then some h
    else
      match buildLevel E t q.length h q with
      | none => none
      | some (h1, q1) => buildLoopW E t w maxTreeDepth fuel (wrapInt w (cur + 1)) h1 q1

/-- `pdg::Tree::build` with a `w`-bit level counter, run on the tree at address `t` for at
most `fuel` iterations of the outer loop. -/
def buildW (E : Env) (h : Heap) (t : Nat) (w : Nat) (maxTreeDepth : Int) (fuel : Nat) :
    Option Heap :=
  match h.trees[t]? with
  | none => none
  | some T => buildLoopW E t w maxTreeDepth fuel 0 h [T.rootNode]

/-- `pdg::Tree::build`, run on the tree at address `t`, with the 32-bit level counter. While
the counter does not wrap around it is incremented once per iteration of the outer loop and
the loop is left when it exceeds `maxTreeDepth`; so for every `maxTreeDepth` below the largest
`int` the `maxTreeDepth.toNat + 1` iterations allowed here suffice and more of them change
nothing (`buildW_eq_build`). For `maxTreeDepth = 2147483647` no value of the counter exceeds
the bound: the run is followed up to the iteration whose increment overflows, and the result
is `none` when the queue has not emptied by then; `buildW` follows it further. -/
def build (E : Env) (h : Heap) (t : Nat) (maxTreeDepth : Int) : Option Heap :=
  buildW E h t 32 maxTreeDepth (maxTreeDepth.toNat + 1)

/-- `pdg::TreeNode::TreeNode(const TreeNode&)`: the base class is constructed from the node
type, three members are copied, the containers start empty and the other members keep the
values `d` of their declarations. -/
def copyTreeNode (d : NodeDefaults) (src : TreeNode) : TreeNode :=
  { nodeType := src.nodeType, val := d.val, func := src.func, diType := src.diType,
    depth := d.depth, parentNode := d.parentNode, tree := d.tree,
    children := [], addrVars := [], accTags := [] }

/-- `pdg::Tree::Tree(const Tree&)`: the new tree is placed at address `h.trees.length`,
which is returned with the new memory. -/
def copyTree (d : NodeDefaults) (h : Heap) (src : Nat) : Option (Heap × Nat) :=
  match h.trees[src]? with
  | none => none
  | some S =>
    match h.nodes[S.rootNode]? with
    | none => none
    | some srcRoot =>
      let newTree := h.trees.length
      let newRoot := { copyTreeNode d srcRoot with tree := some newTree }
      some ({ h with
                nodes := h.nodes ++ [newRoot]
                trees := h.trees ++
                  [{ rootNode := h.nodes.length, baseVal := S.baseVal, size := 0 }] },
            newTree)

/-- The members of `pdg::ArgAccessTreeNode`: the three constructor arguments and the
children linked by `addChildNode`. -/
structure ArgAccessTreeNode where
  val : Option Value
  diType : Option DIType
  accessed : Bool
  children : List Nat
deriving DecidableEq, Repr

/-- The members of `pdg::ArgAccessTree`, with the arena of the overlay nodes it creates:
`_root_node`, `_size`. -/
structure ArgAccessTree where
  nodes : List ArgAccessTreeNode
  rootNode : Nat
  size : Int
deriving DecidableEq, Repr

/-- The state of the loop of the `ArgAccessTree` constructor: the overlay under
construction and the two queues. -/
structure ArgAccessState where
  acc : ArgAccessTree
  queue : List Nat
  accessQueue : List Nat
deriving DecidableEq, Repr

/-- Modelled from the spec: `ArgAccessTreeNode::addChildNode` is declared outside
`Tree.cpp`; it links the new overlay node under the overlay parent, after the children
linked before. -/
def addChildNode (nodes : List ArgAccessTreeNode) (accessNode child : Nat) :
    Option (List ArgAccessTreeNode) :=
  match nodes[accessNode]? with
  | none => none
  | some an => some (nodes.set accessNode { an with children := an.children ++ [child] })

/-- The loop over the children of the dequeued node (`Tree.cpp`, lines 213-222);
`accessNode` is the overlay node dequeued with it. -/
def argAccessChildren (E : Env) (h : Heap) (accessNode : Nat) :
    List Nat → ArgAccessState → Option ArgAccessState
  | [], s => some s
  | child :: rest, s =>
    match h.nodes[child]? with
    | none => none
    | some cn =>
      match cn.diType with
      | none => argAccessChildren E h accessNode rest s
      | some ty =>
        let newChildNode : ArgAccessTreeNode :=
          { val := cn.val, diType := some ty,
            accessed := E.isPointerType ty &&
              decide ((h.getOutNeighborsWithDepType child EdgeType.PARAMETER_IN).length > 0),
            children := [] }
        let idx := s.acc.nodes.length
        match addChildNode (s.acc.nodes ++ [newChildNode]) accessNode idx with
        | none => none
        | some nodes1 =>
          argAccessChildren E h accessNode rest
            { acc := { s.acc with nodes := nodes1, size := s.acc.size + 1 }
              queue := s.queue ++ [child]
              accessQueue := s.accessQueue ++ [idx] }

/-- The loop `while (!queue.empty())` of the `ArgAccessTree` constructor (`Tree.cpp`, lines
207-223); `fuel` bounds the number of iterations. -/
def argAccessLoop (E : Env) (h : Heap) : Nat → ArgAccessState → Option ArgAccessState
  | 0, s => if s.queue.isEmpty then some s else none
  | fuel + 1, s =>
    match s.queue with
    | [] => some s
    | node :: q =>
      match s.accessQueue with
      | [] => none
      | accessNode :: aq =>
        match h.nodes[node]? with
        | none => none
        | some n =>
          match argAccessChildren E h accessNode n.children
              { s with queue := q, accessQueue := aq } with
          | none => none
          | some s1 => argAccessLoop E h fuel s1

/-- `pdg::ArgAccessTree::ArgAccessTree(TreeNode* root_node)`; one iteration of the loop
dequeues one node, so `fuel` is the number of nodes the loop may dequeue. -/
def mkArgAccessTree (E : Env) (h : Heap) (rootNode : Nat) (fuel : Nat) :
    Option ArgAccessTree :=
  match h.nodes[rootNode]? with
  | none => none
  | some r =>
    let accessRootNode : ArgAccessTreeNode :=
      { val := r.val, diType := r.diType, accessed := true, children := [] }
    match argAccessLoop E h fuel
        { acc := { nodes := [accessRootNode], rootNode := 0, size := 1 }
          queue := [rootNode], accessQueue := [0] } with
    | none => none
    | some s => some s.acc

/-- The node `k` is what the constructor call and `setValue` of `expandNode` make of a new
child of the node `me` at address `self` (the address variables apart). -/
def NewChild (h : Heap) (me : TreeNode) (self : Nat) (k : TreeNode) : Prop :=
  k.nodeType = me.nodeType ∧ rootValue h me = some k.val ∧ k.func = me.func ∧
  k.depth = wrapInt 32 (me.depth + 1) ∧ k.parentNode = some self ∧ k.tree = me.tree ∧
  k.children = [] ∧ k.accTags = []

/-- The dereferences of `computeDerivedAddrVarsFromParent`, run on a new child of `me`, are
valid: when the type of `me` is a struct type and `me` has a parent, that parent is
allocated and has a type descriptor. -/
def CanDerive (E : Env) (h : Heap) (me : TreeNode) : Prop :=
  ∀ pty g, me.diType = some pty → me.parentNode = some g → E.isStructType pty = true →
    ∃ gn gty, h.nodes[g]? = some gn ∧ gn.diType = some gty

/-- The edge `expandNode` records for the child at address `c`. -/
def fieldEdge (self c : Nat) : Edge :=
  { src := self, dst := c, type := EdgeType.PARAMETER_FIELD }

/-- The type descriptors of the children that `expandNode` creates for a node whose type
descriptor is `ty`, in the order of creation. -/
def childTypes (E : Env) (ty : Option DIType) : List (Option DIType) :=
  match ty with
  | none => []
  | some t =>
    if E.isPointerType (E.stripAttributes (E.stripMemberTag t)) then
      [E.getLowestDIType (E.stripAttributes (E.stripMemberTag t))]
    else if E.isProjectableType (E.stripAttributes (E.stripMemberTag t)) then
      E.getElements (E.stripAttributes (E.stripMemberTag t))
    else []

/-- The node at address `i` is a node of the tree rooted at `r`: it is reached from the root
through the `_children` vectors. -/
inductive InTree (h : Heap) (r : Nat) : Nat → Prop where
  | root : InTree h r r
  | child {p c : Nat} {n : TreeNode} :
      InTree h r p → h.nodes[p]? = some n → c ∈ n.children → InTree h r c

/-- A tree as its constructor leaves it, before `build`: the tree at address `t` has size 0
and its root node has no parent, no children, depth 0 and belongs to `t`. -/
structure FreshTree (h : Heap) (t : Nat) (T : Tree) (root : TreeNode) : Prop where
  tree : h.trees[t]? = some T
  size : T.size = 0
  node : h.nodes[T.rootNode]? = some root
  children : root.children = []
  depth : root.depth = 0
  parentNode : root.parentNode = none
  owner : root.tree = some t

/-- The invariant of the loops of `Tree::build`, run on the tree `t` with root `r` in a
memory that held `base` nodes at the start. While the nodes of depth `d` are processed,
`done` lists the dequeued nodes, `rem` the nodes of this level still queued and `new` the
children created for the next level; the queue is `rem ++ new`. -/
structure BuildInv (t r base : Nat) (d : Int) (h : Heap) (done rem new : List Nat) :
    Prop where
  tree : ∃ T, h.trees[t]? = some T ∧ T.rootNode = r ∧ T.size = (done.length : Int)
  rlt : r < base
  ble : base ≤ h.nodes.length
  rootN : ∃ n, h.nodes[r]? = some n ∧ n.tree = some t ∧ n.parentNode = none ∧ n.depth = 0
  nodup : (done ++ rem ++ new).Nodup
  mem : ∀ i, i ∈ done ++ rem ++ new ↔ (i = r ∨ (base ≤ i ∧ i < h.nodes.length))
  newN : ∀ i, base ≤ i → i < h.nodes.length →
    ∃ n p pn, h.nodes[i]? = some n ∧ n.tree = some t ∧ n.parentNode = some p ∧
      (p = r ∨ (base ≤ p ∧ p < i)) ∧ h.nodes[p]? = some pn ∧ i ∈ pn.children ∧
      pn.diType ≠ none ∧ n.depth = pn.depth + 1 ∧
      ∃ rn, h.nodes[r]? = some rn ∧ n.val = rn.val
  kids : ∀ p n, (p = r ∨ (base ≤ p ∧ p < h.nodes.length)) → h.nodes[p]? = some n →
    n.children.Nodup ∧ ∀ c ∈ n.children, base ≤ c ∧ c < h.nodes.length ∧
      ∃ cn, h.nodes[c]? = some cn ∧ cn.parentNode = some p
  doneD : ∀ i ∈ done, ∃ n, h.nodes[i]? = some n ∧ n.depth ≤ d
  remD : ∀ i ∈ rem, ∃ n, h.nodes[i]? = some n ∧ n.depth = d ∧ n.children = []
  newD : ∀ i ∈ new, ∃ n, h.nodes[i]? = some n ∧ n.depth = d + 1 ∧ n.children = []

/-- The type environment of the scenario `struct Pair { int* a; int b; }`, with the
descriptors `0` for `Pair*`, `1` for `Pair`, `2` for the member `a` (of type `4`, `int*`),
`3` for the member `b` (of type `5`, `int`). The use lists, the instruction classes and the
offset test of the program are parameters. -/
def pairEnv (users : Value → List Value) (instKind : Value → InstKind)
    (offsetMatch : DIType → Value → Bool) : Env where
  stripMemberTag := fun t => if t = 2 then 4 else if t = 3 then 5 else t
  stripAttributes := fun t => t
  isPointerType := fun t => decide (t = 0) || decide (t = 4)
  isProjectableType := fun t => decide (t = 1)
  getLowestDIType := fun t => if t = 0 then some 1 else if t = 4 then some 5 else none
  getElements := fun t => if t = 1 then [some 2, some 3] else []
  isStructType := fun t => decide (t = 1)
  isStructPointerType := fun t => decide (t = 0)
  users := users
  instKind := instKind
  isGEPOffsetMatchDIOffset := offsetMatch

/-- A fresh tree for an argument of type `Pair*`: the memory holds the tree and its root
node; the category, value, function and seeded address variables of the root are
parameters. -/
def pairHeap (nodeType : GraphNodeType) (val : Option Value) (func : Option Func)
    (addrVars : List (Option Value)) : Heap where
  nodes := [{ nodeType := nodeType, val := val, func := func, diType := some 0, depth := 0,
              parentNode := none, tree := some 0, children := [], addrVars := addrVars,
              accTags := [] }]
  trees := [{ rootNode := 0, baseVal := val, size := 0 }]
  edges := []

/-- A program for the scenario: `10` is the stack slot of the argument, `11` loads the
argument, `12` and `14` compute the addresses of the fields `a` and `b`, `13`, `15` and
`16` are loads. -/
def pairUsers (v : Value) : List Value :=
  if v = 10 then [11] else if v = 11 then [12, 14] else if v = 12 then [13]
  else if v = 13 then [16] else if v = 14 then [15] else []

/-- The instruction classes of the program of the scenario. -/
def pairKind (v : Value) : InstKind :=
  if v = 11 ∨ v = 13 ∨ v = 15 ∨ v = 16 then InstKind.load
  else if v = 12 ∨ v = 14 then InstKind.gep else InstKind.other

/-- The offset test of the scenario: `12` addresses the member `a`, `14` the member `b`. -/
def pairOffsetMatch (ty : DIType) (g : Value) : Bool :=
  (decide (ty = 2) && decide (g = 12)) || (decide (ty = 3) && decide (g = 14))

/-- The type descriptor, the depth and the children of every node of the arena. -/
def Heap.shape (h : Heap) : List (Option DIType × Int × List Nat) :=
  h.nodes.map (fun n => (n.diType, n.depth, n.children))

/-- The normalized type descriptor of every node of the arena. -/
def Heap.normTypes (E : Env) (h : Heap) : List (Option DIType) :=
  h.nodes.map (fun n => n.diType.map (fun t => E.stripAttributes (E.stripMemberTag t)))

/-- The environment of the scenario with its program. -/
def pairEnv0 : Env := pairEnv pairUsers pairKind pairOffsetMatch

/-- The fresh tree of the scenario, seeded with the stack slot of the argument. -/
def pairHeap0 : Heap := pairHeap 1 (some 9) (some 7) [some 10]

/-- The root of the fresh tree of the scenario. -/
def pairRoot0 : TreeNode :=
  { nodeType := 1, val := some 9, func := some 7, diType := some 0, depth := 0,
    parentNode := none, tree := some 0, children := [], addrVars := [some 10],
    accTags := [] }

/-- A memory of the scenario in the middle of the expansion of the `Pair` node at address
`1`: the node for the member `a` has been constructed at address `2` and its address
variables are still to be derived. The root is seeded with the stack slot `10` and the
loaded argument `11`. -/
def pairHeapMid : Heap where
  nodes := [{ nodeType := 1, val := some 9, func := some 7, diType := some 0, depth := 0,
              parentNode := none, tree := some 0, children := [1],
              addrVars := [some 10, some 11], accTags := [] },
            { nodeType := 1, val := some 9, func := some 7, diType := some 1, depth := 1,
              parentNode := some 0, tree := some 0, children := [],
              addrVars := [some 11], accTags := [] },
            { nodeType := 1, val := some 9, func := some 7, diType := some 2, depth := 2,
              parentNode := some 1, tree := some 0, children := [], addrVars := [],
              accTags := [] }]
  trees := [{ rootNode := 0, baseVal := some 9, size := 2 }]
  edges := [{ src := 0, dst := 1, type := EdgeType.PARAMETER_FIELD }]

/-- The node at address `c` is allocated and has a type descriptor: the test of
`Tree.cpp`, line 214, on an allocated child. -/
def hasDIType (h : Heap) (c : Nat) : Bool :=
  match h.nodes[c]? with
  | some cn => cn.diType.isSome
  | none => false

/-- The access flag computed at `Tree.cpp`, line 217, for the node at address `c` with the
type descriptor `ty`. -/
def accessFlag (E : Env) (h : Heap) (c : Nat) (ty : DIType) : Bool :=
  E.isPointerType ty &&
    decide ((h.getOutNeighborsWithDepType c EdgeType.PARAMETER_IN).length > 0)

/-- The overlay node constructed at `Tree.cpp`, line 217, for the node at address `c`. -/
def overlayOf (E : Env) (h : Heap) (c : Nat) : ArgAccessTreeNode :=
  match h.nodes[c]? with
  | some cn =>
    match cn.diType with
    | some ty =>
      { val := cn.val, diType := some ty, accessed := accessFlag E h c ty, children := [] }
    | none => { val := cn.val, diType := none, accessed := false, children := [] }
  | none => { val := none, diType := none, accessed := false, children := [] }

/-- The children of the node at address `c` that have a type descriptor, in order. -/
def typedChildren (h : Heap) (c : Nat) : List Nat :=
  match h.nodes[c]? with
  | some cn => cn.children.filter (hasDIType h)
  | none => []

/-- The nodes of the tree rooted at `r` that the overlay keeps: the root, and every node
with a type descriptor whose parent is kept. -/
inductive Kept (h : Heap) (r : Nat) : Nat → Prop where
  | root : Kept h r r
  | child {p c : Nat} : Kept h r p → c ∈ typedChildren h p → Kept h r c

/-- A finished tree rooted at `r`: the root is allocated and has no parent, every child of a
node of the tree is allocated and has this node as its parent, and no node lists a child
twice. -/
structure WellFormedTree (h : Heap) (r : Nat) : Prop where
  root : ∃ rn, h.nodes[r]? = some rn ∧ rn.parentNode = none
  child : ∀ p pn c, InTree h r p → h.nodes[p]? = some pn → c ∈ pn.children →
    ∃ cn, h.nodes[c]? = some cn ∧ cn.parentNode = some p
  nodup : ∀ p pn, InTree h r p → h.nodes[p]? = some pn → pn.children.Nodup

/-- The invariant of the loop of the `ArgAccessTree` constructor on the tree rooted at `r`:
`corr` lists the source node of every overlay node, and the `k` first overlay nodes have
been dequeued. -/
structure ArgInv (E : Env) (h : Heap) (r : Nat) (s : ArgAccessState) (corr : List Nat)
    (k : Nat) : Prop where
  len : corr.length = s.acc.nodes.length
  size : s.acc.size = (s.acc.nodes.length : Int)
  root0 : s.acc.rootNode = 0
  kle : k ≤ corr.length
  aq : s.accessQueue = List.range' k (corr.length - k)
  q : s.queue = corr.drop k
  bfs : corr = r :: (corr.take k).flatMap (typedChildren h)
  nodup : corr.Nodup
  kept : ∀ c ∈ corr, Kept h r c
  node : ∀ o ovn, s.acc.nodes[o]? = some ovn → ∃ c cn, corr[o]? = some c ∧
    h.nodes[c]? = some cn ∧ ovn.val = cn.val ∧ ovn.diType = cn.diType ∧
    (o = 0 → ovn.accessed = true) ∧
    (o ≠ 0 → ∃ ty, cn.diType = some ty ∧ ovn.accessed = accessFlag E h c ty) ∧
    (∀ x ∈ ovn.children, x < corr.length) ∧
    (o < k → ovn.children.map (fun x => corr[x]?) = (typedChildren h c).map some) ∧
    (k ≤ o → ovn.children = [])

/-- The type environment of an argument of type `int**`: the descriptor `0` is `int**`,
`1` is `int*` and `2` is `int`; the program has no instruction. -/
def ptrEnv : Env where
  stripMemberTag := fun t => t
  stripAttributes := fun t => t
  isPointerType := fun t => decide (t = 0) || decide (t = 1)
  isProjectableType := fun _ => false
  getLowestDIType := fun t => if t = 0 then some 1 else if t = 1 then some 2 else none
  getElements := fun _ => []
  isStructType := fun _ => false
  isStructPointerType := fun _ => false
  users := fun _ => []
  instKind := fun _ => InstKind.other
  isGEPOffsetMatchDIOffset := fun _ _ => false

/-- A memory with the finished tree of a formal argument of type `int**` (tree `0`, nodes
`0`, `1`, `2`) and the two first nodes of the tree of the actual argument of a call (tree
`1`, nodes `3`, `4`). The call is recorded by the `PARAMETER_IN` edges from the nodes of the
actual tree to the nodes of the formal tree. -/
def ptrHeap : Heap where
  nodes := [{ nodeType := 1, val := some 9, func := some 7, diType := some 0, depth := 0,
              parentNode := none, tree := some 0, children := [1], addrVars := [],
              accTags := [] },
            { nodeType := 1, val := some 9, func := some 7, diType := some 1, depth := 1,
              parentNode := some 0, tree := some 0, children := [2], addrVars := [],
              accTags := [] },
            { nodeType := 1, val := some 9, func := some 7, diType := some 2, depth := 2,
              parentNode := some 1, tree := some 0, children := [], addrVars := [],
              accTags := [] },
            { nodeType := 2, val := some 8, func := some 6, diType := some 0, depth := 0,
              parentNode := none, tree := some 1, children := [4], addrVars := [],
              accTags := [] },
            { nodeType := 2, val := some 8, func := some 6, diType := some 1, depth := 1,
              parentNode := some 3, tree := some 1, children := [], addrVars := [],
              accTags := [] }]
  trees := [{ rootNode := 0, baseVal := some 9, size := 2 },
            { rootNode := 3, baseVal := some 8, size := 1 }]
  edges := [{ src := 0, dst := 1, type := EdgeType.PARAMETER_FIELD },
            { src := 1, dst := 2, type := EdgeType.PARAMETER_FIELD },
            { src := 3, dst := 4, type := EdgeType.PARAMETER_FIELD },
            { src := 3, dst := 0, type := EdgeType.PARAMETER_IN },
            { src := 4, dst := 1, type := EdgeType.PARAMETER_IN }]

/-- The memory of the scenario after `build(3)`: the five nodes of the tree of the argument
of type `Pair*`. -/
def pairHeapBuilt : Heap where
  nodes := [{ nodeType := 1, val := some 9, func := some 7, diType := some 0, depth := 0,
              parentNode := none, tree := some 0, children := [1], addrVars := [some 10],
              accTags := [] },
            { nodeType := 1, val := some 9, func := some 7, diType := some 1, depth := 1,
              parentNode := some 0, tree := some 0, children := [2, 3],
              addrVars := [some 11], accTags := [] },
            { nodeType := 1, val := some 9, func := some 7, diType := some 2, depth := 2,
              parentNode := some 1, tree := some 0, children := [4], addrVars := [],
              accTags := [] },
            { nodeType := 1, val := some 9, func := some 7, diType := some 3, depth := 2,
              parentNode := some 1, tree := some 0, children := [], addrVars := [],
              accTags := [] },
            { nodeType := 1, val := some 9, func := some 7, diType := some 5, depth := 3,
              parentNode := some 2, tree := some 0, children := [], addrVars := [],
              accTags := [] }]
  trees := [{ rootNode := 0, baseVal := some 9, size := 4 }]
  edges := [{ src := 0, dst := 1, type := EdgeType.PARAMETER_FIELD },
            { src := 1, dst := 2, type := EdgeType.PARAMETER_FIELD },
            { src := 1, dst := 3, type := EdgeType.PARAMETER_FIELD },
            { src := 2, dst := 4, type := EdgeType.PARAMETER_FIELD }]

/-- The memories reached from `h0` by any number of runs of `expandNode`, on any node, and
of `Tree::build`, on any tree, with any depth bound and after any number of iterations. -/
inductive Reachable (E : Env) (h0 : Heap) : Heap → Prop where
  | init : Reachable E h0 h0
  | byExpand {h h' : Heap} {self : Nat} {cnt : Int} :
      Reachable E h0 h → expandNode E h self = some (h', cnt) → Reachable E h0 h'
  | byBuild {h h' : Heap} {t : Nat} {maxTreeDepth : Int} :
      Reachable E h0 h → build E h t maxTreeDepth = some h' → Reachable E h0 h'
  | byBuildW {h h' : Heap} {t : Nat} {maxTreeDepth : Int} {fuel : Nat} :
      Reachable E h0 h → buildW E h t 32 maxTreeDepth fuel = some h' → Reachable E h0 h'

/-- The shape of the tree rooted at `r`: the root is allocated, and every node of the tree
that has a child has a type descriptor, while the child is allocated, has the depth that
`expandNode` computes from the depth of this node, and has this node as its parent. -/
structure ShapeInv (h : Heap) (r : Nat) : Prop where
  rootA : ∃ n, h.nodes[r]? = some n
  kid : ∀ p n c, InTree h r p → h.nodes[p]? = some n → c ∈ n.children →
    n.diType ≠ none ∧
      ∃ cn, h.nodes[c]? = some cn ∧ cn.depth = wrapInt 32 (n.depth + 1) ∧
        cn.parentNode = some p

/-- A fresh tree whose root has no type descriptor. -/
def untypedHeap : Heap where
  nodes := [{ nodeType := 1, val := some 9, func := some 7, diType := none, depth := 0,
              parentNode := none, tree := some 0, children := [], addrVars := [some 10],
              accTags := [] }]
  trees := [{ rootNode := 0, baseVal := some 9, size := 0 }]
  edges := []

/-- The type environment of the self-referential `struct Node { Node* next; }`, with the
descriptors `0` for `Node*`, `1` for `Node` and `2` for the member `next`, of type `0`:
the type graph has the cycle `0 → 1 → 2 → 0`. The program has no instructions. -/
def listEnv : Env where
  stripMemberTag := fun t => if t = 2 then 0 else t
  stripAttributes := fun t => t
  isPointerType := fun t => decide (t = 0)
  isProjectableType := fun t => decide (t = 1)
  getLowestDIType := fun t => if t = 0 then some 1 else none
  getElements := fun t => if t = 1 then [some 2] else []
  isStructType := fun t => decide (t = 1)
  isStructPointerType := fun t => decide (t = 0)
  users := fun _ => []
  instKind := fun _ => InstKind.other
  isGEPOffsetMatchDIOffset := fun _ _ => false

/-- A fresh tree for an argument of type `Node*`. -/
def listHeap0 : Heap where
  nodes := [{ nodeType := 1, val := some 9, func := some 7, diType := some 0, depth := 0,
              parentNode := none, tree := some 0, children := [], addrVars := [],
              accTags := [] }]
  trees := [{ rootNode := 0, baseVal := some 9, size := 0 }]
  edges := []

/-- The ownership of the tree at address `t` with root `r`: the tree is allocated with this
root, every node of the tree has `t` as its `_tree`, and every node but the root carries
the value of the root. -/
structure OwnedInv (h : Heap) (t r : Nat) : Prop where
  tree : ∃ T, h.trees[t]? = some T ∧ T.rootNode = r
  own : ∀ i n, InTree h r i → h.nodes[i]? = some n → n.tree = some t
  val : ∀ i n rn, InTree h r i → i ≠ r → h.nodes[i]? = some n → h.nodes[r]? = some rn →
    n.val = rn.val

/-- The state of a tree under which no run of `expandNode` on one of its nodes meets a null
pointer: the shape and ownership invariants, and a root without a parent. -/
structure SafeInv (h : Heap) (t r : Nat) : Prop where
  shape : ShapeInv h r
  owned : OwnedInv h t r
  rootP : ∃ n, h.nodes[r]? = some n ∧ n.parentNode = none

/-- The memory `pairHeapMid` after the copy constructor has made, at address `1`, a copy of
its tree: the new root is at address `3`; the members that the copy does not assign are
null, and the depth is 0. -/
def pairHeapCopy : Heap where
  nodes := pairHeapMid.nodes ++
    [{ nodeType := 1, val := none, func := some 7, diType := some 0, depth := 0,
       parentNode := none, tree := some 1, children := [], addrVars := [], accTags := [] }]
  trees := pairHeapMid.trees ++ [{ rootNode := 3, baseVal := some 9, size := 0 }]
  edges := pairHeapMid.edges

/-- Modelled from the spec: `TreeNode::addAccessTag(tag)` is defined outside `Tree.cpp`; it
adds the tag to the stored tag set of the node, an idempotent union, and leaves the other
members as they are. -/
def TreeNode.addAccessTag (tag : AccessTag) (n : TreeNode) : TreeNode :=
  { n with accTags := if tag ∈ n.accTags then n.accTags else n.accTags ++ [tag] }

/-- The loop `while (!node_queue.empty())` of `Tree::addAccessForAllNodes` (`Tree.cpp`,
lines 179-187), for the effect `addTag` of `addAccessTag(acc_tag)` on a node; the children
are read after the tag is added. One iteration dequeues one node, and `fuel` bounds the
number of iterations. -/
def addAccessLoop (addTag : TreeNode → TreeNode) : Nat → Heap → List Nat → Option Heap
  | 0, h, q => if q.isEmpty then some h else none
  | fuel + 1, h, q =>
    match q with
    | [] => some h
    | cur :: q1 =>
      match h.nodes[cur]? with
      | none => none
      | some n =>
        addAccessLoop addTag fuel (h.setNode cur (addTag n)) (q1 ++ (addTag n).children)

/-- `pdg::Tree::addAccessForAllNodes`, run on the tree at address `t`. The method
`TreeNode::addAccessTag`, which is defined outside `Tree.cpp`, is the parameter
`addAccessTag`. -/
def addAccessForAllNodes (addAccessTag : AccessTag → TreeNode → TreeNode) (h : Heap)
    (t : Nat) (accTag : AccessTag) (fuel : Nat) : Option Heap :=
  match h.trees[t]? with
  | none => none
  | some T => addAccessLoop (addAccessTag accTag) fuel h [T.rootNode]

/-- The children of the node at address `c`; none when `c` is not allocated. -/
def childrenOf (h : Heap) (c : Nat) : List Nat :=
  match h.nodes[c]? with
  | some n => n.children
  | none => []

/-- One call `node->addAccessTag(acc_tag)` on the node at address `i`, for the effect `f` of
the method on a node. -/
def tagNode (f : TreeNode → TreeNode) (h : Heap) (i : Nat) : Heap :=
  match h.nodes[i]? with
  | some n => h.setNode i (f n)
  | none => h

/-- The invariant of the loop of `Tree::addAccessForAllNodes` on the tree rooted at `r` of
the memory `h0`: `ord` lists the nodes enqueued so far, in breadth-first order; the `k`
first have been dequeued, and they are the nodes to which `f` has been applied, one after
the other. -/
structure TagInv (f : TreeNode → TreeNode) (h0 : Heap) (r : Nat) (h : Heap)
    (ord : List Nat) (k : Nat) : Prop where
  kle : k ≤ ord.length
  bfs : ord = r :: (ord.take k).flatMap (childrenOf h0)
  nodup : ord.Nodup
  inT : ∀ c ∈ ord, InTree h0 r c
  trees : h.trees = h0.trees
  edges : h.edges = h0.edges
  len : h.nodes.length = h0.nodes.length
  node : ∀ i n, h0.nodes[i]? = some n →
    (i ∈ ord.take k → h.nodes[i]? = some (f n)) ∧ (i ∉ ord.take k → h.nodes[i]? = some n)
  run : h = (ord.take k).foldl (tagNode f) h0

/-- A tree for an argument of type `int**` whose root was constructed with the largest
depth an `int` can hold. -/
def deepHeap : Heap where
  nodes := [{ nodeType := 1, val := some 9, func := some 7, diType := some 0,
              depth := 2147483647, parentNode := none, tree := some 0, children := [],
              addrVars := [], accTags := [] }]
  trees := [{ rootNode := 0, baseVal := some 9, size := 0 }]
  edges := []

/-- The memory of the scenario after `build(3)` and a call of the function: the node `5` is
the node of an actual argument, and a `PARAMETER_IN` edge leads from it to the node `2` of
the member `a`, whose type after normalization is `int*`. -/
def pairHeapCall : Heap where
  nodes := pairHeapBuilt.nodes ++
    [{ nodeType := 2, val := some 8, func := some 6, diType := some 4, depth := 0,
       parentNode := none, tree := some 1, children := [], addrVars := [], accTags := [] }]
  trees := pairHeapBuilt.trees ++ [{ rootNode := 5, baseVal := some 8, size := 0 }]
  edges := pairHeapBuilt.edges ++ [{ src := 5, dst := 2, type := EdgeType.PARAMETER_IN }]

/-- The memory `deepHeap` after one run of `expandNode` on its root: the depth of the new
child has wrapped around. -/
def deepHeapExpanded : Heap where
  nodes := [{ nodeType := 1, val := some 9, func := some 7, diType := some 0,
              depth := 2147483647, parentNode := none, tree := some 0, children := [1],
              addrVars := [], accTags := [] },
            { nodeType := 1, val := some 9, func := some 7, diType := some 1,
              depth := -2147483648, parentNode := some 0, tree := some 0, children := [],
              addrVars := [], accTags := [] }]
  trees := [{ rootNode := 0, baseVal := some 9, size := 0 }]
  edges := [{ src := 0, dst := 1, type := EdgeType.PARAMETER_FIELD }]

/-! ## The address-variable derivation and `expandNode` -/

theorem wrapInt_of_inRange {w : Nat} {x : Int} (hw : 1 ≤ w)
    (hlo : -(2 : Int) ^ (w - 1) ≤ x) (hhi : x < (2 : Int) ^ (w - 1)) : wrapInt w x = x := by
  have hpow : (2 : Int) ^ w = 2 * 2 ^ (w - 1) := by
    rw [← pow_succ']
    congr 1
    omega
  unfold wrapInt
  rw [Int.emod_eq_of_lt (by omega) (by omega)]
  omega

theorem wrapInt_le (w : Nat) (x : Int) (hw : 1 ≤ w) :
    wrapInt w x ≤ (2 : Int) ^ (w - 1) - 1 := by
  have hpow : (2 : Int) ^ w = 2 * 2 ^ (w - 1) := by
    rw [← pow_succ']
    congr 1
    omega
  have hpos : (0 : Int) < 2 ^ w := by positivity
  have := Int.emod_lt_of_pos (x + 2 ^ (w - 1)) hpos
  unfold wrapInt
  omega

/-- In the range of a 32-bit `int` the wrap-around changes nothing. -/
theorem wrapInt32_of_inRange {x : Int} (hlo : -2147483648 ≤ x) (hhi : x < 2147483648) :
    wrapInt 32 x = x := by
  apply wrapInt_of_inRange (by decide) <;> norm_num <;> assumption

theorem setInsert_mem (s : List (Option Value)) (v x : Option Value) :
    x ∈ setInsert s v ↔ x ∈ s ∨ x = v := by
  unfold setInsert
  split
  · constructor
    · intro h; exact Or.inl h
    · rintro (h | h)
      · exact h
      · subst h; assumption
  · simp

theorem scanUser_mem (E : Env) (ty : DIType) (sf : Bool) (acc : List (Option Value))
    (u : Value) (x : Option Value) :
    x ∈ scanUser E ty sf acc u ↔
      x ∈ acc ∨ (x = some u ∧
        ((E.instKind u = InstKind.load ∧ sf = false) ∨
         (E.instKind u = InstKind.gep ∧ E.isGEPOffsetMatchDIOffset ty u = true))) := by
  unfold scanUser
  cases hk : E.instKind u <;> cases sf <;> cases hm : E.isGEPOffsetMatchDIOffset ty u <;>
    simp [setInsert_mem]

theorem foldl_scanUser_mem (E : Env) (ty : DIType) (sf : Bool) (us : List Value)
    (acc : List (Option Value)) (x : Option Value) :
    x ∈ us.foldl (scanUser E ty sf) acc ↔
      x ∈ acc ∨ ∃ u ∈ us, x = some u ∧
        ((E.instKind u = InstKind.load ∧ sf = false) ∨
         (E.instKind u = InstKind.gep ∧ E.isGEPOffsetMatchDIOffset ty u = true)) := by
  induction us generalizing acc with
  | nil => simp
  | cons u us ih =>
    simp only [List.foldl_cons, ih, scanUser_mem, List.mem_cons]
    constructor
    · rintro ((h | ⟨hx, h⟩) | ⟨w, hw, h⟩)
      · exact Or.inl h
      · exact Or.inr ⟨u, Or.inl rfl, hx, h⟩
      · exact Or.inr ⟨w, Or.inr hw, h⟩
    · rintro (h | ⟨w, hw | hw, h⟩)
      · exact Or.inl (Or.inl h)
      · subst hw; exact Or.inl (Or.inr h)
      · exact Or.inr ⟨w, hw, h⟩

theorem scanBaseVar_mem (E : Env) (ty : DIType) (sf : Bool) (acc : List (Option Value))
    (b x : Option Value) :
    x ∈ scanBaseVar E ty sf acc b ↔
      x ∈ acc ∨ ∃ v u, b = some v ∧ u ∈ E.users v ∧ x = some u ∧
        ((E.instKind u = InstKind.load ∧ sf = false) ∨
         (E.instKind u = InstKind.gep ∧ E.isGEPOffsetMatchDIOffset ty u = true)) := by
  cases b with
  | none => simp [scanBaseVar]
  | some v =>
    simp only [scanBaseVar, foldl_scanUser_mem, Option.some.injEq]
    constructor
    · rintro (h | ⟨u, hu, h⟩)
      · exact Or.inl h
      · exact Or.inr ⟨v, u, rfl, hu, h⟩
    · rintro (h | ⟨v', u, hv, hu, h⟩)
      · exact Or.inl h
      · subst hv; exact Or.inr ⟨u, hu, h⟩

/-- Membership in the set computed by the two nested loops of
`computeDerivedAddrVarsFromParent`. -/
theorem foldl_scanBaseVar_mem (E : Env) (ty : DIType) (sf : Bool) (base : List (Option Value))
    (acc : List (Option Value)) (x : Option Value) :
    x ∈ base.foldl (scanBaseVar E ty sf) acc ↔
      x ∈ acc ∨ ∃ v u, some v ∈ base ∧ u ∈ E.users v ∧ x = some u ∧
        ((E.instKind u = InstKind.load ∧ sf = false) ∨
         (E.instKind u = InstKind.gep ∧ E.isGEPOffsetMatchDIOffset ty u = true)) := by
  induction base generalizing acc with
  | nil => simp
  | cons b base ih =>
    simp only [List.foldl_cons, ih, scanBaseVar_mem, List.mem_cons]
    constructor
    · rintro ((h | ⟨v, u, hb, h⟩) | ⟨v, u, hb, h⟩)
      · exact Or.inl h
      · exact Or.inr ⟨v, u, Or.inl hb.symm, h⟩
      · exact Or.inr ⟨v, u, Or.inr hb, h⟩
    · rintro (h | ⟨v, u, hb | hb, h⟩)
      · exact Or.inl (Or.inl h)
      · exact Or.inl (Or.inr ⟨v, u, hb.symm, h⟩)
      · exact Or.inr ⟨v, u, hb, h⟩

theorem lt_of_getElem? {α : Type} {l : List α} {i : Nat} {a : α} (h : l[i]? = some a) :
    i < l.length := by
  rcases List.getElem?_eq_some.1 h with ⟨hi, _⟩
  exact hi

theorem set_same {α : Type} {l : List α} {i : Nat} {a : α} (h : l[i]? = some a) :
    l.set i a = l := by
  apply List.ext_getElem?
  intro j
  rw [List.getElem?_set]
  by_cases hij : i = j
  · subst hij
    simp [lt_of_getElem? h, h]
  · simp [hij]

theorem setNode_same {h : Heap} {i : Nat} {n : TreeNode} (hn : h.nodes[i]? = some n) :
    h.setNode i n = h := by
  unfold Heap.setNode
  rw [set_same hn]

/-- What `computeDerivedAddrVarsFromParent` changes: at most the address variables of the
node it is run on. -/
theorem computeDerived_shape {E : Env} {h h' : Heap} {self : Nat}
    (hrun : computeDerivedAddrVarsFromParent E h self = some h') :
    ∃ me vars, h.nodes[self]? = some me ∧
      h' = h.setNode self { me with addrVars := vars } := by
  unfold computeDerivedAddrVarsFromParent at hrun
  cases hme : h.nodes[self]? with
  | none => simp [hme] at hrun
  | some me =>
    simp only [hme] at hrun
    have hsame : h = h.setNode self { me with addrVars := me.addrVars } :=
      (setNode_same hme).symm
    cases hp : me.parentNode with
    | none =>
      simp only [hp, Option.some.injEq] at hrun
      exact ⟨me, me.addrVars, rfl, by rw [← hrun]; exact hsame⟩
    | some p =>
      simp only [hp] at hrun
      cases hty : me.diType with
      | none =>
        simp only [hty, Option.some.injEq] at hrun
        exact ⟨me, me.addrVars, rfl, by rw [← hrun]; exact hsame⟩
      | some ty =>
        simp only [hty] at hrun
        cases hpn : h.nodes[p]? with
        | none => simp [hpn] at hrun
        | some pn =>
          simp only [hpn] at hrun
          cases hpty : pn.diType with
          | none => simp [hpty] at hrun
          | some pty =>
            simp only [hpty] at hrun
            cases hb : baseAddrVars E h pn pty with
            | none => simp [hb] at hrun
            | some base =>
              simp only [hb, Option.some.injEq] at hrun
              refine ⟨me, base.foldl (scanBaseVar E ty (E.isStructType pty)) me.addrVars,
                rfl, ?_⟩
              rw [← hrun, hp, hty]

/-- The run of `computeDerivedAddrVarsFromParent` past its two early returns. -/
theorem computeDerived_eq {E : Env} {h : Heap} {self p : Nat} {me pn : TreeNode}
    {ty pty : DIType} {base : List (Option Value)}
    (hme : h.nodes[self]? = some me) (hp : me.parentNode = some p)
    (hty : me.diType = some ty) (hpn : h.nodes[p]? = some pn) (hpty : pn.diType = some pty)
    (hb : baseAddrVars E h pn pty = some base) :
    computeDerivedAddrVarsFromParent E h self =
      some (h.setNode self { me with
        addrVars := (base.foldl (scanBaseVar E ty (E.isStructType pty)) me.addrVars) }) := by
  unfold computeDerivedAddrVarsFromParent
  simp only [hme, hp, hty, hpn, hpty, hb]

theorem setNode_get_self {h : Heap} {i : Nat} {n m : TreeNode} (hn : h.nodes[i]? = some n) :
    (h.setNode i m).nodes[i]? = some m := by
  unfold Heap.setNode
  simp [List.getElem?_set, lt_of_getElem? hn]

theorem allocNode_get_new (h : Heap) (n : TreeNode) :
    (h.allocNode n).nodes[h.nodes.length]? = some n := by
  simp [Heap.allocNode]

theorem allocNode_get_old {h : Heap} {n m : TreeNode} {i : Nat} (hi : h.nodes[i]? = some m) :
    (h.allocNode n).nodes[i]? = some m := by
  simp [Heap.allocNode, List.getElem?_append_left (lt_of_getElem? hi), hi]

theorem alloc_set_set {α : Type} (l : List α) (a b m : α) (i : Nat) (hi : i < l.length) :
    ((l ++ [a]).set l.length b).set i m = l.set i m ++ [b] := by
  have h1 : (l ++ [a]).set l.length b = l ++ [b] := by
    rw [List.set_append]; simp
  rw [h1, List.set_append_left _ _ hi]

theorem addChild_spec {E : Env} {h h' : Heap} {self : Nat} {ty : Option DIType}
    {me : TreeNode} (hme : h.nodes[self]? = some me)
    (hrun : addChild E h self ty = some h') :
    ∃ k, NewChild h me self k ∧ k.diType = ty ∧
      h'.nodes = h.nodes.set self
        { me with children := me.children ++ [h.nodes.length] } ++ [k] ∧
      h'.trees = h.trees ∧
      h'.edges = h.edges ++
        [{ src := self, dst := h.nodes.length, type := EdgeType.PARAMETER_FIELD }] := by
  unfold addChild at hrun
  simp only [hme] at hrun
  cases hrv : rootValue h me with
  | none => simp [hrv] at hrun
  | some rv =>
    simp only [hrv] at hrun
    split at hrun
    · simp at hrun
    · rename_i h1 hcd
      obtain ⟨c, vars, hc, hh1⟩ := computeDerived_shape hcd
      rw [allocNode_get_new] at hc
      injection hc with hc
      subst hc
      have hlt := lt_of_getElem? hme
      have h1self : h1.nodes[self]? = some me := by
        rw [hh1]
        simp only [Heap.setNode, Heap.allocNode]
        rw [List.getElem?_set_ne (by omega), List.getElem?_append_left hlt, hme]
      simp only [h1self, Option.some.injEq] at hrun
      subst hrun
      refine ⟨{ nodeType := me.nodeType, val := rv, func := me.func, diType := ty,
                depth := wrapInt 32 (me.depth + 1), parentNode := some self,
                tree := me.tree, children := [], addrVars := vars, accTags := [] },
              ⟨rfl, hrv, rfl, rfl, rfl, rfl, rfl, rfl⟩, rfl, ?_, ?_, ?_⟩
      · rw [hh1]
        exact alloc_set_set _ _ _ _ _ hlt
      · rw [hh1]; rfl
      · rw [hh1]; rfl

theorem baseAddrVars_ok {E : Env} {h : Heap} {pn : TreeNode} {pty : DIType}
    (hpty : pn.diType = some pty) (hcd : CanDerive E h pn) :
    ∃ base, baseAddrVars E h pn pty = some base := by
  unfold baseAddrVars
  cases hg : pn.parentNode with
  | none => exact ⟨_, rfl⟩
  | some g =>
    by_cases hs : E.isStructType pty = true
    · obtain ⟨gn, gty, hgn, hgty⟩ := hcd pty g hpty hg hs
      simp only [hs, if_true, hgn, hgty]
      split <;> exact ⟨_, rfl⟩
    · simp only [hs]
      exact ⟨_, rfl⟩

theorem baseAddrVars_alloc {E : Env} {h : Heap} {pn n : TreeNode} {pty : DIType}
    {base : List (Option Value)} (hb : baseAddrVars E h pn pty = some base) :
    baseAddrVars E (h.allocNode n) pn pty = some base := by
  unfold baseAddrVars at hb ⊢
  cases hg : pn.parentNode with
  | none => simpa [hg] using hb
  | some g =>
    simp only [hg] at hb ⊢
    by_cases hs : E.isStructType pty = true
    · simp only [hs, if_true] at hb ⊢
      cases hgn : h.nodes[g]? with
      | none => simp [hgn] at hb
      | some gn =>
        rw [allocNode_get_old hgn]
        simpa [hgn] using hb
    · simpa [hs] using hb

theorem addChild_ok {E : Env} {h : Heap} {self : Nat} (ty : Option DIType) {me : TreeNode}
    {rv : Option Value} (hme : h.nodes[self]? = some me) (hrv : rootValue h me = some rv)
    (hty : ty ≠ none → me.diType ≠ none) (hcd : CanDerive E h me) :
    ∃ h', addChild E h self ty = some h' := by
  have hlt := lt_of_getElem? hme
  have key : ∀ child : TreeNode, child.parentNode = some self → child.diType = ty →
      ∃ h1, computeDerivedAddrVarsFromParent E (h.allocNode child) h.nodes.length = some h1 := by
    intro child hcp hct
    cases hty2 : ty with
    | none =>
      refine ⟨h.allocNode child, ?_⟩
      unfold computeDerivedAddrVarsFromParent
      simp only [allocNode_get_new, hcp, hct, hty2]
    | some t =>
      cases hpty : me.diType with
      | none => exact absurd hpty (hty (by simp [hty2]))
      | some pty =>
        obtain ⟨base, hb⟩ := baseAddrVars_ok hpty hcd
        exact ⟨_, computeDerived_eq (allocNode_get_new h child) hcp (hct.trans hty2)
          (allocNode_get_old hme) hpty (baseAddrVars_alloc hb)⟩
  unfold addChild
  simp only [hme, hrv]
  obtain ⟨h1, hh1⟩ := key
    { nodeType := me.nodeType, val := rv, func := me.func, diType := ty,
      depth := wrapInt 32 (me.depth + 1), parentNode := some self,
      tree := me.tree, children := [], addrVars := [], accTags := [] } rfl rfl
  simp only [hh1]
  obtain ⟨c, vars, hc, hh1eq⟩ := computeDerived_shape hh1
  have h1self : h1.nodes[self]? = some me := by
    rw [hh1eq]
    simp only [Heap.setNode, Heap.allocNode]
    rw [List.getElem?_set_ne (by omega), List.getElem?_append_left hlt, hme]
  simp only [h1self]
  exact ⟨_, rfl⟩

theorem rootValue_grow {h h1 : Heap} {me k : TreeNode} (me1 : TreeNode) {self : Nat}
    {rv : Option Value} (hme : h.nodes[self]? = some me)
    (hrv : rootValue h me = some rv)
    (hnodes : h1.nodes = h.nodes.set self me1 ++ [k]) (htrees : h1.trees = h.trees)
    (htree : me1.tree = me.tree) (hval : me1.val = me.val) :
    rootValue h1 me1 = some rv := by
  unfold rootValue at hrv ⊢
  rw [htree, htrees]
  cases ht : me.tree with
  | none => simp [ht] at hrv
  | some t =>
    simp only [ht] at hrv ⊢
    cases hT : h.trees[t]? with
    | none => simp [hT] at hrv
    | some T =>
      simp only [hT] at hrv ⊢
      cases hr : h.nodes[T.rootNode]? with
      | none => simp [hr] at hrv
      | some r =>
        simp only [hr, Option.some.injEq] at hrv
        have hlt := lt_of_getElem? hr
        rw [hnodes, List.getElem?_append_left (by simpa using hlt), List.getElem?_set]
        by_cases hs : self = T.rootNode
        · subst hs
          rw [hme] at hr
          injection hr with hr
          subst hr
          simp [hlt, hval, hrv]
        · simp [hs, hr, hrv]

theorem canDerive_grow {E : Env} {h h1 : Heap} {me me1 k m : TreeNode} {self : Nat}
    (hnodes : h1.nodes = h.nodes.set self m ++ [k])
    (hm : ∀ n, h.nodes[self]? = some n → m.diType = n.diType)
    (hty : me1.diType = me.diType) (hp : me1.parentNode = me.parentNode)
    (hcd : CanDerive E h me) : CanDerive E h1 me1 := by
  intro pty g h1ty h1p hs
  rw [hty] at h1ty
  rw [hp] at h1p
  obtain ⟨gn, gty, hgn, hgty⟩ := hcd pty g h1ty h1p hs
  have hlt := lt_of_getElem? hgn
  rw [hnodes, List.getElem?_append_left (by simpa using hlt), List.getElem?_set]
  by_cases hsg : self = g
  · subst hsg
    refine ⟨m, gty, by simp [hlt], ?_⟩
    rw [hm gn hgn, hgty]
  · exact ⟨gn, gty, by simp [hsg, hgn], hgty⟩

theorem addChildren_spec {E : Env} {self : Nat} (tys : List (Option DIType)) :
    ∀ {h h' : Heap} {me : TreeNode}, h.nodes[self]? = some me →
      addChildren E self tys h = some h' →
      ∃ kids : List TreeNode, kids.map TreeNode.diType = tys ∧
        (∀ k ∈ kids, NewChild h me self k) ∧
        h'.nodes = h.nodes.set self
          { me with children := me.children ++ List.range' h.nodes.length kids.length }
            ++ kids ∧
        h'.trees = h.trees ∧
        h'.edges = h.edges ++ (List.range' h.nodes.length kids.length).map (fieldEdge self) := by
  induction tys with
  | nil =>
    intro h h' me hme hrun
    simp only [addChildren, Option.some.injEq] at hrun
    subst hrun
    refine ⟨[], rfl, by simp, ?_, rfl, by simp⟩
    simp only [List.length_nil, List.range'_zero, List.append_nil]
    exact (set_same hme).symm
  | cons ft rest ih =>
    intro h h' me hme hrun
    simp only [addChildren] at hrun
    cases h1eq : addChild E h self ft with
    | none => simp [h1eq] at hrun
    | some h1 =>
      simp only [h1eq] at hrun
      obtain ⟨k, hk, hkty, hn1, ht1, he1⟩ := addChild_spec hme h1eq
      have hlt := lt_of_getElem? hme
      have hme1 : h1.nodes[self]? =
          some { me with children := me.children ++ [h.nodes.length] } := by
        rw [hn1, List.getElem?_append_left (by simpa using hlt)]
        simp [List.getElem?_set, hlt]
      obtain ⟨kids, hkt, hkids, hn, ht, he⟩ := ih hme1 hrun
      have hlen : h1.nodes.length = h.nodes.length + 1 := by
        rw [hn1]; simp
      refine ⟨k :: kids, by simp [hkty, hkt], ?_, ?_, ht.trans ht1, ?_⟩
      · intro x hx
        rcases List.mem_cons.1 hx with hx | hx
        · subst hx; exact hk
        · obtain ⟨a1, a2, a3, a4, a5, a6, a7, a8⟩ := hkids x hx
          have hrv := rootValue_grow { me with children := me.children ++ [h.nodes.length] }
            hme hk.2.1 hn1 ht1 rfl rfl
          rw [hrv] at a2
          refine ⟨a1, ?_, a3, a4, a5, a6, a7, a8⟩
          rw [hk.2.1, a2]
      · rw [hn, hlen, hn1]
        rw [List.set_append_left _ _ (by simpa using hlt), List.set_set]
        simp only [List.length_cons, List.range'_succ, List.append_assoc, List.singleton_append,
          List.cons_append, List.nil_append]
      · rw [he, he1, hlen]
        simp [List.range'_succ, fieldEdge]

theorem addChildren_ok {E : Env} {self : Nat} (tys : List (Option DIType)) :
    ∀ {h : Heap} {me : TreeNode} {rv : Option Value}, h.nodes[self]? = some me →
      rootValue h me = some rv → me.diType ≠ none → CanDerive E h me →
      ∃ h', addChildren E self tys h = some h' := by
  induction tys with
  | nil => intro h me rv _ _ _ _; exact ⟨h, rfl⟩
  | cons ft rest ih =>
    intro h me rv hme hrv hty hcd
    obtain ⟨h1, h1eq⟩ := addChild_ok ft hme hrv (fun _ => hty) hcd
    obtain ⟨k, hk, hkty, hn1, ht1, he1⟩ := addChild_spec hme h1eq
    have hlt := lt_of_getElem? hme
    have hme1 : h1.nodes[self]? =
        some { me with children := me.children ++ [h.nodes.length] } := by
      rw [hn1, List.getElem?_append_left (by simpa using hlt)]
      simp [List.getElem?_set, hlt]
    have hrv1 := rootValue_grow { me with children := me.children ++ [h.nodes.length] }
      hme hrv hn1 ht1 rfl rfl
    have hcd1 : CanDerive E h1 { me with children := me.children ++ [h.nodes.length] } :=
      canDerive_grow hn1 (by intro n hn; rw [hme] at hn; injection hn with hn; rw [← hn])
        rfl rfl hcd
    obtain ⟨h', hh'⟩ := ih hme1 hrv1 hty hcd1
    exact ⟨h', by simp only [addChildren, h1eq, hh']⟩

/-- The effect of a run of `expandNode`: the new nodes `kids` are allocated after the old
ones, their addresses are appended to the children of the expanded node, one edge per child
is recorded, and the count of the new nodes is returned. -/
theorem expandNode_spec {E : Env} {h h' : Heap} {self : Nat} {me : TreeNode} {cnt : Int}
    (hme : h.nodes[self]? = some me) (hrun : expandNode E h self = some (h', cnt)) :
    ∃ kids : List TreeNode, kids.map TreeNode.diType = childTypes E me.diType ∧
      (∀ k ∈ kids, NewChild h me self k) ∧
      h'.nodes = h.nodes.set self
        { me with children := me.children ++ List.range' h.nodes.length kids.length }
          ++ kids ∧
      h'.trees = h.trees ∧
      h'.edges = h.edges ++ (List.range' h.nodes.length kids.length).map (fieldEdge self) ∧
      cnt = (kids.length : Int) := by
  have hnil : ∀ ty, childTypes E ty = [] → h' = h → cnt = 0 → me.diType = ty →
      ∃ kids : List TreeNode, kids.map TreeNode.diType = childTypes E me.diType ∧
      (∀ k ∈ kids, NewChild h me self k) ∧
      h'.nodes = h.nodes.set self
        { me with children := me.children ++ List.range' h.nodes.length kids.length }
          ++ kids ∧
      h'.trees = h.trees ∧
      h'.edges = h.edges ++ (List.range' h.nodes.length kids.length).map (fieldEdge self) ∧
      cnt = (kids.length : Int) := by
    intro ty hct hh hc hty
    subst hh
    refine ⟨[], by rw [hty, hct]; rfl, by simp, ?_, rfl, by simp, by simp [hc]⟩
    simp only [List.length_nil, List.range'_zero, List.append_nil]
    exact (set_same hme).symm
  unfold expandNode at hrun
  simp only [hme] at hrun
  cases hty : me.diType with
  | none =>
    simp only [hty, Option.some.injEq, Prod.mk.injEq] at hrun
    rw [← hty]
    exact hnil none rfl hrun.1.symm hrun.2.symm hty
  | some t =>
    simp only [hty] at hrun
    rw [← hty]
    by_cases hp : E.isPointerType (E.stripAttributes (E.stripMemberTag t)) = true
    · simp only [hp, Bool.not_true, Bool.false_and, if_true] at hrun
      simp only [Bool.false_eq_true, if_false] at hrun
      cases h1eq : addChild E h self
          (E.getLowestDIType (E.stripAttributes (E.stripMemberTag t))) with
      | none => simp [h1eq] at hrun
      | some h1 =>
        simp only [h1eq, Option.some.injEq, Prod.mk.injEq] at hrun
        obtain ⟨hh, hc⟩ := hrun
        subst hh
        obtain ⟨k, hk, hkty, hn1, ht1, he1⟩ := addChild_spec hme h1eq
        refine ⟨[k], ?_, ?_, ?_, ht1, ?_, ?_⟩
        · simp [childTypes, hty, hp, hkty]
        · intro x hx
          rw [List.mem_singleton.1 hx]; exact hk
        · rw [hn1]; simp
        · rw [he1]; simp [fieldEdge]
        · simp [← hc]
    · have hp2 : E.isPointerType (E.stripAttributes (E.stripMemberTag t)) = false := by
        simpa using hp
      by_cases hq : E.isProjectableType (E.stripAttributes (E.stripMemberTag t)) = true
      · simp only [hp2, hq, Bool.not_true, Bool.not_false, Bool.and_false, Bool.false_eq_true,
          if_false, if_true] at hrun
        cases h1eq : addChildren E self
            (E.getElements (E.stripAttributes (E.stripMemberTag t))) h with
        | none => simp [h1eq] at hrun
        | some h1 =>
          simp only [h1eq, Option.some.injEq, Prod.mk.injEq] at hrun
          obtain ⟨hh, hc⟩ := hrun
          subst hh
          obtain ⟨kids, hkt, hkids, hn, ht, he⟩ := addChildren_spec _ hme h1eq
          refine ⟨kids, ?_, hkids, hn, ht, he, ?_⟩
          · simp [childTypes, hty, hp2, hq, hkt]
          · rw [← hc, ← hkt]; simp
      · have hq2 : E.isProjectableType (E.stripAttributes (E.stripMemberTag t)) = false := by
          simpa using hq
        simp only [hp2, hq2, Bool.not_false, Bool.and_self, if_true, Option.some.injEq,
          Prod.mk.injEq] at hrun
        exact hnil (some t) (by simp [childTypes, hp2, hq2]) hrun.1.symm hrun.2.symm hty

/-- A run of `expandNode` meets no null pointer when the owning tree and its root are
allocated and the dereferences of `computeDerivedAddrVarsFromParent` are valid. -/
theorem expandNode_ok {E : Env} {h : Heap} {self : Nat} {me : TreeNode} {rv : Option Value}
    (hme : h.nodes[self]? = some me) (hrv : rootValue h me = some rv)
    (hcd : CanDerive E h me) :
    ∃ r, expandNode E h self = some r := by
  unfold expandNode
  simp only [hme]
  cases hty : me.diType with
  | none => exact ⟨_, rfl⟩
  | some t =>
    simp only []
    have hne : me.diType ≠ none := by simp [hty]
    split
    · exact ⟨_, rfl⟩
    · split
      · obtain ⟨h1, h1eq⟩ := addChild_ok
          (E.getLowestDIType (E.stripAttributes (E.stripMemberTag t)))
          hme hrv (fun _ => hne) hcd
        simp only [h1eq]
        exact ⟨_, rfl⟩
      · split
        · obtain ⟨h1, h1eq⟩ := addChildren_ok
            (E.getElements (E.stripAttributes (E.stripMemberTag t))) hme hrv hne hcd
          simp only [h1eq]
          exact ⟨_, rfl⟩
        · exact ⟨_, rfl⟩

/-! ## The loops of `Tree::build` -/

/-- The nodes of the memory after a run of `expandNode` on `cur`. -/
theorem grown_get {l l2 : List TreeNode} {cur : Nat} {me m : TreeNode} {kids : List TreeNode}
    (hme : l[cur]? = some me) (hl2 : l2 = l.set cur m ++ kids) :
    l2.length = l.length + kids.length ∧ l2[cur]? = some m ∧
    (∀ i, i ≠ cur → i < l.length → l2[i]? = l[i]?) ∧
    (∀ j, j < kids.length → l2[l.length + j]? = kids[j]?) := by
  have hlt := lt_of_getElem? hme
  subst hl2
  refine ⟨by simp, ?_, ?_, ?_⟩
  · rw [List.getElem?_append_left (by simpa using hlt)]
    simp [List.getElem?_set, hlt]
  · intro i hi hil
    rw [List.getElem?_append_left (by simpa using hil), List.getElem?_set_ne (Ne.symm hi)]
  · intro j _
    rw [List.getElem?_append_right (by simp)]
    simp

theorem incSize_spec {h h1 : Heap} {t : Nat} {T : Tree} (hT : h.trees[t]? = some T)
    (hrun : incSize h t = some h1) :
    h1.nodes = h.nodes ∧ h1.edges = h.edges ∧
      h1.trees[t]? = some { T with size := T.size + 1 } := by
  unfold incSize at hrun
  simp only [hT, Option.some.injEq] at hrun
  subst hrun
  refine ⟨rfl, rfl, ?_⟩
  simp [List.getElem?_set, lt_of_getElem? hT]

theorem buildInv_step {t r base : Nat} {d : Int} {h h2 : Heap}
    {done rem new : List Nat} {cur : Nat} {me : TreeNode} {kids : List TreeNode} (T2 : Tree)
    (inv : BuildInv t r base d h done (cur :: rem) new)
    (hme : h.nodes[cur]? = some me) (hmed : me.depth = d) (hmec : me.children = [])
    (hmet : me.tree = some t)
    (hnodes : h2.nodes = h.nodes.set cur
        { me with children := me.children ++ List.range' h.nodes.length kids.length }
          ++ kids)
    (hT2 : h2.trees[t]? = some T2) (hT2r : T2.rootNode = r)
    (hT2s : T2.size = (done.length : Int) + 1)
    (hkids : ∀ k ∈ kids, k.tree = me.tree ∧ k.parentNode = some cur ∧
      k.depth = me.depth + 1 ∧ k.children = [])
    (hkval : ∀ k ∈ kids, ∀ rn, h.nodes[r]? = some rn → k.val = rn.val)
    (hmety : kids ≠ [] → me.diType ≠ none) :
    BuildInv t r base d h2 (done ++ [cur]) rem
      (new ++ List.range' h.nodes.length kids.length) := by
  obtain ⟨rn, hrn, hrt, hrp, hrd⟩ := inv.rootN
  have hcurmem : cur ∈ done ++ (cur :: rem) ++ new := by simp
  have hcurT := (inv.mem cur).1 hcurmem
  have hcurlt : cur < h.nodes.length := lt_of_getElem? hme
  obtain ⟨hlen, hgcur, hgold, hgnew⟩ := grown_get hme hnodes
  have hble := inv.ble
  have hrlt := inv.rlt
  have hold : ∀ i n, h.nodes[i]? = some n → ∃ n', h2.nodes[i]? = some n' ∧
      n'.depth = n.depth ∧ n'.tree = n.tree ∧ n'.parentNode = n.parentNode ∧
      n'.diType = n.diType ∧ (∀ c ∈ n.children, c ∈ n'.children) ∧
      (i ≠ cur → n' = n) ∧ n'.val = n.val := by
    intro i n hn
    by_cases hic : i = cur
    · subst hic
      rw [hme] at hn; injection hn with hn; subst hn
      exact ⟨_, hgcur, rfl, rfl, rfl, rfl, fun c hc => List.mem_append_left _ hc,
        fun hne => absurd rfl hne, rfl⟩
    · refine ⟨n, ?_, rfl, rfl, rfl, rfl, fun c hc => hc, fun _ => rfl, rfl⟩
      rw [hgold i hic (lt_of_getElem? hn), hn]
  have hkid : ∀ i, h.nodes.length ≤ i → i < h2.nodes.length →
      ∃ k, h2.nodes[i]? = some k ∧ k ∈ kids := by
    intro i hi hi2
    have hj : i - h.nodes.length < kids.length := by omega
    have := hgnew (i - h.nodes.length) hj
    rw [show h.nodes.length + (i - h.nodes.length) = i by omega] at this
    rw [this, List.getElem?_eq_getElem hj]
    exact ⟨_, rfl, List.getElem_mem _⟩
  have hm : ∀ i, (i ∈ done ∨ i = cur ∨ i ∈ rem ∨ i ∈ new) ↔
      (i = r ∨ (base ≤ i ∧ i < h.nodes.length)) := by
    intro i
    have := inv.mem i
    simpa [List.mem_append, List.mem_cons, or_assoc] using this
  have hnd : (done ++ (cur :: rem ++ new)).Nodup := by
    have := inv.nodup
    simpa [List.append_assoc] using this
  have hcur_rem : cur ∉ rem := by
    intro hc
    have := (List.nodup_append.1 hnd).2.1
    simp only [List.cons_append, List.nodup_cons, List.mem_append] at this
    exact this.1 (Or.inl hc)
  have hcur_new : cur ∉ new := by
    intro hc
    have := (List.nodup_append.1 hnd).2.1
    simp only [List.cons_append, List.nodup_cons, List.mem_append] at this
    exact this.1 (Or.inr hc)
  constructor
  · -- tree
    refine ⟨T2, hT2, hT2r, ?_⟩
    simp [hT2s]
  · exact hrlt
  · omega
  · -- rootN
    obtain ⟨n', hn', h1', h2', h3', _⟩ := hold r rn hrn
    exact ⟨n', hn', h2'.trans hrt, h3'.trans hrp, h1'.trans hrd⟩
  · -- nodup
    have : done ++ [cur] ++ rem ++ (new ++ List.range' h.nodes.length kids.length) =
        (done ++ (cur :: rem ++ new)) ++ List.range' h.nodes.length kids.length := by
      simp [List.append_assoc]
    rw [this]
    refine List.Nodup.append hnd (List.nodup_range' _ _) ?_
    intro x hx1 hx2
    have hx : x = r ∨ (base ≤ x ∧ x < h.nodes.length) := by
      apply (hm x).1
      simpa [List.mem_append, List.mem_cons, or_assoc] using hx1
    rw [List.mem_range'_1] at hx2
    omega
  · -- mem
    intro i
    have := hm i
    simp only [List.mem_append, List.mem_singleton, List.mem_range'_1]
    constructor
    · intro hx
      have hlen2 := hlen
      rcases hx with ((hx | hx) | hx) | hx | hx
      · have := (hm i).1 (Or.inl hx); omega
      · have := (hm i).1 (Or.inr (Or.inl hx)); omega
      · have := (hm i).1 (Or.inr (Or.inr (Or.inl hx))); omega
      · have := (hm i).1 (Or.inr (Or.inr (Or.inr hx))); omega
      · omega
    · intro hx
      by_cases hil : i < h.nodes.length
      · have : i ∈ done ∨ i = cur ∨ i ∈ rem ∨ i ∈ new := (hm i).2 (by omega)
        rcases this with hx | hx | hx | hx
        · exact Or.inl (Or.inl (Or.inl hx))
        · exact Or.inl (Or.inl (Or.inr hx))
        · exact Or.inl (Or.inr hx)
        · exact Or.inr (Or.inl hx)
      · right; right; omega
  · -- newN
    intro i hib hil
    by_cases hi : i < h.nodes.length
    · obtain ⟨n, p, pn, hn, hnt, hnp, hp, hpn, hic, hpty, hdep, rn0, hrn0, hval⟩ :=
        inv.newN i hib hi
      obtain ⟨n', hn', a1, a2, a3, _, _, _, a8⟩ := hold i n hn
      obtain ⟨pn', hpn', b1, _, _, b4, b5, _⟩ := hold p pn hpn
      obtain ⟨rn', hrn', _, _, _, _, _, _, r8⟩ := hold r rn0 hrn0
      refine ⟨n', p, pn', hn', a2.trans hnt, a3.trans hnp, hp, hpn', b5 i hic, ?_, ?_,
        rn', hrn', ?_⟩
      · rw [b4]; exact hpty
      · rw [a1, b1]; exact hdep
      · rw [a8, r8]; exact hval
    · obtain ⟨k, hk, hkm⟩ := hkid i (by omega) hil
      obtain ⟨c6, c5, c4, _⟩ := hkids k hkm
      obtain ⟨rn', hrn', _, _, _, _, _, _, r8⟩ := hold r rn hrn
      refine ⟨k, cur, _, hk, c6.trans hmet, c5, ?_, hgcur, ?_, ?_, ?_, rn', hrn', ?_⟩
      · omega
      · apply List.mem_append_right
        rw [List.mem_range'_1]; omega
      · exact hmety (List.ne_nil_of_mem hkm)
      · exact c4
      · rw [r8]; exact hkval k hkm rn hrn
  · -- kids
    intro p n hp hn
    by_cases hpc : p = cur
    · subst hpc
      rw [hgcur] at hn; injection hn with hn; subst hn
      simp only [hmec, List.nil_append]
      refine ⟨List.nodup_range' _ _, ?_⟩
      intro c hc
      rw [List.mem_range'_1] at hc
      obtain ⟨k, hk, hkm⟩ := hkid c hc.1 (by omega)
      obtain ⟨_, c5, _, _⟩ := hkids k hkm
      exact ⟨by omega, by omega, k, hk, c5⟩
    · by_cases hpl : p < h.nodes.length
      · rw [hgold p hpc hpl] at hn
        obtain ⟨hnd2, hch⟩ := inv.kids p n (by omega) hn
        refine ⟨hnd2, ?_⟩
        intro c hc
        obtain ⟨hc1, hc2, cn, hcn, hcp⟩ := hch c hc
        obtain ⟨cn', hcn', _, _, a3, _⟩ := hold c cn hcn
        exact ⟨hc1, by omega, cn', hcn', a3.trans hcp⟩
      · obtain ⟨k, hk, hkm⟩ := hkid p (by omega) (lt_of_getElem? hn)
        rw [hk] at hn; injection hn with hn; subst hn
        obtain ⟨_, _, _, c7⟩ := hkids k hkm
        rw [c7]
        exact ⟨List.nodup_nil, fun c hc => by simp at hc⟩
  · -- doneD
    intro i hi
    rcases List.mem_append.1 hi with hi | hi
    · obtain ⟨n, hn, hd⟩ := inv.doneD i hi
      obtain ⟨n', hn', a1, _⟩ := hold i n hn
      exact ⟨n', hn', by rw [a1]; exact hd⟩
    · rw [List.mem_singleton.1 hi]
      exact ⟨_, hgcur, by simp [hmed]⟩
  · -- remD
    intro i hi
    obtain ⟨n, hn, hd, hc⟩ := inv.remD i (List.mem_cons_of_mem _ hi)
    obtain ⟨n', hn', _, _, _, _, _, a7, _⟩ := hold i n hn
    have hic : i ≠ cur := fun hic => hcur_rem (hic ▸ hi)
    rw [a7 hic] at hn'
    exact ⟨n, hn', hd, hc⟩
  · -- newD
    intro i hi
    rcases List.mem_append.1 hi with hi | hi
    · obtain ⟨n, hn, hd, hc⟩ := inv.newD i hi
      obtain ⟨n', hn', _, _, _, _, _, a7, _⟩ := hold i n hn
      have hic : i ≠ cur := fun hic => hcur_new (hic ▸ hi)
      rw [a7 hic] at hn'
      exact ⟨n, hn', hd, hc⟩
    · rw [List.mem_range'_1] at hi
      obtain ⟨k, hk, hkm⟩ := hkid i hi.1 (by omega)
      obtain ⟨_, _, c4, c7⟩ := hkids k hkm
      exact ⟨k, hk, by rw [c4, hmed], c7⟩


theorem build_step {E : Env} {t r base : Nat} {d : Int} {h : Heap}
    {done rem new : List Nat} {cur : Nat}
    (inv : BuildInv t r base d h done (cur :: rem) new)
    (hwr : wrapInt 32 (d + 1) = d + 1) :
    ∃ h1 h2 cnt me2, ∃ n : Nat, incSize h t = some h1 ∧
      expandNode E h1 cur = some (h2, cnt) ∧
      cnt = (n : Int) ∧ h2.nodes[cur]? = some me2 ∧
      me2.children = List.range' h.nodes.length n ∧
      BuildInv t r base d h2 (done ++ [cur]) rem (new ++ List.range' h.nodes.length n) := by
  obtain ⟨T, hT, hTr, hTs⟩ := inv.tree
  obtain ⟨rn, hrn, hrt, hrp, hrd⟩ := inv.rootN
  obtain ⟨me, hme, hmed, hmec⟩ := inv.remD cur (List.mem_cons_self _ _)
  have hcurmem : cur ∈ done ++ (cur :: rem) ++ new := by simp
  have hcurT := (inv.mem cur).1 hcurmem
  have hcurlt : cur < h.nodes.length := lt_of_getElem? hme
  -- _size++
  have hinc : ∃ h1, incSize h t = some h1 := by
    unfold incSize; simp only [hT]; exact ⟨_, rfl⟩
  obtain ⟨h1, hh1⟩ := hinc
  obtain ⟨h1n, h1e, h1t⟩ := incSize_spec hT hh1
  have hme1 : h1.nodes[cur]? = some me := by rw [h1n]; exact hme
  -- the owning tree of the dequeued node
  have hmet : me.tree = some t := by
    rcases hcurT with hc | ⟨hb, hl⟩
    · subst hc; rw [hrn] at hme; injection hme with hme; subst hme; exact hrt
    · obtain ⟨n, p, pn, hn, hnt, _⟩ := inv.newN cur hb hl
      rw [hme] at hn; injection hn with hn; subst hn; exact hnt
  have hrv : rootValue h1 me = some rn.val := by
    unfold rootValue
    simp only [hmet, h1t, hTr, h1n, hrn]
  have hcd : CanDerive E h1 me := by
    intro pty g _ hg _
    rcases hcurT with hc | ⟨hb, hl⟩
    · subst hc; rw [hrn] at hme; injection hme with hme; subst hme
      rw [hrp] at hg; cases hg
    · obtain ⟨n, p, pn, hn, _, hnp, _, hpn, _, hpty, _⟩ := inv.newN cur hb hl
      rw [hme] at hn; injection hn with hn; subst hn
      rw [hnp] at hg; injection hg with hg; subst hg
      rw [h1n]
      cases hq : pn.diType with
      | none => exact absurd hq hpty
      | some gty => exact ⟨pn, gty, hpn, hq⟩
  obtain ⟨⟨h2, cnt⟩, hexp⟩ := expandNode_ok hme1 hrv hcd
  obtain ⟨kids, hkt, hkids, hnodes, htrees, hedges, hcnt⟩ := expandNode_spec hme1 hexp
  rw [h1n] at hnodes
  obtain ⟨hlen, hgcur, hgold, hgnew⟩ := grown_get hme hnodes
  refine ⟨h1, h2, cnt, _, kids.length, hh1, hexp, hcnt, hgcur, by simp [hmec], ?_⟩
  refine buildInv_step { T with size := T.size + 1 } inv hme hmed hmec hmet hnodes
    (by rw [htrees]; exact h1t) hTr (by simp [hTs]) ?_ ?_ ?_
  · intro k hk
    obtain ⟨_, _, _, c4, c5, c6, c7, _⟩ := hkids k hk
    exact ⟨c6, c5, by rw [c4, hmed, hwr], c7⟩
  · intro k hk rn2 hrn2
    obtain ⟨_, c2, _⟩ := hkids k hk
    rw [hrn] at hrn2; injection hrn2 with hrn2; subst hrn2
    rw [hrv] at c2; injection c2 with c2
    exact c2.symm
  · intro hk hty
    rw [hty] at hkt
    simp only [childTypes, List.map_eq_nil_iff] at hkt
    exact hk hkt

theorem buildLevel_inv {E : Env} {t r base : Nat} {d : Int}
    (hwr : wrapInt 32 (d + 1) = d + 1) :
    ∀ (rem : List Nat) {h : Heap} {done new : List Nat},
      BuildInv t r base d h done rem new →
      ∃ h' new', buildLevel E t rem.length h (rem ++ new) = some (h', new') ∧
        BuildInv t r base d h' (done ++ rem) [] new' := by
  intro rem
  induction rem with
  | nil =>
    intro h done new inv
    exact ⟨h, new, rfl, by simpa using inv⟩
  | cons cur rem ih =>
    intro h done new inv
    obtain ⟨h1, h2, cnt, me2, n, hinc, hexp, hcnt, hme2, hch, inv2⟩ :=
      build_step (E := E) inv hwr
    by_cases hpos : cnt > 0
    · obtain ⟨h', new', hrun, inv'⟩ := ih inv2
      refine ⟨h', new', ?_, by simpa [List.append_assoc] using inv'⟩
      simp only [List.length_cons, List.cons_append, buildLevel, hinc, hexp, hpos, if_true,
        hme2, hch, List.append_assoc]
      exact hrun
    · have hn : n = 0 := by omega
      subst hn
      simp only [List.range'_zero, List.append_nil] at inv2
      obtain ⟨h', new', hrun, inv'⟩ := ih inv2
      refine ⟨h', new', ?_, by simpa [List.append_assoc] using inv'⟩
      simp only [List.length_cons, List.cons_append, buildLevel, hinc, hexp, hpos, if_false]
      exact hrun

theorem buildInv_next {t r base : Nat} {d : Int} {h : Heap} {done new : List Nat}
    (inv : BuildInv t r base d h done [] new) :
    BuildInv t r base (d + 1) h done new [] ∧
      ∀ i ∈ done, ∃ n, h.nodes[i]? = some n ∧ n.depth < d + 1 := by
  refine ⟨⟨inv.tree, inv.rlt, inv.ble, inv.rootN, by simpa using inv.nodup, ?_, inv.newN,
    inv.kids, ?_, inv.newD, ?_⟩, ?_⟩
  · intro i; simpa using inv.mem i
  · intro i hi
    obtain ⟨n, hn, hd⟩ := inv.doneD i hi
    exact ⟨n, hn, by omega⟩
  · intro i hi; simp at hi
  · intro i hi
    obtain ⟨n, hn, hd⟩ := inv.doneD i hi
    exact ⟨n, hn, by omega⟩

/-- The state in which the outer loop of `Tree::build` is left, for a depth bound below the
largest `int`: the level counter then stays in the range of an `int`. -/
theorem buildLoop_inv {E : Env} {t r base : Nat} {maxD : Int} (hmax : maxD < 2147483647) :
    ∀ (fuel : Nat) {d : Int} {h : Heap} {done q : List Nat},
      BuildInv t r base d h done q [] →
      (∀ i ∈ done, ∃ n, h.nodes[i]? = some n ∧ n.depth < d) →
      (d ≤ maxD ∨ (d = 0 ∧ done = [])) → (maxD - d).toNat < fuel → 0 ≤ d →
      ∃ h' d' done' q', buildLoopW E t 32 maxD fuel d h q = some h' ∧
        BuildInv t r base d' h' done' q' [] ∧
        (∀ i ∈ done', ∃ n, h'.nodes[i]? = some n ∧ n.depth < d') ∧
        (d' ≤ maxD ∨ (d' = 0 ∧ done' = [])) ∧ (q' = [] ∨ d' + 1 > maxD) := by
  intro fuel
  induction fuel with
  | zero => intro d h done q _ _ _ hf; omega
  | succ fuel ih =>
    intro d h done q inv hdone hd hf h0
    have hwr : wrapInt 32 (d + 1) = d + 1 :=
      wrapInt32_of_inRange (by omega) (by omega)
    unfold buildLoopW
    rw [hwr]
    by_cases hq : q.isEmpty = true
    · simp only [hq, if_true]
      exact ⟨h, d, done, q, rfl, inv, hdone, hd, Or.inl (List.isEmpty_iff.1 hq)⟩
    · simp only [hq, Bool.false_eq_true, if_false]
      by_cases hbrk : d + 1 > maxD
      · simp only [hbrk, if_true]
        exact ⟨h, d, done, q, rfl, inv, hdone, hd, Or.inr hbrk⟩
      · simp only [hbrk, if_false]
        obtain ⟨h1, new1, hrun, inv1⟩ := buildLevel_inv (E := E) hwr q inv
        rw [List.append_nil] at hrun
        simp only [hrun]
        obtain ⟨inv2, hdone2⟩ := buildInv_next inv1
        exact ih inv2 hdone2 (Or.inl (by omega)) (by omega) (by omega)

theorem freshTree_inv {h : Heap} {t : Nat} {T : Tree} {root : TreeNode}
    (hf : FreshTree h t T root) :
    BuildInv t T.rootNode h.nodes.length 0 h [] [T.rootNode] [] := by
  have hlt := lt_of_getElem? hf.node
  refine ⟨⟨T, hf.tree, rfl, by simp [hf.size]⟩, hlt, le_refl _,
    ⟨root, hf.node, hf.owner, hf.parentNode, hf.depth⟩, by simp, ?_, ?_, ?_, ?_, ?_, ?_⟩
  · intro i
    simp only [List.nil_append, List.append_nil, List.mem_singleton]
    constructor
    · intro hi; exact Or.inl hi
    · rintro (hi | hi)
      · exact hi
      · omega
  · intro i h1 h2; omega
  · intro p n hp hn
    rcases hp with hp | hp
    · subst hp
      rw [hf.node] at hn; injection hn with hn; subst hn
      rw [hf.children]
      exact ⟨List.nodup_nil, fun c hc => by simp at hc⟩
    · omega
  · intro i hi; simp at hi
  · intro i hi
    rw [List.mem_singleton.1 hi]
    exact ⟨root, hf.node, hf.depth, hf.children⟩
  · intro i hi; simp at hi

/-- On a fresh tree and for a depth bound below the largest `int`, `Tree::build` meets no
null pointer and does not run out of iterations; it ends in a state of the invariant in
which the queue is empty or the next level is beyond the depth bound. Neither the level
counter nor a depth computed on the way wraps around. -/
theorem build_fresh {E : Env} {h : Heap} {t : Nat} {T : Tree} {root : TreeNode}
    (maxD : Int) (hf : FreshTree h t T root) (hmax : maxD < 2147483647) :
    ∃ h' d done q, build E h t maxD = some h' ∧
      BuildInv t T.rootNode h.nodes.length d h' done q [] ∧
      (∀ i ∈ done, ∃ n, h'.nodes[i]? = some n ∧ n.depth < d) ∧
      (d ≤ maxD ∨ (d = 0 ∧ done = [])) ∧ (q = [] ∨ d + 1 > maxD) := by
  unfold build buildW
  simp only [hf.tree]
  exact buildLoop_inv hmax (maxD.toNat + 1) (freshTree_inv hf) (by simp)
    (Or.inr ⟨rfl, rfl⟩) (by omega) le_rfl

theorem inTree_iff {t r base : Nat} {d : Int} {h : Heap} {done rem new : List Nat}
    (inv : BuildInv t r base d h done rem new) (i : Nat) :
    InTree h r i ↔ (i = r ∨ (base ≤ i ∧ i < h.nodes.length)) := by
  constructor
  · intro hi
    induction hi with
    | root => exact Or.inl rfl
    | child _ hn hc ih =>
      obtain ⟨h1, h2, _⟩ := (inv.kids _ _ ih hn).2 _ hc
      exact Or.inr ⟨h1, h2⟩
  · intro hi
    induction i using Nat.strong_induction_on with
    | _ i ih =>
      rcases hi with hi | ⟨hb, hl⟩
      · rw [hi]; exact InTree.root
      · obtain ⟨n, p, pn, _, _, _, hp, hpn, hic, _, _⟩ := inv.newN i hb hl
        have hpi : p < i := by
          have := inv.rlt
          omega
        have hpl : p = r ∨ (base ≤ p ∧ p < h.nodes.length) := by omega
        exact InTree.child (ih p hpi hpl) hpn hic

/-- The tree that `Tree::build` makes of a fresh tree, for a depth bound below the largest
`int`, is a finished tree in the sense of `WellFormedTree`. -/
theorem build_fresh_wellFormed {E : Env} {h : Heap} {t : Nat} {T : Tree} {root : TreeNode}
    (maxD : Int) (hf : FreshTree h t T root) (hmax : maxD < 2147483647) :
    ∃ h', build E h t maxD = some h' ∧ WellFormedTree h' T.rootNode := by
  obtain ⟨h', d, done, q, hrun, inv, _, _, _⟩ := build_fresh (E := E) maxD hf hmax
  refine ⟨h', hrun, ?_, ?_, ?_⟩
  · obtain ⟨n, hn, _, hp, _⟩ := inv.rootN
    exact ⟨n, hn, hp⟩
  · intro p pn c hp hpn hc
    obtain ⟨_, _, hcn⟩ := (inv.kids p pn ((inTree_iff inv p).1 hp) hpn).2 c hc
    exact hcn
  · intro p pn hp hpn
    exact (inv.kids p pn ((inTree_iff inv p).1 hp) hpn).1

theorem wrapInt32_one : wrapInt 32 (0 + 1) = 1 :=
  wrapInt32_of_inRange (by norm_num) (by norm_num)

theorem wrapInt32_two : wrapInt 32 2 = 2 :=
  wrapInt32_of_inRange (by norm_num) (by norm_num)

/-- A run of `build(1)`: one increment of the size and one expansion of the root. -/
theorem build_one {E : Env} {h h1 h2 : Heap} {t : Nat} {T : Tree} {cnt : Int}
    (hT : h.trees[t]? = some T) (hinc : incSize h t = some h1)
    (hexp : expandNode E h1 T.rootNode = some (h2, cnt))
    (hroot : ∃ n, h2.nodes[T.rootNode]? = some n) :
    build E h t 1 = some h2 := by
  obtain ⟨n, hn⟩ := hroot
  unfold build buildW
  simp only [hT]
  have e1 : (1 : Int).toNat + 1 = 1 + 1 := rfl
  rw [e1]
  unfold buildLoopW
  simp only [List.isEmpty_cons, Bool.false_eq_true, if_false, wrapInt32_one, gt_iff_lt,
    lt_self_iff_false, List.length_singleton]
  unfold buildLevel
  simp only [hinc, hexp]
  by_cases hpos : cnt > 0
  · simp only [hpos, if_true, hn, List.nil_append, buildLevel]
    unfold buildLoopW
    split
    · rfl
    · simp [wrapInt32_two]
  · simp only [hpos, if_false, buildLevel]
    unfold buildLoopW
    simp

/-- The effect of `build(1)` on a tree whose root has no parent and a pointer type: the
size grows by one and one child is appended to the root. -/
theorem build_one_pointer {E : Env} {h : Heap} {t : Nat} {T : Tree} {me : TreeNode}
    {ty : DIType} (hT : h.trees[t]? = some T) (hme : h.nodes[T.rootNode]? = some me)
    (hown : me.tree = some t) (hpar : me.parentNode = none) (hty : me.diType = some ty)
    (hptr : E.isPointerType (E.stripAttributes (E.stripMemberTag ty)) = true) :
    ∃ h' k, build E h t 1 = some h' ∧
      h'.trees[t]? = some { T with size := T.size + 1 } ∧
      h'.nodes = h.nodes.set T.rootNode
        { me with children := me.children ++ [h.nodes.length] } ++ [k] := by
  have hinc : ∃ h1, incSize h t = some h1 := by
    unfold incSize; simp only [hT]; exact ⟨_, rfl⟩
  obtain ⟨h1, hh1⟩ := hinc
  obtain ⟨h1n, _, h1t⟩ := incSize_spec hT hh1
  have hme1 : h1.nodes[T.rootNode]? = some me := by rw [h1n]; exact hme
  have hrv : rootValue h1 me = some me.val := by
    unfold rootValue
    simp only [hown, h1t, hme1]
  have hcd : CanDerive E h1 me := by
    intro pty g _ hg _
    rw [hpar] at hg; cases hg
  obtain ⟨⟨h2, cnt⟩, hexp⟩ := expandNode_ok hme1 hrv hcd
  obtain ⟨kids, hkt, _, hnodes, htrees, _, hcnt⟩ := expandNode_spec hme1 hexp
  have hct : childTypes E me.diType =
      [E.getLowestDIType (E.stripAttributes (E.stripMemberTag ty))] := by
    simp [childTypes, hty, hptr]
  rw [hct] at hkt
  rw [h1n] at hnodes
  have hlen : kids.length = 1 := by
    have := congrArg List.length hkt
    simpa using this
  obtain ⟨k, hk⟩ := List.length_eq_one.1 hlen
  subst hk
  have hn2 : h2.nodes = h.nodes.set T.rootNode
      { me with children := me.children ++ [h.nodes.length] } ++ [k] := by
    simpa using hnodes
  refine ⟨h2, k, ?_, by rw [htrees]; exact h1t, hn2⟩
  refine build_one hT hh1 hexp ?_
  refine ⟨{ me with children := me.children ++ [h.nodes.length] }, ?_⟩
  rw [hn2, List.getElem?_append_left (by simpa using lt_of_getElem? hme)]
  simp [List.getElem?_set, lt_of_getElem? hme]

/-- For a depth bound below the largest `int`, the result of the outer loop of
`Tree::build` does not depend on the bound on the number of iterations, once it exceeds the
number of levels left below the depth bound. -/
theorem buildLoop_fuel {E : Env} {t : Nat} {maxD : Int} (hmax : maxD < 2147483647) :
    ∀ (f1 f2 : Nat) (cur : Int) (h : Heap) (q : List Nat), 0 ≤ cur → cur < 2147483647 →
      (maxD - cur).toNat < f1 → (maxD - cur).toNat < f2 →
      buildLoopW E t 32 maxD f1 cur h q = buildLoopW E t 32 maxD f2 cur h q := by
  intro f1
  induction f1 with
  | zero => intro f2 cur h q _ _ h1; omega
  | succ n ih =>
    intro f2 cur h q h0 hc h1 h2
    cases f2 with
    | zero => omega
    | succ m =>
      have hwr : wrapInt 32 (cur + 1) = cur + 1 :=
        wrapInt32_of_inRange (by omega) (by omega)
      simp only [buildLoopW, hwr]
      split
      · rfl
      · split
        · rfl
        · cases hl : buildLevel E t q.length h q with
          | none => rfl
          | some x => exact ih m (cur + 1) x.1 x.2 (by omega) (by omega) (by omega) (by omega)

/-- For every depth bound below the largest `int`, `Tree::build` gives the same result
whatever bound of at least `maxD + 1` is put on the number of iterations of its loop. -/
theorem buildW_eq_build {E : Env} {h : Heap} {t : Nat} {maxD : Int} {fuel : Nat}
    (hmax : maxD < 2147483647) (hfuel : maxD.toNat + 1 ≤ fuel) :
    buildW E h t 32 maxD fuel = build E h t maxD := by
  unfold build buildW
  cases hT : h.trees[t]? with
  | none => rfl
  | some T =>
    simp only []
    exact buildLoop_fuel hmax _ _ _ _ _ le_rfl (by norm_num) (by omega) (by omega)

theorem build_nonpos {E : Env} {h : Heap} {t : Nat} {T : Tree} {maxD : Int}
    (hT : h.trees[t]? = some T) (hmax : maxD ≤ 0) : build E h t maxD = some h := by
  unfold build buildW
  simp only [hT]
  have : maxD.toNat = 0 := by omega
  rw [this]
  simp only [buildLoopW, List.isEmpty_cons, Bool.false_eq_true, if_false, wrapInt32_one]
  rw [if_pos (by omega)]

/-! ## The loop of the `ArgAccessTree` constructor -/

theorem overlayOf_typed {E : Env} {h : Heap} {c : Nat} {cn : TreeNode} {ty : DIType}
    (hcn : h.nodes[c]? = some cn) (hty : cn.diType = some ty) :
    overlayOf E h c =
      { val := cn.val, diType := some ty, accessed := accessFlag E h c ty, children := [] } := by
  simp [overlayOf, hcn, hty]

/-- The effect of the loop over the children of a dequeued node: one overlay node is
allocated for every child with a type descriptor, in order, and linked under the overlay
node `a`; both queues and the size grow by these nodes. -/
theorem argAccessChildren_spec {E : Env} {h : Heap} {a : Nat} :
    ∀ (cs : List Nat) {s : ArgAccessState} {an : ArgAccessTreeNode},
      s.acc.nodes[a]? = some an → (∀ c ∈ cs, ∃ cn, h.nodes[c]? = some cn) →
      ∃ s', argAccessChildren E h a cs s = some s' ∧
        s'.queue = s.queue ++ cs.filter (hasDIType h) ∧
        s'.accessQueue = s.accessQueue ++
          List.range' s.acc.nodes.length (cs.filter (hasDIType h)).length ∧
        s'.acc.size = s.acc.size + ((cs.filter (hasDIType h)).length : Int) ∧
        s'.acc.rootNode = s.acc.rootNode ∧
        s'.acc.nodes = s.acc.nodes.set a
          { an with children := an.children ++
              List.range' s.acc.nodes.length (cs.filter (hasDIType h)).length }
            ++ (cs.filter (hasDIType h)).map (overlayOf E h) := by
  intro cs
  induction cs with
  | nil =>
    intro s an han _
    refine ⟨s, rfl, by simp, by simp, by simp, rfl, ?_⟩
    simp only [List.filter_nil, List.length_nil, List.range'_zero, List.append_nil,
      List.map_nil]
    exact (set_same han).symm
  | cons c cs ih =>
    intro s an han hall
    obtain ⟨cn, hcn⟩ := hall c (List.mem_cons_self _ _)
    have hall2 : ∀ c ∈ cs, ∃ cn, h.nodes[c]? = some cn :=
      fun x hx => hall x (List.mem_cons_of_mem _ hx)
    have halt := lt_of_getElem? han
    cases hty : cn.diType with
    | none =>
      have hf : hasDIType h c = false := by simp [hasDIType, hcn, hty]
      obtain ⟨s', hrun, h1, h2, h3, h4, h5⟩ := ih han hall2
      refine ⟨s', ?_, ?_, ?_, ?_, h4, ?_⟩
      · simp only [argAccessChildren, hcn, hty]; exact hrun
      · simpa [List.filter_cons, hf] using h1
      · simpa [List.filter_cons, hf] using h2
      · simpa [List.filter_cons, hf] using h3
      · simpa [List.filter_cons, hf] using h5
    | some ty =>
      have hf : hasDIType h c = true := by simp [hasDIType, hcn, hty]
      have hadd : addChildNode (s.acc.nodes ++
          [{ val := cn.val, diType := some ty,
             accessed := E.isPointerType ty &&
               decide ((h.getOutNeighborsWithDepType c EdgeType.PARAMETER_IN).length > 0),
             children := [] }]) a s.acc.nodes.length =
          some (s.acc.nodes.set a { an with children := an.children ++ [s.acc.nodes.length] }
            ++ [overlayOf E h c]) := by
        unfold addChildNode
        rw [List.getElem?_append_left halt, han]
        simp only [Option.some.injEq]
        rw [List.set_append_left _ _ halt, overlayOf_typed hcn hty]
        rfl
      have han1 : (s.acc.nodes.set a { an with children := an.children ++ [s.acc.nodes.length] }
            ++ [overlayOf E h c])[a]? =
          some { an with children := an.children ++ [s.acc.nodes.length] } := by
        rw [List.getElem?_append_left (by simpa using halt)]
        simp [List.getElem?_set, halt]
      obtain ⟨s', hrun, h1, h2, h3, h4, h5⟩ := ih
        (s := { acc := { s.acc with
                  nodes := s.acc.nodes.set a
                    { an with children := an.children ++ [s.acc.nodes.length] }
                      ++ [overlayOf E h c],
                  size := s.acc.size + 1 }
                queue := s.queue ++ [c]
                accessQueue := s.accessQueue ++ [s.acc.nodes.length] })
        han1 hall2
      refine ⟨s', ?_, ?_, ?_, ?_, h4, ?_⟩
      · simp only [argAccessChildren, hcn, hty, hadd]; exact hrun
      · simpa [List.filter_cons, hf] using h1
      · simp only [List.filter_cons, hf, if_true, List.length_cons, List.range'_succ]
        simpa [List.append_assoc] using h2
      · simp only [List.filter_cons, hf, if_true, List.length_cons]
        rw [h3]; push_cast; ring
      · simp only [List.filter_cons, hf, if_true, List.length_cons, List.range'_succ,
          List.map_cons]
        rw [h5]
        simp only [List.length_append, List.length_set, List.length_singleton]
        rw [List.set_append_left _ _ (by simpa using halt), List.set_set]
        simp [List.append_assoc]

theorem getElem_not_mem_take {l : List Nat} {k n : Nat} (hnd : l.Nodup)
    (hk : l[k]? = some n) : n ∉ l.take k := by
  intro hmem
  obtain ⟨j, hj⟩ := List.mem_iff_getElem?.1 hmem
  rw [List.getElem?_take] at hj
  by_cases hjk : j < k
  · simp only [hjk, if_true] at hj
    have hjl := lt_of_getElem? hj
    have hkl := lt_of_getElem? hk
    have h1 : l[j] = n := by
      have := List.getElem?_eq_getElem hjl
      rw [hj] at this; injection this with this; exact this.symm
    have h2 : l[k] = n := by
      have := List.getElem?_eq_getElem hkl
      rw [hk] at this; injection this with this; exact this.symm
    have := (List.Nodup.getElem_inj_iff hnd).1 (h1.trans h2.symm)
    omega
  · simp [hjk] at hj

theorem map_getElem?_range'_append (l m : List Nat) :
    (List.range' l.length m.length).map (fun x => (l ++ m)[x]?) = m.map some := by
  apply List.ext_getElem?
  intro j
  simp only [List.getElem?_map]
  by_cases hj : j < m.length
  · rw [List.getElem?_range' _ _ hj]
    simp only [mul_one, one_mul, Option.map_some']
    rw [List.getElem?_append_right (by omega)]
    simp [List.getElem?_eq_getElem hj]
  · have h1 : (List.range' l.length m.length)[j]? = none := by
      apply List.getElem?_eq_none; simp; omega
    have h2 : m[j]? = none := List.getElem?_eq_none (by omega)
    simp [h1, h2]

theorem mem_typedChildren {h : Heap} {p c : Nat} (hc : c ∈ typedChildren h p) :
    ∃ pn cn ty, h.nodes[p]? = some pn ∧ c ∈ pn.children ∧ h.nodes[c]? = some cn ∧
      cn.diType = some ty := by
  unfold typedChildren at hc
  cases hpn : h.nodes[p]? with
  | none => simp [hpn] at hc
  | some pn =>
    simp only [hpn, List.mem_filter] at hc
    obtain ⟨hc1, hc2⟩ := hc
    unfold hasDIType at hc2
    cases hcn : h.nodes[c]? with
    | none => simp [hcn] at hc2
    | some cn =>
      simp only [hcn] at hc2
      cases hty : cn.diType with
      | none => simp [hty] at hc2
      | some ty => exact ⟨pn, cn, ty, rfl, hc1, rfl, hty⟩

theorem kept_inTree {h : Heap} {r c : Nat} (hk : Kept h r c) : InTree h r c := by
  induction hk with
  | root => exact InTree.root
  | child _ hc ih =>
    obtain ⟨pn, _, _, hpn, hcp, _, _⟩ := mem_typedChildren hc
    exact InTree.child ih hpn hcp

theorem kept_alloc {h : Heap} {r c : Nat} (wf : WellFormedTree h r) (hk : Kept h r c) :
    ∃ cn, h.nodes[c]? = some cn := by
  cases hk with
  | root =>
    obtain ⟨rn, hrn, _⟩ := wf.root
    exact ⟨rn, hrn⟩
  | child _ hc =>
    obtain ⟨_, cn, _, _, _, hcn, _⟩ := mem_typedChildren hc
    exact ⟨cn, hcn⟩

/-- The nodes of the overlay arena after the loop over the children of one node. -/
theorem grownList_get {α : Type} {l l2 : List α} {cur : Nat} {me m : α} {kids : List α}
    (hme : l[cur]? = some me) (hl2 : l2 = l.set cur m ++ kids) :
    l2.length = l.length + kids.length ∧ l2[cur]? = some m ∧
    (∀ i, i ≠ cur → i < l.length → l2[i]? = l[i]?) ∧
    (∀ j, j < kids.length → l2[l.length + j]? = kids[j]?) := by
  have hlt := lt_of_getElem? hme
  subst hl2
  refine ⟨by simp, ?_, ?_, ?_⟩
  · rw [List.getElem?_append_left (by simpa using hlt)]
    simp [List.getElem?_set, hlt]
  · intro i hi hil
    rw [List.getElem?_append_left (by simpa using hil), List.getElem?_set_ne (Ne.symm hi)]
  · intro j _
    rw [List.getElem?_append_right (by simp)]
    simp

theorem argInv_grow {E : Env} {h : Heap} {r : Nat} {s s' : ArgAccessState}
    {corr : List Nat} {k n : Nat} {nn : TreeNode} {an : ArgAccessTreeNode}
    (wf : WellFormedTree h r) (inv : ArgInv E h r s corr k)
    (hk : corr[k]? = some n) (hnn : h.nodes[n]? = some nn) (han : s.acc.nodes[k]? = some an)
    (hq : s'.queue = corr.drop (k + 1) ++ typedChildren h n)
    (haq : s'.accessQueue = List.range' (k + 1) (corr.length - (k + 1)) ++
      List.range' s.acc.nodes.length (typedChildren h n).length)
    (hsize : s'.acc.size = s.acc.size + ((typedChildren h n).length : Int))
    (hroot : s'.acc.rootNode = s.acc.rootNode)
    (hnodes : s'.acc.nodes = s.acc.nodes.set k
      { an with children := an.children ++
          List.range' s.acc.nodes.length (typedChildren h n).length }
        ++ (typedChildren h n).map (overlayOf E h)) :
    ArgInv E h r s' (corr ++ typedChildren h n) (k + 1) := by
  have hklt : k < corr.length := lt_of_getElem? hk
  have hlen := inv.len
  have hnK : Kept h r n := inv.kept n (List.mem_iff_getElem?.2 ⟨k, hk⟩)
  have hnT : InTree h r n := kept_inTree hnK
  have htc : typedChildren h n = nn.children.filter (hasDIType h) := by
    simp [typedChildren, hnn]
  have hlen' : s'.acc.nodes.length = s.acc.nodes.length + (typedChildren h n).length := by
    rw [hnodes]; simp
  have hbfs := inv.bfs
  have hpos : 0 < corr.length := by
    rw [hbfs]; simp
  have htake : (corr ++ typedChildren h n).take (k + 1) = corr.take k ++ [n] := by
    rw [List.take_append_of_le_length (by omega), List.take_succ, hk]
    rfl
  constructor
  · -- len
    rw [hlen', List.length_append, hlen]
  · -- size
    rw [hsize, inv.size, hlen']; push_cast; ring
  · rw [hroot]; exact inv.root0
  · rw [List.length_append]; omega
  · -- aq
    rw [haq, List.length_append, ← hlen]
    have := List.range'_append (k + 1) (corr.length - (k + 1)) (typedChildren h n).length 1
    rw [show k + 1 + 1 * (corr.length - (k + 1)) = corr.length by omega] at this
    rw [this]
    congr 1; omega
  · -- q
    rw [hq, List.drop_append_of_le_length (by omega)]
  · -- bfs
    rw [htake, List.flatMap_append, List.flatMap_singleton, ← List.cons_append, ← hbfs]
  · -- nodup
    refine List.Nodup.append inv.nodup ?_ ?_
    · rw [htc]
      exact List.Nodup.filter _ (wf.nodup n nn hnT hnn)
    · intro x hx1 hx2
      obtain ⟨_, cn, _, hpn, hxc, hcn, _⟩ := mem_typedChildren hx2
      rw [hnn] at hpn; injection hpn with hpn; subst hpn
      obtain ⟨cn2, hcn2, hpar⟩ := wf.child n nn x hnT hnn hxc
      rw [hbfs] at hx1
      rcases List.mem_cons.1 hx1 with hx1 | hx1
      · obtain ⟨rn, hrn, hrp⟩ := wf.root
        rw [hx1, hrn] at hcn2; injection hcn2 with hcn2; subst hcn2
        rw [hrp] at hpar; cases hpar
      · obtain ⟨p, hp, hxp⟩ := List.mem_flatMap.1 hx1
        obtain ⟨pn, _, _, hpn, hxc2, _, _⟩ := mem_typedChildren hxp
        have hpK : Kept h r p := inv.kept p (List.mem_of_mem_take hp)
        obtain ⟨cn3, hcn3, hpar3⟩ := wf.child p pn x (kept_inTree hpK) hpn hxc2
        rw [hcn2] at hcn3; injection hcn3 with hcn3; subst hcn3
        rw [hpar] at hpar3; injection hpar3 with hpar3; subst hpar3
        exact getElem_not_mem_take inv.nodup hk hp
  · -- kept
    intro c hc
    rcases List.mem_append.1 hc with hc | hc
    · exact inv.kept c hc
    · exact Kept.child hnK hc
  · -- node
    intro o ovn hovn
    have hklt2 : k < s.acc.nodes.length := by omega
    obtain ⟨_, hgcur, hgold, hgnew⟩ := grownList_get han hnodes
    by_cases hok : o = k
    · subst hok
      rw [hgcur] at hovn; injection hovn with hovn; subst hovn
      obtain ⟨c, cn, hc, hcn, h1, h2, h3, h4, _, _, h7⟩ := inv.node o an han
      rw [hk] at hc; injection hc with hc; subst hc
      have hnil := h7 (le_refl _)
      refine ⟨n, cn, ?_, hcn, h1, h2, h3, h4, ?_, ?_, ?_⟩
      · rw [List.getElem?_append_left hklt, hk]
      · intro x hx
        simp only [hnil, List.nil_append, List.mem_range'_1] at hx
        rw [List.length_append]; omega
      · intro _
        simp only [hnil, List.nil_append]
        rw [← hlen]
        exact map_getElem?_range'_append corr (typedChildren h n)
      · intro hle; omega
    · by_cases hol : o < s.acc.nodes.length
      · rw [hgold o hok hol] at hovn
        obtain ⟨c, cn, hc, hcn, h1, h2, h3, h4, h5, h6, h7⟩ := inv.node o ovn hovn
        refine ⟨c, cn, ?_, hcn, h1, h2, h3, h4, ?_, ?_, ?_⟩
        · rw [List.getElem?_append_left (by omega), hc]
        · intro x hx
          have := h5 x hx
          rw [List.length_append]; omega
        · intro hlt
          rw [← h6 (by omega)]
          apply List.map_congr_left
          intro x hx
          rw [List.getElem?_append_left (h5 x hx)]
        · intro hle; exact h7 (by omega)
      · have hj : o - s.acc.nodes.length < ((typedChildren h n).map (overlayOf E h)).length := by
          have := lt_of_getElem? hovn
          rw [List.length_map]; omega
        have hget := hgnew (o - s.acc.nodes.length) hj
        rw [show s.acc.nodes.length + (o - s.acc.nodes.length) = o by omega, hovn] at hget
        rw [List.getElem?_map] at hget
        rw [List.length_map] at hj
        rw [List.getElem?_eq_getElem hj] at hget
        simp only [Option.map_some', Option.some.injEq] at hget
        have hmem : (typedChildren h n)[o - s.acc.nodes.length] ∈ typedChildren h n :=
          List.getElem_mem _
        obtain ⟨_, cn, ty, _, _, hcn, hty⟩ := mem_typedChildren hmem
        rw [overlayOf_typed hcn hty] at hget
        subst hget
        refine ⟨_, cn, ?_, hcn, rfl, hty.symm, ?_, ?_, ?_, ?_, ?_⟩
        · rw [List.getElem?_append_right (by omega)]
          have hidx : o - corr.length = o - s.acc.nodes.length := by omega
          rw [hidx]
          exact List.getElem?_eq_getElem hj
        · intro ho; omega
        · intro _; exact ⟨ty, hty, rfl⟩
        · intro x hx; simp at hx
        · intro _; omega
        · intro _; rfl

theorem argInv_length_le {E : Env} {h : Heap} {r : Nat} {s : ArgAccessState}
    {corr : List Nat} {k : Nat} (wf : WellFormedTree h r) (inv : ArgInv E h r s corr k) :
    corr.length ≤ h.nodes.length := by
  have hsub : corr ⊆ List.range h.nodes.length := by
    intro c hc
    obtain ⟨cn, hcn⟩ := kept_alloc wf (inv.kept c hc)
    exact List.mem_range.2 (lt_of_getElem? hcn)
  have := (List.subperm_of_subset inv.nodup hsub).length_le
  simpa using this

/-- The loop of the `ArgAccessTree` constructor on a finished tree ends when `fuel` is at
least the number of nodes that are still to be dequeued, and it ends with every overlay node
dequeued. -/
theorem argAccessLoop_inv {E : Env} {h : Heap} {r : Nat} (wf : WellFormedTree h r) :
    ∀ (fuel : Nat) {s : ArgAccessState} {corr : List Nat} {k : Nat},
      ArgInv E h r s corr k → h.nodes.length - k ≤ fuel →
      ∃ s' corr', argAccessLoop E h fuel s = some s' ∧
        ArgInv E h r s' corr' corr'.length := by
  intro fuel
  induction fuel with
  | zero =>
    intro s corr k inv hf
    have hle := argInv_length_le wf inv
    have hkl := inv.kle
    have hk : k = corr.length := by omega
    subst hk
    have hq : s.queue = [] := by rw [inv.q]; simp
    exact ⟨s, corr, by simp [argAccessLoop, hq], inv⟩
  | succ fuel ih =>
    intro s corr k inv hf
    have hle := argInv_length_le wf inv
    have hkl := inv.kle
    unfold argAccessLoop
    cases hq : s.queue with
    | nil =>
      have hk : k = corr.length := by
        have := inv.q
        rw [hq] at this
        have := List.drop_eq_nil_iff.1 this.symm
        omega
      subst hk
      exact ⟨s, corr, rfl, inv⟩
    | cons n q =>
      have hdrop : corr.drop k = n :: q := by rw [← inv.q, hq]
      have hklt : k < corr.length := by
        by_contra hc
        rw [List.drop_eq_nil_of_le (by omega)] at hdrop
        cases hdrop
      rw [List.drop_eq_getElem_cons hklt] at hdrop
      injection hdrop with hn hq2
      have hk : corr[k]? = some n := by rw [List.getElem?_eq_getElem hklt, hn]
      have haq : s.accessQueue = k :: List.range' (k + 1) (corr.length - (k + 1)) := by
        rw [inv.aq, show corr.length - k = (corr.length - (k + 1)) + 1 by omega,
          List.range'_succ]
      have hnK : Kept h r n := inv.kept n (List.mem_iff_getElem?.2 ⟨k, hk⟩)
      obtain ⟨nn, hnn⟩ := kept_alloc wf hnK
      have hkn : k < s.acc.nodes.length := by rw [← inv.len]; exact hklt
      have han : s.acc.nodes[k]? = some s.acc.nodes[k] := List.getElem?_eq_getElem hkn
      have hall : ∀ c ∈ nn.children, ∃ cn, h.nodes[c]? = some cn := by
        intro c hc
        obtain ⟨cn, hcn, _⟩ := wf.child n nn c (kept_inTree hnK) hnn hc
        exact ⟨cn, hcn⟩
      obtain ⟨s1, hrun, h1, h2, h3, h4, h5⟩ := argAccessChildren_spec (E := E) (h := h)
        nn.children
        (s := { s with queue := q, accessQueue := (List.range' (k + 1) (corr.length - (k + 1))) })
        han hall
      have htc : typedChildren h n = nn.children.filter (hasDIType h) := by
        simp [typedChildren, hnn]
      simp only [haq, hnn, hrun]
      rw [← htc] at h1 h2 h3 h5
      have inv1 := argInv_grow wf inv hk hnn han (by rw [h1, hq2]) h2 h3 h4 h5
      exact ih inv1 (by omega)

theorem argInv_init {E : Env} {h : Heap} {r : Nat} {rn : TreeNode}
    (hrn : h.nodes[r]? = some rn) :
    ArgInv E h r
      { acc := { nodes := [{ val := rn.val, diType := rn.diType, accessed := true,
                             children := [] }],
                 rootNode := 0, size := 1 },
        queue := [r], accessQueue := [0] } [r] 0 := by
  refine ⟨rfl, rfl, rfl, by simp, rfl, rfl, by simp, by simp, ?_, ?_⟩
  · intro c hc
    rw [List.mem_singleton.1 hc]
    exact Kept.root
  · intro o ovn hovn
    have ho : o = 0 := by
      have := lt_of_getElem? hovn
      simpa using this
    subst ho
    simp only [List.getElem?_cons_zero, Option.some.injEq] at hovn
    subst hovn
    exact ⟨r, rn, rfl, hrn, rfl, rfl, fun _ => rfl, fun hne => absurd rfl hne,
      by simp, fun hlt => by omega, fun _ => rfl⟩

/-- On a finished tree the `ArgAccessTree` constructor ends, for every bound `fuel` that is
at least the number of allocated nodes, in a state of the invariant in which every overlay
node has been dequeued. -/
theorem mkArgAccessTree_inv {E : Env} {h : Heap} {r fuel : Nat} (wf : WellFormedTree h r)
    (hfuel : h.nodes.length ≤ fuel) :
    ∃ s corr, mkArgAccessTree E h r fuel = some s.acc ∧ ArgInv E h r s corr corr.length := by
  obtain ⟨rn, hrn, _⟩ := wf.root
  obtain ⟨s, corr, hrun, inv⟩ := argAccessLoop_inv (E := E) wf fuel (argInv_init hrn)
    (by omega)
  refine ⟨s, corr, ?_, inv⟩
  unfold mkArgAccessTree
  simp only [hrn, hrun]

theorem argInv_mem_iff_kept {E : Env} {h : Heap} {r : Nat} {s : ArgAccessState}
    {corr : List Nat} (inv : ArgInv E h r s corr corr.length) (c : Nat) :
    c ∈ corr ↔ Kept h r c := by
  have hbfs := inv.bfs
  rw [List.take_length] at hbfs
  constructor
  · exact inv.kept c
  · intro hk
    induction hk with
    | root => rw [hbfs]; exact List.mem_cons_self _ _
    | child _ hc ih =>
      rw [hbfs]
      exact List.mem_cons_of_mem _ (List.mem_flatMap.2 ⟨_, ih, hc⟩)

/-- The access flags that the `ArgAccessTree` constructor computes: on a finished tree the
constructor ends; the overlay root is the overlay node 0 and its flag is true, whatever the
type and the edges of the source root are; every other overlay node `o` is made from a
source node `c = corr[o]` with a type descriptor `ty`, and its flag is true if and only if
`isPointerType` holds of `ty`, the descriptor as stored in the node, and at least one
`PARAMETER_IN` edge enters `c`. The correspondence `corr` maps the overlay root to the
source root and the children of an overlay node, in order, to the children with a type
descriptor of its source node. -/
theorem argAccessTree_flag_iff (E : Env) (h : Heap) (r fuel : Nat)
    (wf : WellFormedTree h r) (hfuel : h.nodes.length ≤ fuel) :
    ∃ (A : ArgAccessTree) (corr : List Nat), mkArgAccessTree E h r fuel = some A ∧
      A.rootNode = 0 ∧ corr.length = A.nodes.length ∧ corr[0]? = some r ∧
      ∀ (o : Nat) (ovn : ArgAccessTreeNode), A.nodes[o]? = some ovn →
        ∃ c cn, corr[o]? = some c ∧ h.nodes[c]? = some cn ∧
        ovn.children.map (fun x => corr[x]?) = (typedChildren h c).map some ∧
        (o = 0 → ovn.accessed = true) ∧
        (o ≠ 0 → ∃ ty, cn.diType = some ty ∧
          (ovn.accessed = true ↔ (E.isPointerType ty = true ∧
            0 < (h.inEdgesWithDepType c EdgeType.PARAMETER_IN).length))) := by
  obtain ⟨s, corr, hrun, inv⟩ := mkArgAccessTree_inv (E := E) wf hfuel
  have hbfs := inv.bfs
  have h0 : corr[0]? = some r := by rw [hbfs]; exact List.getElem?_cons_zero
  refine ⟨s.acc, corr, hrun, inv.root0, inv.len, h0, ?_⟩
  intro o ovn hovn
  obtain ⟨c, cn, hc, hcn, _, _, h3, h4, _, h6, _⟩ := inv.node o ovn hovn
  have holt : o < corr.length := by rw [inv.len]; exact lt_of_getElem? hovn
  refine ⟨c, cn, hc, hcn, h6 holt, h3, ?_⟩
  intro ho
  obtain ⟨ty, hty, hacc⟩ := h4 ho
  refine ⟨ty, hty, ?_⟩
  rw [hacc]
  simp [accessFlag, Heap.getOutNeighborsWithDepType]

/-! ## Invariants of expandNode and build on arbitrary memories -/

theorem inTree_congr {h h1 : Heap} {r p : Nat} (hn : h1.nodes = h.nodes)
    (hp : InTree h r p) : InTree h1 r p := by
  induction hp with
  | root => exact InTree.root
  | child _ hpn hc ih => exact InTree.child ih (by rw [hn]; exact hpn) hc

theorem shapeInv_congr {h h1 : Heap} {r : Nat} (hn : h1.nodes = h.nodes)
    (inv : ShapeInv h r) : ShapeInv h1 r := by
  refine ⟨by rw [hn]; exact inv.rootA, ?_⟩
  intro p n c hp hpn hc
  rw [hn] at hpn ⊢
  exact inv.kid p n c (inTree_congr hn.symm hp) hpn hc

theorem expandNode_alloc {E : Env} {h : Heap} {self : Nat} {x : Heap × Int}
    (hrun : expandNode E h self = some x) : ∃ me, h.nodes[self]? = some me := by
  unfold expandNode at hrun
  cases hme : h.nodes[self]? with
  | none => simp [hme] at hrun
  | some me => exact ⟨me, rfl⟩

/-- A tree whose root has no children has no other node. -/
theorem inTree_childless_root {h : Heap} {r p : Nat} {root : TreeNode}
    (hroot : h.nodes[r]? = some root) (hch : root.children = []) (hp : InTree h r p) :
    p = r := by
  induction hp with
  | root => rfl
  | child _ hpn hc ih =>
    subst ih
    rw [hroot] at hpn; injection hpn with hpn; subst hpn
    rw [hch] at hc; simp at hc

theorem shapeInv_childless_root {h : Heap} {r : Nat} {root : TreeNode}
    (hroot : h.nodes[r]? = some root) (hch : root.children = []) : ShapeInv h r := by
  refine ⟨⟨root, hroot⟩, ?_⟩
  intro p n c hp hpn hc
  have := inTree_childless_root hroot hch hp
  subst this
  rw [hroot] at hpn; injection hpn with hpn; subst hpn
  rw [hch] at hc; simp at hc

/-- The nodes of the tree after a run of `expandNode` on `self`: the nodes of the tree
before, and the new children when `self` is a node of the tree. -/
theorem inTree_expand_inv {h h' : Heap} {r self : Nat} {me : TreeNode}
    {kids : List TreeNode} (inv : ShapeInv h r) (hme : h.nodes[self]? = some me)
    (hkc : ∀ k ∈ kids, k.children = [])
    (hnodes : h'.nodes = h.nodes.set self
      { me with children := me.children ++ List.range' h.nodes.length kids.length }
        ++ kids) {p : Nat} (hp : InTree h' r p) :
    (InTree h r p ∧ p < h.nodes.length) ∨
      (InTree h r self ∧ h.nodes.length ≤ p ∧ p < h.nodes.length + kids.length) := by
  obtain ⟨hlen, hgcur, hgold, hgnew⟩ := grown_get hme hnodes
  induction hp with
  | root =>
    obtain ⟨n, hn⟩ := inv.rootA
    exact Or.inl ⟨InTree.root, lt_of_getElem? hn⟩
  | @child p c n _ hpn hc ih =>
    rcases ih with ⟨hpT, hpl⟩ | ⟨_, hpl, hpu⟩
    · by_cases hps : p = self
      · subst hps
        rw [hgcur] at hpn; injection hpn with hpn; subst hpn
        rcases List.mem_append.1 hc with hc | hc
        · obtain ⟨_, cn, hcn, _⟩ := inv.kid p me c hpT hme hc
          exact Or.inl ⟨InTree.child hpT hme hc, lt_of_getElem? hcn⟩
        · rw [List.mem_range'_1] at hc
          exact Or.inr ⟨hpT, hc.1, hc.2⟩
      · rw [hgold p hps hpl] at hpn
        obtain ⟨_, cn, hcn, _⟩ := inv.kid p n c hpT hpn hc
        exact Or.inl ⟨InTree.child hpT hpn hc, lt_of_getElem? hcn⟩
    · have hj : p - h.nodes.length < kids.length := by omega
      have := hgnew (p - h.nodes.length) hj
      rw [show h.nodes.length + (p - h.nodes.length) = p by omega, hpn,
        List.getElem?_eq_getElem hj] at this
      injection this with this
      have hk := hkc _ (List.getElem_mem hj)
      rw [this, hk] at hc
      simp at hc

/-- A run of `expandNode`, on any node, preserves the shape of the tree rooted at `r`. -/
theorem shapeInv_expand {E : Env} {h h' : Heap} {r self : Nat} {cnt : Int}
    (inv : ShapeInv h r) (hrun : expandNode E h self = some (h', cnt)) :
    ShapeInv h' r := by
  obtain ⟨me, hme⟩ := expandNode_alloc hrun
  obtain ⟨kids, hkt, hkids, hnodes, _, _, _⟩ := expandNode_spec hme hrun
  obtain ⟨hlen, hgcur, hgold, hgnew⟩ := grown_get hme hnodes
  have hkc : ∀ k ∈ kids, k.children = [] := fun k hk => (hkids k hk).2.2.2.2.2.2.1
  have hold : ∀ (i : Nat) (n : TreeNode), h.nodes[i]? = some n →
      ∃ n', h'.nodes[i]? = some n' ∧
      n'.depth = n.depth ∧ n'.parentNode = n.parentNode ∧ n'.diType = n.diType := by
    intro i n hn
    by_cases his : i = self
    · subst his
      rw [hme] at hn; injection hn with hn; subst hn
      exact ⟨_, hgcur, rfl, rfl, rfl⟩
    · exact ⟨n, by rw [hgold i his (lt_of_getElem? hn), hn], rfl, rfl, rfl⟩
  have hkid : ∀ i, h.nodes.length ≤ i → i < h.nodes.length + kids.length →
      ∃ k, h'.nodes[i]? = some k ∧ k ∈ kids := by
    intro i hi hi2
    have hj : i - h.nodes.length < kids.length := by omega
    have := hgnew (i - h.nodes.length) hj
    rw [show h.nodes.length + (i - h.nodes.length) = i by omega] at this
    rw [this, List.getElem?_eq_getElem hj]
    exact ⟨_, rfl, List.getElem_mem _⟩
  constructor
  · obtain ⟨n, hn⟩ := inv.rootA
    obtain ⟨n', hn', _⟩ := hold r n hn
    exact ⟨n', hn'⟩
  · intro p n c hp hpn hc
    rcases inTree_expand_inv inv hme hkc hnodes hp with ⟨hpT, hpl⟩ | ⟨_, hpl, hpu⟩
    · by_cases hps : p = self
      · subst hps
        rw [hgcur] at hpn; injection hpn with hpn; subst hpn
        rcases List.mem_append.1 hc with hc | hc
        · obtain ⟨hty, cn, hcn, hd, hpar⟩ := inv.kid p me c hpT hme hc
          obtain ⟨cn', hcn', a1, a2, _⟩ := hold c cn hcn
          exact ⟨hty, cn', hcn', by rw [a1]; exact hd, by rw [a2]; exact hpar⟩
        · rw [List.mem_range'_1] at hc
          obtain ⟨k, hk, hkm⟩ := hkid c hc.1 hc.2
          obtain ⟨_, _, _, c4, c5, _⟩ := hkids k hkm
          refine ⟨?_, k, hk, c4, c5⟩
          intro hty
          rw [hty] at hkt
          simp only [childTypes, List.map_eq_nil_iff] at hkt
          rw [hkt] at hkm
          simp at hkm
      · rw [hgold p hps hpl] at hpn
        obtain ⟨hty, cn, hcn, hd, hpar⟩ := inv.kid p n c hpT hpn hc
        obtain ⟨cn', hcn', a1, a2, _⟩ := hold c cn hcn
        exact ⟨hty, cn', hcn', by rw [a1]; exact hd, by rw [a2]; exact hpar⟩
    · obtain ⟨k, hk, hkm⟩ := hkid p hpl hpu
      rw [hk] at hpn; injection hpn with hpn; subst hpn
      rw [hkc k hkm] at hc
      simp at hc

/-- A property of the memory kept by the size increment and by `expandNode` is kept by the
inner loop of `Tree::build`. -/
theorem buildLevel_preserves {E : Env} {t : Nat} (P : Heap → Prop)
    (hinc : ∀ h h1, incSize h t = some h1 → P h → P h1)
    (hexp : ∀ h self h2 cnt, expandNode E h self = some (h2, cnt) → P h → P h2) :
    ∀ (k : Nat) (h : Heap) (q : List Nat) (r : Heap × List Nat),
      buildLevel E t k h q = some r → P h → P r.1 := by
  intro k
  induction k with
  | zero =>
    intro h q r hrun hP
    simp only [buildLevel, Option.some.injEq] at hrun
    subst hrun
    exact hP
  | succ k ih =>
    intro h q r hrun hP
    cases q with
    | nil => simp [buildLevel] at hrun
    | cons cur q1 =>
      simp only [buildLevel] at hrun
      cases h1e : incSize h t with
      | none => simp [h1e] at hrun
      | some h1 =>
        simp only [h1e] at hrun
        cases h2e : expandNode E h1 cur with
        | none => simp [h2e] at hrun
        | some x =>
          obtain ⟨h2, cnt⟩ := x
          simp only [h2e] at hrun
          have hP2 := hexp _ _ _ _ h2e (hinc _ _ h1e hP)
          split at hrun
          · cases hn : h2.nodes[cur]? with
            | none => simp [hn] at hrun
            | some n =>
              simp only [hn] at hrun
              exact ih _ _ _ hrun hP2
          · exact ih _ _ _ hrun hP2

theorem buildLoopW_preserves {E : Env} {t w : Nat} {maxD : Int} (P : Heap → Prop)
    (hinc : ∀ h h1, incSize h t = some h1 → P h → P h1)
    (hexp : ∀ h self h2 cnt, expandNode E h self = some (h2, cnt) → P h → P h2) :
    ∀ (fuel : Nat) (cur : Int) (h : Heap) (q : List Nat) (h' : Heap),
      buildLoopW E t w maxD fuel cur h q = some h' → P h → P h' := by
  intro fuel
  induction fuel with
  | zero => intro cur h q h' hrun; simp [buildLoopW] at hrun
  | succ fuel ih =>
    intro cur h q h' hrun hP
    simp only [buildLoopW] at hrun
    split at hrun
    · injection hrun with hrun; subst hrun; exact hP
    · split at hrun
      · injection hrun with hrun; subst hrun; exact hP
      · cases hl : buildLevel E t q.length h q with
        | none => simp [hl] at hrun
        | some x =>
          simp only [hl] at hrun
          exact ih _ _ _ _ hrun (buildLevel_preserves P hinc hexp _ _ _ _ hl hP)

/-- A property of the memory kept by the size increment and by `expandNode` is kept by
`Tree::build`, whatever the width of the level counter, the depth bound and the number of
iterations are. -/
theorem buildW_preserves {E : Env} {t w : Nat} {maxD : Int} {fuel : Nat} (P : Heap → Prop)
    (hinc : ∀ h h1, incSize h t = some h1 → P h → P h1)
    (hexp : ∀ h self h2 cnt, expandNode E h self = some (h2, cnt) → P h → P h2)
    {h h' : Heap} (hrun : buildW E h t w maxD fuel = some h') (hP : P h) : P h' := by
  unfold buildW at hrun
  cases hT : h.trees[t]? with
  | none => simp [hT] at hrun
  | some T =>
    simp only [hT] at hrun
    exact buildLoopW_preserves P hinc hexp _ _ _ _ _ hrun hP

/-- A property of the memory kept by the size increment and by `expandNode` is kept by
`Tree::build`. -/
theorem build_preserves {E : Env} {t : Nat} {maxD : Int} (P : Heap → Prop)
    (hinc : ∀ h h1, incSize h t = some h1 → P h → P h1)
    (hexp : ∀ h self h2 cnt, expandNode E h self = some (h2, cnt) → P h → P h2)
    {h h' : Heap} (hrun : build E h t maxD = some h') (hP : P h) : P h' :=
  buildW_preserves P hinc hexp hrun hP

theorem incSize_nodes {h h1 : Heap} {t : Nat} (hrun : incSize h t = some h1) :
    h1.nodes = h.nodes := by
  unfold incSize at hrun
  cases hT : h.trees[t]? with
  | none => simp [hT] at hrun
  | some T =>
    simp only [hT, Option.some.injEq] at hrun
    subst hrun
    rfl

/-- The shape of the tree rooted at `r` holds in every memory reached from one in which it
holds. -/
theorem shapeInv_reachable {E : Env} {h0 h : Heap} {r : Nat} (inv : ShapeInv h0 r)
    (hreach : Reachable E h0 h) : ShapeInv h r := by
  induction hreach with
  | init => exact inv
  | byExpand _ hrun ih => exact shapeInv_expand ih hrun
  | byBuild _ hrun ih =>
    exact build_preserves (fun h => ShapeInv h r)
      (fun _ _ hi hP => shapeInv_congr (incSize_nodes hi) hP)
      (fun _ _ _ _ he hP => shapeInv_expand hP he) hrun ih
  | byBuildW _ hrun ih =>
    exact buildW_preserves (fun h => ShapeInv h r)
      (fun _ _ hi hP => shapeInv_congr (incSize_nodes hi) hP)
      (fun _ _ _ _ he hP => shapeInv_expand hP he) hrun ih

/-- The nodes that exist before a run of `expandNode` keep all their members but the
children. -/
theorem expandNode_old {E : Env} {h h' : Heap} {self : Nat} {cnt : Int}
    (hrun : expandNode E h self = some (h', cnt)) {i : Nat} {n : TreeNode}
    (hn : h.nodes[i]? = some n) :
    ∃ cs, h'.nodes[i]? = some { n with children := n.children ++ cs } := by
  obtain ⟨me, hme⟩ := expandNode_alloc hrun
  obtain ⟨kids, _, _, hnodes, _, _, _⟩ := expandNode_spec hme hrun
  obtain ⟨hlen, hgcur, hgold, hgnew⟩ := grown_get hme hnodes
  by_cases his : i = self
  · subst his
    rw [hme] at hn; injection hn with hn; subst hn
    exact ⟨_, hgcur⟩
  · exact ⟨[], by rw [hgold i his (lt_of_getElem? hn), hn]; simp⟩

/-- A run of `expandNode` removes no node from the tree rooted at `r`. -/
theorem inTree_expand_mono {E : Env} {h h' : Heap} {r self : Nat} {cnt : Int}
    (hrun : expandNode E h self = some (h', cnt)) {p : Nat} (hp : InTree h r p) :
    InTree h' r p := by
  induction hp with
  | root => exact InTree.root
  | child _ hpn hc ih =>
    obtain ⟨cs, hcs⟩ := expandNode_old hrun hpn
    exact InTree.child ih hcs (List.mem_append_left _ hc)

theorem inTree_alloc {h : Heap} {r i : Nat} (inv : ShapeInv h r) (hi : InTree h r i) :
    ∃ n, h.nodes[i]? = some n := by
  cases hi with
  | root => exact inv.rootA
  | child hp hpn hc =>
    obtain ⟨_, cn, hcn, _⟩ := inv.kid _ _ _ hp hpn hc
    exact ⟨cn, hcn⟩

/-- A run of `expandNode`, on any node, preserves the ownership of the tree `t`. -/
theorem ownedInv_expand {E : Env} {h h' : Heap} {t r self : Nat} {cnt : Int}
    (sh : ShapeInv h r) (inv : OwnedInv h t r)
    (hrun : expandNode E h self = some (h', cnt)) : OwnedInv h' t r := by
  obtain ⟨me, hme⟩ := expandNode_alloc hrun
  obtain ⟨kids, hkt, hkids, hnodes, htrees, _, _⟩ := expandNode_spec hme hrun
  obtain ⟨hlen, hgcur, hgold, hgnew⟩ := grown_get hme hnodes
  have hkc : ∀ k ∈ kids, k.children = [] := fun k hk => (hkids k hk).2.2.2.2.2.2.1
  have hkid : ∀ i, h.nodes.length ≤ i → i < h.nodes.length + kids.length →
      ∃ k, h'.nodes[i]? = some k ∧ k ∈ kids := by
    intro i hi hi2
    have hj : i - h.nodes.length < kids.length := by omega
    have := hgnew (i - h.nodes.length) hj
    rw [show h.nodes.length + (i - h.nodes.length) = i by omega] at this
    rw [this, List.getElem?_eq_getElem hj]
    exact ⟨_, rfl, List.getElem_mem _⟩
  obtain ⟨T, hT, hTr⟩ := inv.tree
  obtain ⟨rn, hrn⟩ := sh.rootA
  obtain ⟨rcs, hrn'⟩ := expandNode_old hrun hrn
  have hnew : ∀ i n, InTree h r self → h.nodes.length ≤ i →
      i < h.nodes.length + kids.length → h'.nodes[i]? = some n →
      n.tree = some t ∧ n.val = rn.val := by
    intro i n hs hi hi2 hn
    obtain ⟨k, hk, hkm⟩ := hkid i hi hi2
    rw [hn] at hk; injection hk with hk; subst hk
    obtain ⟨_, c2, _, _, _, c6, _⟩ := hkids n hkm
    have hmt := inv.own self me hs hme
    refine ⟨by rw [c6]; exact hmt, ?_⟩
    simp only [rootValue, hmt, hT, hTr, hrn, Option.some.injEq] at c2
    exact c2.symm
  refine ⟨⟨T, by rw [htrees]; exact hT, hTr⟩, ?_, ?_⟩
  · intro i n hi hn
    rcases inTree_expand_inv sh hme hkc hnodes hi with ⟨hiT, hil⟩ | ⟨hs, hil, hiu⟩
    · obtain ⟨n0, hn0⟩ := inTree_alloc sh hiT
      obtain ⟨cs, hcs⟩ := expandNode_old hrun hn0
      rw [hn] at hcs; injection hcs with hcs; subst hcs
      exact inv.own i n0 hiT hn0
    · exact (hnew i n hs hil hiu hn).1
  · intro i n rn' hi hir hn hrn2
    rw [hrn'] at hrn2; injection hrn2 with hrn2; subst hrn2
    rcases inTree_expand_inv sh hme hkc hnodes hi with ⟨hiT, hil⟩ | ⟨hs, hil, hiu⟩
    · obtain ⟨n0, hn0⟩ := inTree_alloc sh hiT
      obtain ⟨cs, hcs⟩ := expandNode_old hrun hn0
      rw [hn] at hcs; injection hcs with hcs; subst hcs
      exact inv.val i n0 rn hiT hir hn0 hrn
    · exact (hnew i n hs hil hiu hn).2

theorem incSize_root {h h1 : Heap} {t u : Nat} {T : Tree} (hrun : incSize h t = some h1)
    (hT : h.trees[u]? = some T) : ∃ T1, h1.trees[u]? = some T1 ∧ T1.rootNode = T.rootNode := by
  unfold incSize at hrun
  cases hTt : h.trees[t]? with
  | none => simp [hTt] at hrun
  | some Tt =>
    simp only [hTt, Option.some.injEq] at hrun
    subst hrun
    by_cases htu : t = u
    · subst htu
      rw [hT] at hTt; injection hTt with hTt; subst hTt
      exact ⟨{ T with size := T.size + 1 },
        by simp [List.getElem?_set, lt_of_getElem? hT], rfl⟩
    · exact ⟨T, by simp [List.getElem?_set, htu, hT], rfl⟩

theorem ownedInv_incSize {h h1 : Heap} {t u r : Nat} (hrun : incSize h u = some h1)
    (inv : OwnedInv h t r) : OwnedInv h1 t r := by
  have hn := incSize_nodes hrun
  obtain ⟨T, hT, hTr⟩ := inv.tree
  obtain ⟨T1, hT1, hT1r⟩ := incSize_root hrun hT
  refine ⟨⟨T1, hT1, by rw [hT1r]; exact hTr⟩, ?_, ?_⟩
  · intro i n hi hin
    rw [hn] at hin
    exact inv.own i n (inTree_congr hn.symm hi) hin
  · intro i n rn hi hir hin hrn
    rw [hn] at hin hrn
    exact inv.val i n rn (inTree_congr hn.symm hi) hir hin hrn

theorem safeInv_incSize {h h1 : Heap} {t u r : Nat} (hrun : incSize h u = some h1)
    (inv : SafeInv h t r) : SafeInv h1 t r := by
  have hn := incSize_nodes hrun
  exact ⟨shapeInv_congr hn inv.shape, ownedInv_incSize hrun inv.owned,
    by rw [hn]; exact inv.rootP⟩

theorem safeInv_expand {E : Env} {h h' : Heap} {t r self : Nat} {cnt : Int}
    (inv : SafeInv h t r) (hrun : expandNode E h self = some (h', cnt)) :
    SafeInv h' t r := by
  refine ⟨shapeInv_expand inv.shape hrun, ownedInv_expand inv.shape inv.owned hrun, ?_⟩
  obtain ⟨n, hn, hp⟩ := inv.rootP
  obtain ⟨cs, hcs⟩ := expandNode_old hrun hn
  exact ⟨_, hcs, hp⟩

/-- Every node of the tree but the root has a parent in the tree, and this parent has a
type descriptor. -/
theorem inTree_parent {h : Heap} {r c : Nat} (inv : ShapeInv h r) (hc : InTree h r c) :
    c = r ∨ ∃ p pn cn, InTree h r p ∧ h.nodes[p]? = some pn ∧ pn.diType ≠ none ∧
      h.nodes[c]? = some cn ∧ cn.parentNode = some p := by
  cases hc with
  | root => exact Or.inl rfl
  | child hp hpn hc =>
    obtain ⟨hty, cn, hcn, _, hpar⟩ := inv.kid _ _ _ hp hpn hc
    exact Or.inr ⟨_, _, cn, hp, hpn, hty, hcn, hpar⟩

/-- In a safe state `expandNode` meets no null pointer on a node of the tree. -/
theorem safeInv_expand_ok {E : Env} {h : Heap} {t r self : Nat}
    (inv : SafeInv h t r) (hs : InTree h r self) :
    ∃ h' cnt, expandNode E h self = some (h', cnt) := by
  obtain ⟨me, hme⟩ := inTree_alloc inv.shape hs
  obtain ⟨T, hT, hTr⟩ := inv.owned.tree
  obtain ⟨rn, hrn, hrp⟩ := inv.rootP
  have hmt := inv.owned.own self me hs hme
  have hrv : rootValue h me = some rn.val := by
    simp [rootValue, hmt, hT, hTr, hrn]
  have hcd : CanDerive E h me := by
    intro pty g hty hg _
    rcases inTree_parent inv.shape hs with hsr | ⟨p, pn, cn, _, hpn, hpty, hcn, hpar⟩
    · subst hsr
      rw [hme] at hrn; injection hrn with hrn; subst hrn
      rw [hrp] at hg; exact absurd hg (by simp)
    · rw [hme] at hcn; injection hcn with hcn; subst hcn
      rw [hpar] at hg; injection hg with hg; subst hg
      cases hd : pn.diType with
      | none => exact absurd hd hpty
      | some gty => exact ⟨pn, gty, hpn, hd⟩
  obtain ⟨⟨h', cnt⟩, hr⟩ := expandNode_ok hme hrv hcd
  exact ⟨h', cnt, hr⟩

theorem buildLevel_safe {E : Env} {t r : Nat} :
    ∀ (k : Nat) (h : Heap) (q : List Nat), SafeInv h t r → (∀ i ∈ q, InTree h r i) →
      k ≤ q.length →
      ∃ h' q', buildLevel E t k h q = some (h', q') ∧ SafeInv h' t r ∧
        ∀ i ∈ q', InTree h' r i := by
  intro k
  induction k with
  | zero => intro h q inv hq _; exact ⟨h, q, rfl, inv, hq⟩
  | succ k ih =>
    intro h q inv hq hk
    cases q with
    | nil => simp at hk
    | cons cur q1 =>
      obtain ⟨T, hT, _⟩ := inv.owned.tree
      have hinc : incSize h t =
          some { h with trees := h.trees.set t { T with size := T.size + 1 } } := by
        simp [incSize, hT]
      have inv1 := safeInv_incSize hinc inv
      have hn1 := incSize_nodes hinc
      have hcur : InTree _ r cur := inTree_congr hn1 (hq cur (List.mem_cons_self _ _))
      obtain ⟨h2, cnt, hexp⟩ := safeInv_expand_ok (E := E) inv1 hcur
      have inv2 := safeInv_expand inv1 hexp
      have hq2 : ∀ i ∈ q1, InTree h2 r i := fun i hi =>
        inTree_expand_mono hexp (inTree_congr hn1 (hq i (List.mem_cons_of_mem _ hi)))
      have hcur2 := inTree_expand_mono hexp hcur
      obtain ⟨n, hn⟩ := inTree_alloc inv2.shape hcur2
      simp only [buildLevel, hinc, hexp, hn]
      split
      · exact ih h2 (q1 ++ n.children) inv2 (by
          intro i hi
          rcases List.mem_append.1 hi with hi | hi
          · exact hq2 i hi
          · exact InTree.child hcur2 hn hi) (by simp at hk ⊢; omega)
      · exact ih h2 q1 inv2 hq2 (by simp at hk; omega)

theorem buildLoop_safe {E : Env} {t r : Nat} {maxD : Int} (hmax : maxD < 2147483647) :
    ∀ (fuel : Nat) (cur : Int) (h : Heap) (q : List Nat), 0 ≤ cur → cur < 2147483647 →
      (maxD - cur).toNat < fuel → SafeInv h t r → (∀ i ∈ q, InTree h r i) →
      ∃ h', buildLoopW E t 32 maxD fuel cur h q = some h' ∧ SafeInv h' t r := by
  intro fuel
  induction fuel with
  | zero => intro cur h q _ _ hf; omega
  | succ fuel ih =>
    intro cur h q h0 hc hf inv hq
    have hwr : wrapInt 32 (cur + 1) = cur + 1 :=
      wrapInt32_of_inRange (by omega) (by omega)
    simp only [buildLoopW, hwr]
    split
    · exact ⟨h, rfl, inv⟩
    · split
      · exact ⟨h, rfl, inv⟩
      · obtain ⟨h1, q1, hl, inv1, hq1⟩ := buildLevel_safe (E := E) q.length h q inv hq le_rfl
        simp only [hl]
        exact ih (cur + 1) h1 q1 (by omega) (by omega) (by omega) inv1 hq1

/-- The state of a tree whose root is allocated, belongs to the tree and has no parent and
no children is safe. -/
theorem safeInv_init {h : Heap} {t : Nat} {T : Tree} {root : TreeNode}
    (hT : h.trees[t]? = some T) (hroot : h.nodes[T.rootNode]? = some root)
    (hown : root.tree = some t) (hch : root.children = [])
    (hpar : root.parentNode = none) : SafeInv h t T.rootNode := by
  refine ⟨shapeInv_childless_root hroot hch, ⟨⟨T, hT, rfl⟩, ?_, ?_⟩,
    ⟨root, hroot, hpar⟩⟩
  · intro i n hi hn
    have := inTree_childless_root hroot hch hi
    subst this
    rw [hroot] at hn; injection hn with hn; subst hn
    exact hown
  · intro i n rn hi hir
    exact absurd (inTree_childless_root hroot hch hi) hir

/-- From a root that is allocated, belongs to the tree and has no parent and no children,
and for a depth bound below the largest `int`, `Tree::build` meets no null pointer and ends
in a safe state. -/
theorem build_safe {E : Env} {h : Heap} {t : Nat} {T : Tree} {root : TreeNode}
    (maxD : Int) (hT : h.trees[t]? = some T) (hroot : h.nodes[T.rootNode]? = some root)
    (hown : root.tree = some t) (hch : root.children = [])
    (hpar : root.parentNode = none) (hmax : maxD < 2147483647) :
    ∃ h', build E h t maxD = some h' ∧ SafeInv h' t T.rootNode := by
  unfold build buildW
  simp only [hT]
  exact buildLoop_safe hmax _ _ _ _ le_rfl (by norm_num) (by omega)
    (safeInv_init hT hroot hown hch hpar)
    (by intro i hi; simp at hi; subst hi; exact InTree.root)

/-- A run of `expandNode` is a run of the child-creation loop on some list of types. -/
theorem expandNode_addChildren {E : Env} {h h' : Heap} {self : Nat} {cnt : Int}
    (hrun : expandNode E h self = some (h', cnt)) :
    ∃ tys, addChildren E self tys h = some h' := by
  obtain ⟨me, hme⟩ := expandNode_alloc hrun
  unfold expandNode at hrun
  simp only [hme] at hrun
  cases hty : me.diType with
  | none =>
    simp only [hty, Option.some.injEq, Prod.mk.injEq] at hrun
    exact ⟨[], by rw [← hrun.1]; rfl⟩
  | some t =>
    simp only [hty] at hrun
    split at hrun
    · simp only [Option.some.injEq, Prod.mk.injEq] at hrun
      exact ⟨[], by rw [← hrun.1]; rfl⟩
    · split at hrun
      · cases h1eq : addChild E h self
            (E.getLowestDIType (E.stripAttributes (E.stripMemberTag t))) with
        | none => simp [h1eq] at hrun
        | some h1 =>
          simp only [h1eq, Option.some.injEq, Prod.mk.injEq] at hrun
          exact ⟨[E.getLowestDIType (E.stripAttributes (E.stripMemberTag t))],
            by simp [addChildren, h1eq, hrun.1]⟩
      · split at hrun
        · cases h1eq : addChildren E self
              (E.getElements (E.stripAttributes (E.stripMemberTag t))) h with
          | none => simp [h1eq] at hrun
          | some h1 =>
            simp only [h1eq, Option.some.injEq, Prod.mk.injEq] at hrun
            exact ⟨_, by rw [h1eq, hrun.1]⟩
        · simp only [Option.some.injEq, Prod.mk.injEq] at hrun
          exact ⟨[], by rw [← hrun.1]; rfl⟩

/-- With no address variables in the parent and in the grandparent, the base set is
empty. -/
theorem baseAddrVars_empty {E : Env} {h : Heap} {pn : TreeNode} {pty : DIType}
    {base : List (Option Value)} (hb : baseAddrVars E h pn pty = some base)
    (hpa : pn.addrVars = [])
    (hga : ∀ g gn, pn.parentNode = some g → h.nodes[g]? = some gn → gn.addrVars = []) :
    base = [] := by
  unfold baseAddrVars at hb
  cases hg : pn.parentNode with
  | none =>
    simp only [hg, Option.some.injEq] at hb
    rw [← hb, hpa]
  | some g =>
    simp only [hg] at hb
    split at hb
    · cases hgn : h.nodes[g]? with
      | none => simp [hgn] at hb
      | some gn =>
        simp only [hgn] at hb
        cases hgty : gn.diType with
        | none => simp [hgty] at hb
        | some gty =>
          simp only [hgty] at hb
          split at hb
          · injection hb with hb
            rw [← hb]; exact hga g gn hg hgn
          · injection hb with hb
            rw [← hb, hpa]
    · injection hb with hb
      rw [← hb, hpa]

/-- On a node without address variables whose parent and grandparent have none,
`computeDerivedAddrVarsFromParent` changes nothing. -/
theorem computeDerived_empty {E : Env} {h h1 : Heap} {c : Nat} {cn : TreeNode}
    (hcn : h.nodes[c]? = some cn)
    (hpa : ∀ p pn, cn.parentNode = some p → h.nodes[p]? = some pn →
      pn.addrVars = [] ∧
        ∀ g gn, pn.parentNode = some g → h.nodes[g]? = some gn → gn.addrVars = [])
    (hrun : computeDerivedAddrVarsFromParent E h c = some h1) : h1 = h := by
  cases hp : cn.parentNode with
  | none =>
    unfold computeDerivedAddrVarsFromParent at hrun
    simp only [hcn, hp, Option.some.injEq] at hrun
    exact hrun.symm
  | some p =>
    cases hty : cn.diType with
    | none =>
      unfold computeDerivedAddrVarsFromParent at hrun
      simp only [hcn, hp, hty, Option.some.injEq] at hrun
      exact hrun.symm
    | some ty =>
      cases hpn : h.nodes[p]? with
      | none =>
        unfold computeDerivedAddrVarsFromParent at hrun
        simp [hcn, hp, hty, hpn] at hrun
      | some pn =>
        cases hpty : pn.diType with
        | none =>
          unfold computeDerivedAddrVarsFromParent at hrun
          simp [hcn, hp, hty, hpn, hpty] at hrun
        | some pty =>
          cases hb : baseAddrVars E h pn pty with
          | none =>
            unfold computeDerivedAddrVarsFromParent at hrun
            simp [hcn, hp, hty, hpn, hpty, hb] at hrun
          | some base =>
            rw [computeDerived_eq hcn hp hty hpn hpty hb] at hrun
            injection hrun with hrun
            obtain ⟨h1a, h1b⟩ := hpa p pn hp hpn
            have := baseAddrVars_empty hb h1a h1b
            subst this
            rw [← hrun]
            simp only [List.foldl_nil]
            exact setNode_same hcn

/-- A child created for a node without address variables whose parent has none has no
address variables. -/
theorem addChild_empty {E : Env} {h h' : Heap} {self : Nat} {ty : Option DIType}
    {me : TreeNode} (hme : h.nodes[self]? = some me)
    (hrun : addChild E h self ty = some h') (hma : me.addrVars = [])
    (hga : ∀ g gn, me.parentNode = some g → h.nodes[g]? = some gn → gn.addrVars = []) :
    ∃ k, k.addrVars = [] ∧ k.children = [] ∧
      h'.nodes = h.nodes.set self
        { me with children := me.children ++ [h.nodes.length] } ++ [k] := by
  have hlt := lt_of_getElem? hme
  unfold addChild at hrun
  simp only [hme] at hrun
  cases hrv : rootValue h me with
  | none => simp [hrv] at hrun
  | some rv =>
    simp only [hrv] at hrun
    split at hrun
    · simp at hrun
    · rename_i h1 hcd
      have h1eq := computeDerived_empty (allocNode_get_new h _) (by
        intro p pn hp hpn
        simp only [Option.some.injEq] at hp
        subst hp
        rw [allocNode_get_old hme] at hpn
        injection hpn with hpn; subst hpn
        refine ⟨hma, ?_⟩
        intro g gn hg hgn
        by_cases hgl : g < h.nodes.length
        · simp only [Heap.allocNode] at hgn
          rw [List.getElem?_append_left hgl] at hgn
          exact hga g gn hg hgn
        · have hg2 := lt_of_getElem? hgn
          simp only [Heap.allocNode, List.length_append, List.length_singleton] at hg2
          have : g = h.nodes.length := by omega
          subst this
          rw [allocNode_get_new] at hgn
          injection hgn with hgn
          rw [← hgn]) hcd
      subst h1eq
      rw [allocNode_get_old hme] at hrun
      simp only [Option.some.injEq] at hrun
      subst hrun
      refine ⟨{ nodeType := me.nodeType, val := rv, func := me.func, diType := ty,
                depth := wrapInt 32 (me.depth + 1), parentNode := some self,
                tree := me.tree, children := [], addrVars := [], accTags := [] }, rfl, rfl, ?_⟩
      simp only [Heap.addNeighbor, Heap.setNode, Heap.allocNode]
      rw [List.set_append_left _ _ hlt]

/-- The child-creation loop, run for a node without address variables whose parent has
none, leaves the address variables of the old nodes as they are and gives none to the new
nodes. -/
theorem addChildren_empty {E : Env} {self : Nat} (tys : List (Option DIType)) :
    ∀ {h h' : Heap} {me : TreeNode}, h.nodes[self]? = some me → me.addrVars = [] →
      (∀ g gn, me.parentNode = some g → h.nodes[g]? = some gn → gn.addrVars = []) →
      addChildren E self tys h = some h' →
      ∀ i n, h'.nodes[i]? = some n →
        (∃ n0, h.nodes[i]? = some n0 ∧ n0.addrVars = n.addrVars) ∨
          (h.nodes.length ≤ i ∧ n.addrVars = []) := by
  induction tys with
  | nil =>
    intro h h' me _ _ _ hrun i n hn
    simp only [addChildren, Option.some.injEq] at hrun
    subst hrun
    exact Or.inl ⟨n, hn, rfl⟩
  | cons ty rest ih =>
    intro h h' me hme hma hga hrun i n hn
    simp only [addChildren] at hrun
    cases h1eq : addChild E h self ty with
    | none => simp [h1eq] at hrun
    | some h1 =>
      simp only [h1eq] at hrun
      obtain ⟨k, hka, _, hnodes⟩ := addChild_empty hme h1eq hma hga
      obtain ⟨hlen, hgcur, hgold, hgnew⟩ := grown_get hme hnodes
      have hpos : ∀ j m, h1.nodes[j]? = some m →
          (∃ m0, h.nodes[j]? = some m0 ∧ m0.addrVars = m.addrVars) ∨
            (h.nodes.length ≤ j ∧ m.addrVars = []) := by
        intro j m hm
        by_cases hjs : j = self
        · subst hjs
          rw [hgcur] at hm; injection hm with hm
          exact Or.inl ⟨me, hme, by rw [← hm]⟩
        · by_cases hjl : j < h.nodes.length
          · rw [hgold j hjs hjl] at hm
            exact Or.inl ⟨m, hm, rfl⟩
          · have hj2 := lt_of_getElem? hm
            rw [hlen] at hj2
            simp only [List.length_singleton] at hj2
            have : j = h.nodes.length + 0 := by omega
            subst this
            rw [hgnew 0 (by simp)] at hm
            simp only [List.getElem?_cons_zero, Option.some.injEq] at hm
            exact Or.inr ⟨by omega, by rw [← hm]; exact hka⟩
      have hga1 : ∀ g gn,
          ({ me with children := me.children ++ [h.nodes.length] } : TreeNode).parentNode
            = some g → h1.nodes[g]? = some gn → gn.addrVars = [] := by
        intro g gn hg hgn
        rcases hpos g gn hgn with ⟨m0, hm0, he⟩ | ⟨_, he⟩
        · rw [← he]; exact hga g m0 hg hm0
        · exact he
      rcases ih hgcur hma hga1 hrun i n hn with ⟨n1, hn1, he1⟩ | ⟨hl, he⟩
      · rcases hpos i n1 hn1 with ⟨m0, hm0, he0⟩ | ⟨hl0, he0⟩
        · exact Or.inl ⟨m0, hm0, by rw [he0, he1]⟩
        · exact Or.inr ⟨hl0, by rw [← he1]; exact he0⟩
      · exact Or.inr ⟨by omega, he⟩

/-- A run of `expandNode`, on any node, preserves: the state of the tree is safe and no
node of the tree has an address variable. -/
theorem emptyInv_expand {E : Env} {h h' : Heap} {t r self : Nat} {cnt : Int}
    (inv : SafeInv h t r)
    (hemp : ∀ i n, InTree h r i → h.nodes[i]? = some n → n.addrVars = [])
    (hrun : expandNode E h self = some (h', cnt)) :
    ∀ i n, InTree h' r i → h'.nodes[i]? = some n → n.addrVars = [] := by
  obtain ⟨me, hme⟩ := expandNode_alloc hrun
  obtain ⟨kids, _, hkids, hnodes, _, _, _⟩ := expandNode_spec hme hrun
  have hkc : ∀ k ∈ kids, k.children = [] := fun k hk => (hkids k hk).2.2.2.2.2.2.1
  intro i n hi hn
  rcases inTree_expand_inv inv.shape hme hkc hnodes hi with ⟨hiT, hil⟩ | ⟨hs, hil, hiu⟩
  · obtain ⟨n0, hn0⟩ := inTree_alloc inv.shape hiT
    obtain ⟨cs, hcs⟩ := expandNode_old hrun hn0
    rw [hn] at hcs; injection hcs with hcs; subst hcs
    exact hemp i n0 hiT hn0
  · obtain ⟨tys, hadd⟩ := expandNode_addChildren hrun
    have hga : ∀ g gn, me.parentNode = some g → h.nodes[g]? = some gn →
        gn.addrVars = [] := by
      intro g gn hg hgn
      rcases inTree_parent inv.shape hs with hsr | ⟨p, pn, cn, hpT, hpn, _, hcn, hpar⟩
      · subst hsr
        obtain ⟨rn, hrn, hrp⟩ := inv.rootP
        rw [hme] at hrn; injection hrn with hrn; subst hrn
        rw [hrp] at hg; exact absurd hg (by simp)
      · rw [hme] at hcn; injection hcn with hcn; subst hcn
        rw [hpar] at hg; injection hg with hg; subst hg
        exact hemp p gn hpT hgn
    rcases addChildren_empty tys hme (hemp self me hs hme) hga hadd i n hn with
      ⟨n0, hn0, _⟩ | ⟨_, he⟩
    · have := lt_of_getElem? hn0
      omega
    · exact he

/-- The memory `pairHeapCopy` is the result of the copy constructor on the tree of
`pairHeapMid`. -/
theorem copyTree_pairHeapMid :
    copyTree { val := none, depth := 0, parentNode := none, tree := none } pairHeapMid 0 =
      some (pairHeapCopy, 1) := by
  decide

theorem wellFormed_alloc {h : Heap} {r c : Nat} (wf : WellFormedTree h r)
    (hc : InTree h r c) : ∃ cn, h.nodes[c]? = some cn := by
  cases hc with
  | root =>
    obtain ⟨rn, hrn, _⟩ := wf.root
    exact ⟨rn, hrn⟩
  | child hp hpn hc =>
    obtain ⟨cn, hcn, _⟩ := wf.child _ _ _ hp hpn hc
    exact ⟨cn, hcn⟩

theorem tagInv_length_le {f : TreeNode → TreeNode} {h0 h : Heap} {r : Nat}
    {ord : List Nat} {k : Nat} (wf : WellFormedTree h0 r) (inv : TagInv f h0 r h ord k) :
    ord.length ≤ h0.nodes.length := by
  have hsub : ord ⊆ List.range h0.nodes.length := by
    intro c hc
    obtain ⟨cn, hcn⟩ := wellFormed_alloc wf (inv.inT c hc)
    exact List.mem_range.2 (lt_of_getElem? hcn)
  have := (List.subperm_of_subset inv.nodup hsub).length_le
  simpa using this

/-- One iteration of the loop of `Tree::addAccessForAllNodes`. -/
theorem tagInv_step {f : TreeNode → TreeNode} {h0 h : Heap} {r : Nat} {ord : List Nat}
    {k cur : Nat} {n : TreeNode} (wf : WellFormedTree h0 r)
    (inv : TagInv f h0 r h ord k) (hk : ord[k]? = some cur)
    (hn : h0.nodes[cur]? = some n) :
    TagInv f h0 r (h.setNode cur (f n)) (ord ++ n.children) (k + 1) := by
  have hklt : k < ord.length := lt_of_getElem? hk
  have hcT : InTree h0 r cur := inv.inT cur (List.mem_iff_getElem?.2 ⟨k, hk⟩)
  have hbfs := inv.bfs
  have htake : (ord ++ n.children).take (k + 1) = ord.take k ++ [cur] := by
    rw [List.take_append_of_le_length (by omega), List.take_succ, hk]
    rfl
  have hco : childrenOf h0 cur = n.children := by simp [childrenOf, hn]
  have hnot := getElem_not_mem_take inv.nodup hk
  constructor
  · rw [List.length_append]; omega
  · rw [htake, List.flatMap_append, List.flatMap_singleton, hco, ← List.cons_append, ← hbfs]
  · refine List.Nodup.append inv.nodup (wf.nodup cur n hcT hn) ?_
    intro x hx1 hx2
    obtain ⟨xn, hxn, hpar⟩ := wf.child cur n x hcT hn hx2
    rw [hbfs] at hx1
    rcases List.mem_cons.1 hx1 with hx1 | hx1
    · obtain ⟨rn, hrn, hrp⟩ := wf.root
      rw [hx1, hrn] at hxn; injection hxn with hxn; subst hxn
      rw [hrp] at hpar; cases hpar
    · obtain ⟨p, hp, hxp⟩ := List.mem_flatMap.1 hx1
      have hpT : InTree h0 r p := inv.inT p (List.mem_of_mem_take hp)
      obtain ⟨pn, hpn⟩ := wellFormed_alloc wf hpT
      have hxc : x ∈ pn.children := by simpa [childrenOf, hpn] using hxp
      obtain ⟨xn2, hxn2, hpar2⟩ := wf.child p pn x hpT hpn hxc
      rw [hxn] at hxn2; injection hxn2 with hxn2; subst hxn2
      rw [hpar] at hpar2; injection hpar2 with hpar2
      rw [← hpar2] at hp
      exact hnot hp
  · intro c hc
    rcases List.mem_append.1 hc with hc | hc
    · exact inv.inT c hc
    · exact InTree.child hcT hn hc
  · exact inv.trees
  · exact inv.edges
  · simp only [Heap.setNode, List.length_set]; exact inv.len
  · intro i m hm
    rw [htake]
    have hcl : cur < h.nodes.length := by rw [inv.len]; exact lt_of_getElem? hn
    by_cases hic : i = cur
    · subst hic
      rw [hn] at hm; injection hm with hm; subst hm
      refine ⟨fun _ => ?_, fun hni =>
        absurd (List.mem_append_right _ (List.mem_singleton_self _)) hni⟩
      simp [Heap.setNode, List.getElem?_set, hcl]
    · have hset : (h.setNode cur (f n)).nodes[i]? = h.nodes[i]? := by
        simp only [Heap.setNode]
        rw [List.getElem?_set_ne (Ne.symm hic)]
      rw [hset]
      constructor
      · intro hi
        rcases List.mem_append.1 hi with hi | hi
        · exact (inv.node i m hm).1 hi
        · exact absurd (List.mem_singleton.1 hi) hic
      · intro hi
        exact (inv.node i m hm).2 (fun hi2 => hi (List.mem_append_left _ hi2))
  · rw [htake, List.foldl_append, ← inv.run]
    simp [tagNode, (inv.node cur n hn).2 hnot]

/-- The loop of `Tree::addAccessForAllNodes` on a finished tree ends when `fuel` is at
least the number of nodes that are still to be dequeued, with every enqueued node
dequeued. -/
theorem addAccessLoop_inv {f : TreeNode → TreeNode} {h0 : Heap} {r : Nat}
    (wf : WellFormedTree h0 r) (hf : ∀ n, (f n).children = n.children) :
    ∀ (fuel : Nat) {h : Heap} {ord : List Nat} {k : Nat},
      TagInv f h0 r h ord k → h0.nodes.length - k ≤ fuel →
      ∃ h' ord', addAccessLoop f fuel h (ord.drop k) = some h' ∧
        TagInv f h0 r h' ord' ord'.length := by
  intro fuel
  induction fuel with
  | zero =>
    intro h ord k inv hfu
    have hle := tagInv_length_le wf inv
    have hkl := inv.kle
    have hk : k = ord.length := by omega
    subst hk
    exact ⟨h, ord, by simp [addAccessLoop], inv⟩
  | succ fuel ih =>
    intro h ord k inv hfu
    have hle := tagInv_length_le wf inv
    have hkl := inv.kle
    unfold addAccessLoop
    cases hq : ord.drop k with
    | nil =>
      have hk : k = ord.length := by
        have := List.drop_eq_nil_iff.1 hq
        omega
      subst hk
      exact ⟨h, ord, rfl, inv⟩
    | cons cur q =>
      have hklt : k < ord.length := by
        by_contra hc
        rw [List.drop_eq_nil_of_le (by omega)] at hq
        cases hq
      rw [List.drop_eq_getElem_cons hklt] at hq
      injection hq with hcur hq2
      have hk : ord[k]? = some cur := by rw [List.getElem?_eq_getElem hklt, hcur]
      have hcT : InTree h0 r cur := inv.inT cur (List.mem_iff_getElem?.2 ⟨k, hk⟩)
      obtain ⟨n, hn⟩ := wellFormed_alloc wf hcT
      have hhn : h.nodes[cur]? = some n :=
        (inv.node cur n hn).2 (getElem_not_mem_take inv.nodup hk)
      simp only [hhn, hf]
      have inv1 := tagInv_step wf inv hk hn
      have := ih inv1 (by omega)
      rw [List.drop_append_of_le_length (by omega), hq2] at this
      exact this

theorem tagInv_mem_iff {f : TreeNode → TreeNode} {h0 h : Heap} {r : Nat} {ord : List Nat}
    (inv : TagInv f h0 r h ord ord.length) (c : Nat) : c ∈ ord ↔ InTree h0 r c := by
  have hbfs := inv.bfs
  rw [List.take_length] at hbfs
  constructor
  · exact inv.inT c
  · intro hc
    induction hc with
    | root => rw [hbfs]; exact List.mem_cons_self _ _
    | @child p c n _ hpn hc ih =>
      rw [hbfs]
      exact List.mem_cons_of_mem _
        (List.mem_flatMap.2 ⟨p, ih, by simpa [childrenOf, hpn] using hc⟩)

/-- For every depth bound below the largest `int` and every type environment, cyclic ones
included, `Tree::build(maxTreeDepth)` ends. On any allocated tree the outer loop gives the
same result whatever bound of at least `maxTreeDepth + 1` is put on the number of its
iterations, so it never needs more; for `maxTreeDepth ≤ 0` it returns at once and leaves
the memory as it was; and on a fresh tree it returns a memory in which every node that was
given children has a depth below `maxTreeDepth`, so that at most `maxTreeDepth` levels were
processed. -/
theorem build_terminates_below_intMax (E : Env) (h : Heap) (t : Nat) (T : Tree)
    (maxTreeDepth : Int) (hT : h.trees[t]? = some T) (hmax : maxTreeDepth < 2147483647) :
    (∀ fuel, maxTreeDepth.toNat + 1 ≤ fuel →
      buildW E h t 32 maxTreeDepth fuel = build E h t maxTreeDepth) ∧
    (maxTreeDepth ≤ 0 → build E h t maxTreeDepth = some h) ∧
    (∀ root, FreshTree h t T root →
      ∃ h', build E h t maxTreeDepth = some h' ∧
        ∀ i n, InTree h' T.rootNode i → h'.nodes[i]? = some n → n.children ≠ [] →
          n.depth < maxTreeDepth) := by
  refine ⟨fun fuel hfuel => buildW_eq_build hmax hfuel, build_nonpos hT, ?_⟩
  intro root hf
  obtain ⟨h', d, done, q, hrun, inv, hdone, hd, hq⟩ :=
    build_fresh (E := E) maxTreeDepth hf hmax
  refine ⟨h', hrun, ?_⟩
  intro i n hi hn hch
  have hi2 : i ∈ done ++ q := by
    have := (inv.mem i).2 ((inTree_iff inv i).1 hi)
    simpa using this
  rcases List.mem_append.1 hi2 with hi2 | hi2
  · obtain ⟨n', hn', hlt⟩ := hdone i hi2
    rw [hn] at hn'; injection hn' with hn'; subst hn'
    rcases hd with hd | ⟨_, hd⟩
    · omega
    · rw [hd] at hi2; simp at hi2
  · obtain ⟨n', hn', _, hch'⟩ := inv.remD i hi2
    rw [hn] at hn'; injection hn' with hn'; subst hn'
    exact absurd hch' hch

/-- The fresh tree of an argument of type `Node*` for the self-referential
`struct Node { Node* next; }`, with depth bound 4. -/
theorem build_listEnv_depth_four :
    ∃ h', build listEnv listHeap0 0 4 = some h' ∧
      ∀ i n, InTree h' 0 i → h'.nodes[i]? = some n → n.children ≠ [] → n.depth < 4 :=
  (build_terminates_below_intMax listEnv listHeap0 0
    { rootNode := 0, baseVal := some 9, size := 0 } 4 rfl (by norm_num)).2.2
    { nodeType := 1, val := some 9, func := some 7, diType := some 0, depth := 0,
      parentNode := none, tree := some 0, children := [], addrVars := [], accTags := [] }
    ⟨rfl, rfl, rfl, rfl, rfl, rfl, rfl⟩

/-- The nodes of the self-referential scenario that wait in the queue: a node of the tree
without children whose type is one of the three descriptors of the cycle. -/
theorem listEnv_level {h : Heap} {i : Nat} {n : TreeNode} (inv : SafeInv h 0 0)
    (hi : InTree h 0 i) (hn : h.nodes[i]? = some n) (hch : n.children = [])
    (hty : n.diType = some 0 ∨ n.diType = some 1 ∨ n.diType = some 2) :
    ∃ h' i' n', buildLevel listEnv 0 1 h [i] = some (h', [i']) ∧ SafeInv h' 0 0 ∧
      InTree h' 0 i' ∧ h'.nodes[i']? = some n' ∧ n'.children = [] ∧
      (n'.diType = some 0 ∨ n'.diType = some 1 ∨ n'.diType = some 2) := by
  obtain ⟨T, hT, _⟩ := inv.owned.tree
  have hinc : incSize h 0 =
      some { h with trees := h.trees.set 0 { T with size := T.size + 1 } } := by
    simp [incSize, hT]
  have inv1 := safeInv_incSize hinc inv
  have hn1 := incSize_nodes hinc
  have hi1 : InTree _ 0 i := inTree_congr hn1 hi
  obtain ⟨h2, cnt, hexp⟩ := safeInv_expand_ok (E := listEnv) inv1 hi1
  have inv2 := safeInv_expand inv1 hexp
  have hme : ({ h with trees := h.trees.set 0 { T with size := T.size + 1 } } : Heap).nodes[i]?
      = some n := hn
  obtain ⟨kids, hkt, hkids, hnodes, _, _, hcnt⟩ := expandNode_spec hme hexp
  obtain ⟨hlen, hgcur, hgold, hgnew⟩ := grown_get hme hnodes
  have hct : ∃ ty, childTypes listEnv n.diType = [some ty] ∧ (ty = 1 ∨ ty = 2) := by
    rcases hty with hty | hty | hty
    · exact ⟨1, by rw [hty]; decide, Or.inl rfl⟩
    · exact ⟨2, by rw [hty]; decide, Or.inr rfl⟩
    · exact ⟨1, by rw [hty]; decide, Or.inl rfl⟩
  obtain ⟨ty, hct, htyc⟩ := hct
  rw [hct] at hkt
  have hlen1 : kids.length = 1 := by
    have := congrArg List.length hkt
    simpa using this
  obtain ⟨k, hk⟩ := List.length_eq_one.1 hlen1
  subst hk
  simp only [List.map_cons, List.map_nil, List.cons.injEq, and_true] at hkt
  have hkN := hkids k (List.mem_singleton_self _)
  have hknode : h2.nodes[h.nodes.length]? = some k := by
    have := hgnew 0 (by simp)
    simpa using this
  simp only [List.length_singleton, List.range'_one] at hgcur
  rw [hch] at hgcur
  simp only [List.nil_append] at hgcur
  have hcur2 := inTree_expand_mono hexp hi1
  refine ⟨h2, h.nodes.length, k, ?_, inv2, InTree.child hcur2 hgcur (by simp), hknode,
    hkN.2.2.2.2.2.2.1, ?_⟩
  · simp only [buildLevel, hinc, hexp, hgcur, hcnt]
    simp
  · rcases htyc with h1 | h1
    · exact Or.inr (Or.inl (by rw [hkt, h1]))
    · exact Or.inr (Or.inr (by rw [hkt, h1]))

/-- With the depth bound at the largest `w`-bit integer, the loop of `Tree::build` on the
self-referential scenario never ends: the queue always holds one node, and no value of the
`w`-bit level counter exceeds the bound. -/
theorem buildLoopW_listEnv_none {w : Nat} (hw : 1 ≤ w) :
    ∀ (fuel : Nat) (cur : Int) (h : Heap) (i : Nat) (n : TreeNode), SafeInv h 0 0 →
      InTree h 0 i → h.nodes[i]? = some n → n.children = [] →
      (n.diType = some 0 ∨ n.diType = some 1 ∨ n.diType = some 2) →
      buildLoopW listEnv 0 w (2 ^ (w - 1) - 1) fuel cur h [i] = none := by
  intro fuel
  induction fuel with
  | zero => intro cur h i n _ _ _ _ _; rfl
  | succ fuel ih =>
    intro cur h i n inv hi hn hch hty
    obtain ⟨h', i', n', hl, inv', hi', hn', hch', hty'⟩ := listEnv_level inv hi hn hch hty
    have hle := wrapInt_le w (cur + 1) hw
    simp only [buildLoopW, List.isEmpty_cons, Bool.false_eq_true, if_false,
      List.length_singleton, hl]
    rw [if_neg (by omega)]
    exact ih _ h' i' n' inv' hi' hn' hch' hty'

/-! ## The claims -/

theorem ptrHeap_inTree {p : Nat} (hp : InTree ptrHeap 0 p) : p = 0 ∨ p = 1 ∨ p = 2 := by
  induction hp with
  | root => exact Or.inl rfl
  | child _ hn hc ih =>
    rcases ih with ih | ih | ih <;> subst ih <;> simp [ptrHeap] at hn <;> subst hn <;>
      simp at hc <;> omega

/-- The formal tree of `ptrHeap` is a finished tree. -/
theorem ptrHeap_wellFormed : WellFormedTree ptrHeap 0 := by
  refine ⟨⟨_, rfl, rfl⟩, ?_, ?_⟩
  · intro p pn c hp hpn hc
    rcases ptrHeap_inTree hp with hp | hp | hp <;> subst hp <;> simp [ptrHeap] at hpn <;>
      subst hpn <;> simp at hc <;> subst hc <;> exact ⟨_, rfl, rfl⟩
  · intro p pn hp hpn
    rcases ptrHeap_inTree hp with hp | hp | hp <;> subst hp <;> simp [ptrHeap] at hpn <;>
      subst hpn <;> simp

/-- The memory `deepHeapExpanded` is the result of `expandNode` on the root of `deepHeap`. -/
theorem expandNode_deepHeap : expandNode ptrEnv deepHeap 0 = some (deepHeapExpanded, 1) := by
  decide

/-- The memory `pairHeapBuilt` is the result of `build(3)` on the fresh tree of the
scenario. -/
theorem build_pairHeap0 : build pairEnv0 pairHeap0 0 3 = some pairHeapBuilt := by
  decide

/-- C2: on a fresh tree and for a depth bound `maxTreeDepth ≥ 0` below the largest `int`,
2147483647, `Tree::build` ends, whatever number of at least `maxTreeDepth + 1` iterations
its loop is allowed, in a tree none of whose nodes is deeper than `maxTreeDepth`, and
whose nodes of depth `maxTreeDepth` have no children. -/
theorem build_depth_le_maxDepth (E : Env) (h : Heap) (t : Nat) (T : Tree)
    (root : TreeNode) (maxTreeDepth : Int) (hf : FreshTree h t T root)
    (hmin : 0 ≤ maxTreeDepth) (hmax : maxTreeDepth < 2147483647) :
    ∃ h', build E h t maxTreeDepth = some h' ∧
      (∀ fuel, maxTreeDepth.toNat + 1 ≤ fuel →
        buildW E h t 32 maxTreeDepth fuel = some h') ∧
      ∀ i, InTree h' T.rootNode i →
        ∃ n, h'.nodes[i]? = some n ∧ n.depth ≤ maxTreeDepth ∧
          (n.depth = maxTreeDepth → n.children = []) := by
  obtain ⟨h', d, done, q, hrun, inv, hdone, hd, hq⟩ :=
    build_fresh (E := E) maxTreeDepth hf hmax
  have hdle : d ≤ maxTreeDepth := by
    rcases hd with hd | ⟨hd, _⟩
    · exact hd
    · omega
  refine ⟨h', hrun, fun fuel hfuel => by rw [buildW_eq_build hmax hfuel, hrun], ?_⟩
  intro i hi
  have hi2 : i ∈ done ++ q := by
    have := (inv.mem i).2 ((inTree_iff inv i).1 hi)
    simpa using this
  rcases List.mem_append.1 hi2 with hi2 | hi2
  · obtain ⟨n, hn, hlt⟩ := hdone i hi2
    exact ⟨n, hn, by omega, fun he => by omega⟩
  · obtain ⟨n, hn, hdep, hch⟩ := inv.remD i hi2
    exact ⟨n, hn, by omega, fun _ => hch⟩

/-- C2, on the tree of the scenario with depth bound 3. -/
theorem build_depth_le_maxDepth_witness :
    ∃ h', build pairEnv0 pairHeap0 0 3 = some h' ∧
      (∀ fuel, (3 : Int).toNat + 1 ≤ fuel →
        buildW pairEnv0 pairHeap0 0 32 3 fuel = some h') ∧
      ∀ i, InTree h' 0 i →
        ∃ n, h'.nodes[i]? = some n ∧ n.depth ≤ 3 ∧ (n.depth = 3 → n.children = []) :=
  build_depth_le_maxDepth pairEnv0 pairHeap0 0
    { rootNode := 0, baseVal := some 9, size := 0 } pairRoot0 3
    ⟨rfl, rfl, rfl, rfl, rfl, rfl, rfl⟩ (by decide) (by norm_num)

/-- C3: for `struct Pair { int* a; int b; }` and a fresh tree rooted at an argument of type
`Pair*`, whatever the program and the category, value, function and seeded address
variables of the root are, `Tree::build(3)` ends with exactly five nodes: the root (`Pair*`)
at depth 0 with the child 1, the node 1 (`Pair`) at depth 1 with the children 2 and 3, the
node 2 (member `a`, normalized `int*`) at depth 2 with the child 4, the node 3 (member `b`,
normalized `int`) at depth 2 without children and the node 4 (`int`) at depth 3 without
children; the size counter is 4. -/
theorem build_pair_scenario (users : Value → List Value) (instKind : Value → InstKind)
    (offsetMatch : DIType → Value → Bool) (nodeType : GraphNodeType) (val : Option Value)
    (func : Option Func) (addrVars : List (Option Value)) :
    (build (pairEnv users instKind offsetMatch) (pairHeap nodeType val func addrVars) 0 3).map
      (fun h => (h.shape, h.normTypes (pairEnv users instKind offsetMatch),
        h.trees.map Tree.size)) =
    some ([(some 0, 0, [1]), (some 1, 1, [2, 3]), (some 2, 2, [4]), (some 3, 2, []),
           (some 5, 3, [])],
          [some 0, some 1, some 4, some 5, some 5], [4]) := by
  simp [build, buildW, buildLoopW, wrapInt, buildLevel, incSize, expandNode, addChild,
    addChildren, computeDerivedAddrVarsFromParent, rootValue, baseAddrVars, pairEnv, pairHeap,
    Heap.shape, Heap.normTypes, Heap.allocNode, Heap.setNode, Heap.addNeighbor]

/-- C5: the tree made by the copy constructor from any allocated tree with an allocated
root, whatever its size and the children of its root, has size 0 and a root without
children. -/
theorem copyTree_size_zero_root_childless (d : NodeDefaults) (h : Heap) (src : Nat)
    (S : Tree) (srcRoot : TreeNode) (hS : h.trees[src]? = some S)
    (hroot : h.nodes[S.rootNode]? = some srcRoot) :
    ∃ h' t' T' r', copyTree d h src = some (h', t') ∧ h'.trees[t']? = some T' ∧
      h'.nodes[T'.rootNode]? = some r' ∧ T'.size = 0 ∧ r'.children = [] := by
  unfold copyTree
  simp only [hS, hroot]
  refine ⟨_, _, { rootNode := h.nodes.length, baseVal := S.baseVal, size := 0 },
    { copyTreeNode d srcRoot with tree := some h.trees.length }, rfl, ?_, ?_, rfl, rfl⟩
  · simp
  · simp

/-- C5, on a tree of size 2 whose root has a child. -/
theorem copyTree_size_zero_root_childless_witness :
    ∃ h' t' T' r',
      copyTree { val := none, depth := 0, parentNode := none, tree := none } pairHeapMid 0 =
        some (h', t') ∧ h'.trees[t']? = some T' ∧
      h'.nodes[T'.rootNode]? = some r' ∧ T'.size = 0 ∧ r'.children = [] :=
  copyTree_size_zero_root_childless _ pairHeapMid 0
    { rootNode := 0, baseVal := some 9, size := 2 } _ rfl rfl

/-- C7, failing input: in the tree of the scenario `struct Pair { int* a; int b; }` a
`PARAMETER_IN` edge enters the node `2` of the member `a`, whose type after normalization,
`int*`, is a pointer type; but the constructor of `ArgAccessTree` applies `isPointerType`
to the descriptor as stored, the member descriptor `2`, which is not a pointer type, and
the flag of the overlay node of the member, the third of the five overlay nodes, is
false. -/
theorem argAccessTree_flag_false_for_pointer_member :
    (mkArgAccessTree pairEnv0 pairHeapCall 0 6).map
        (fun A => A.nodes.map (fun n => (n.diType, n.accessed))) =
      some [(some 0, true), (some 1, false), (some 2, false), (some 3, false),
        (some 5, false)] ∧
    pairEnv0.isPointerType (pairEnv0.stripAttributes (pairEnv0.stripMemberTag 2)) = true ∧
    pairEnv0.isPointerType 2 = false ∧
    0 < (pairHeapCall.inEdgesWithDepType 2 EdgeType.PARAMETER_IN).length ∧
    0 < (pairHeapCall.getOutNeighborsWithDepType 2 EdgeType.PARAMETER_IN).length := by
  decide

/-- C8: on a finished tree the `ArgAccessTree` constructor ends with one overlay node for
the root and exactly one overlay node for every other kept source node, that is, every node
with a type descriptor whose parent is kept: the correspondence `corr` from the overlay
nodes to the source nodes has no repetition and its members are exactly the kept nodes, so
that a child without a type descriptor and all the nodes below it have no overlay node.
Every overlay node carries the value and the type descriptor of its source node, its
children correspond, in order, to the children with a type descriptor of its source node,
and the size counter is the number of the overlay nodes. -/
theorem argAccessTree_mirrors_kept_nodes (E : Env) (h : Heap) (r fuel : Nat)
    (wf : WellFormedTree h r) (hfuel : h.nodes.length ≤ fuel) :
    ∃ (A : ArgAccessTree) (corr : List Nat), mkArgAccessTree E h r fuel = some A ∧
      A.rootNode = 0 ∧ corr.length = A.nodes.length ∧ corr[0]? = some r ∧ corr.Nodup ∧
      (∀ c, c ∈ corr ↔ Kept h r c) ∧
      (∀ (o : Nat) (ovn : ArgAccessTreeNode), A.nodes[o]? = some ovn →
        ∃ c cn, corr[o]? = some c ∧
        h.nodes[c]? = some cn ∧ ovn.val = cn.val ∧ ovn.diType = cn.diType ∧
        ovn.children.map (fun x => corr[x]?) = (typedChildren h c).map some) ∧
      A.size = (A.nodes.length : Int) := by
  obtain ⟨s, corr, hrun, inv⟩ := mkArgAccessTree_inv (E := E) wf hfuel
  have hbfs := inv.bfs
  have h0 : corr[0]? = some r := by rw [hbfs]; exact List.getElem?_cons_zero
  refine ⟨s.acc, corr, hrun, inv.root0, inv.len, h0, inv.nodup,
    argInv_mem_iff_kept inv, ?_, inv.size⟩
  intro o ovn hovn
  obtain ⟨c, cn, hc, hcn, h1, h2, _, _, _, h6, _⟩ := inv.node o ovn hovn
  have holt : o < corr.length := by rw [inv.len]; exact lt_of_getElem? hovn
  exact ⟨c, cn, hc, hcn, h1, h2, h6 holt⟩

/-- C8, on the formal tree of `ptrHeap`. -/
theorem argAccessTree_mirrors_kept_nodes_witness :
    ∃ (A : ArgAccessTree) (corr : List Nat), mkArgAccessTree ptrEnv ptrHeap 0 5 = some A ∧
      A.rootNode = 0 ∧ corr.length = A.nodes.length ∧ corr[0]? = some 0 ∧ corr.Nodup ∧
      (∀ c, c ∈ corr ↔ Kept ptrHeap 0 c) ∧
      (∀ (o : Nat) (ovn : ArgAccessTreeNode), A.nodes[o]? = some ovn →
        ∃ c cn, corr[o]? = some c ∧
        ptrHeap.nodes[c]? = some cn ∧ ovn.val = cn.val ∧ ovn.diType = cn.diType ∧
        ovn.children.map (fun x => corr[x]?) = (typedChildren ptrHeap c).map some) ∧
      A.size = (A.nodes.length : Int) :=
  argAccessTree_mirrors_kept_nodes ptrEnv ptrHeap 0 5 ptrHeap_wellFormed (by decide)

/-- C9: for a node with an empty address-variable set whose parent has a struct type,
every run of `computeDerivedAddrVarsFromParent` leaves no load instruction in the
address-variable set of the node, whatever the base set and its users are; and the run
meets no null pointer when the grandparent, if there is one, is allocated and has a type
descriptor. -/
theorem computeDerived_struct_parent_no_load (E : Env) (h : Heap) (self p : Nat)
    (me pn : TreeNode) (pty : DIType)
    (hme : h.nodes[self]? = some me) (hnew : me.addrVars = [])
    (hp : me.parentNode = some p) (hpn : h.nodes[p]? = some pn)
    (hpty : pn.diType = some pty) (hstruct : E.isStructType pty = true) :
    (∀ h', computeDerivedAddrVarsFromParent E h self = some h' →
      ∃ me', h'.nodes[self]? = some me' ∧
        ∀ v, some v ∈ me'.addrVars → E.instKind v ≠ InstKind.load) ∧
    ((∀ g, pn.parentNode = some g →
        ∃ gn gty, h.nodes[g]? = some gn ∧ gn.diType = some gty) →
      ∃ h', computeDerivedAddrVarsFromParent E h self = some h') := by
  constructor
  · intro h' hrun
    cases hty : me.diType with
    | none =>
      have : h' = h := by
        unfold computeDerivedAddrVarsFromParent at hrun
        simp only [hme, hp, hty, Option.some.injEq] at hrun
        exact hrun.symm
      subst this
      exact ⟨me, hme, by simp [hnew]⟩
    | some ty =>
      cases hb : baseAddrVars E h pn pty with
      | none =>
        unfold computeDerivedAddrVarsFromParent at hrun
        simp [hme, hp, hty, hpn, hpty, hb] at hrun
      | some base =>
        rw [computeDerived_eq hme hp hty hpn hpty hb, Option.some.injEq] at hrun
        subst hrun
        refine ⟨_, setNode_get_self hme, ?_⟩
        intro v hv
        simp only [foldl_scanBaseVar_mem, hnew, List.not_mem_nil, false_or,
          Option.some.injEq, hstruct] at hv
        obtain ⟨w, u, _, _, hvu, hk | hk⟩ := hv
        · simp at hk
        · subst hvu
          rw [hk.1]; simp
  · intro hg
    cases hty : me.diType with
    | none =>
      exact ⟨h, by unfold computeDerivedAddrVarsFromParent; simp only [hme, hp, hty]⟩
    | some ty =>
      have : ∃ base, baseAddrVars E h pn pty = some base := by
        unfold baseAddrVars
        cases hgp : pn.parentNode with
        | none => exact ⟨_, rfl⟩
        | some g =>
          obtain ⟨gn, gty, hgn, hgty⟩ := hg g hgp
          simp only [hstruct, if_true, hgn, hgty]
          split <;> exact ⟨_, rfl⟩
      obtain ⟨base, hb⟩ := this
      exact ⟨_, computeDerived_eq hme hp hty hpn hpty hb⟩

/-- C9, on the node of the member `a` of the scenario, whose parent is the `Pair` node. -/
theorem computeDerived_struct_parent_no_load_witness :
    (∀ h', computeDerivedAddrVarsFromParent pairEnv0 pairHeapMid 2 = some h' →
      ∃ me', h'.nodes[2]? = some me' ∧
        ∀ v, some v ∈ me'.addrVars → pairEnv0.instKind v ≠ InstKind.load) ∧
    ((∀ g, (some 0 : Option Nat) = some g →
        ∃ gn gty, pairHeapMid.nodes[g]? = some gn ∧ gn.diType = some gty) →
      ∃ h', computeDerivedAddrVarsFromParent pairEnv0 pairHeapMid 2 = some h') :=
  computeDerived_struct_parent_no_load pairEnv0 pairHeapMid 2 1
    { nodeType := 1, val := some 9, func := some 7, diType := some 2, depth := 2,
      parentNode := some 1, tree := some 0, children := [], addrVars := [], accTags := [] }
    { nodeType := 1, val := some 9, func := some 7, diType := some 1, depth := 1,
      parentNode := some 0, tree := some 0, children := [], addrVars := [some 11],
      accTags := [] }
    1 rfl rfl rfl rfl rfl rfl

/-- C10: for a node with an empty address-variable set, a parent and a type descriptor
`ty`, and for an offset computation `G` that is a user of a non-null member of the base
set, `G` is in the address-variable set of the node after
`computeDerivedAddrVarsFromParent` if and only if the offset test holds of `ty` and `G`;
nothing is assumed on the kind of the parent type. -/
theorem computeDerived_gep_mem_iff_offsetMatch (E : Env) (h : Heap) (self p : Nat)
    (me pn : TreeNode) (ty pty : DIType)
    (base : List (Option Value)) (G : Value)
    (hme : h.nodes[self]? = some me) (hnew : me.addrVars = [])
    (hp : me.parentNode = some p) (hty : me.diType = some ty)
    (hpn : h.nodes[p]? = some pn) (hpty : pn.diType = some pty)
    (hb : baseAddrVars E h pn pty = some base)
    (hG : E.instKind G = InstKind.gep) (huse : ∃ v, some v ∈ base ∧ G ∈ E.users v) :
    ∃ h' me', computeDerivedAddrVarsFromParent E h self = some h' ∧
      h'.nodes[self]? = some me' ∧
      (some G ∈ me'.addrVars ↔ E.isGEPOffsetMatchDIOffset ty G = true) := by
  refine ⟨_, _, computeDerived_eq hme hp hty hpn hpty hb, setNode_get_self hme, ?_⟩
  simp only [foldl_scanBaseVar_mem, hnew, List.not_mem_nil, false_or, Option.some.injEq]
  constructor
  · rintro ⟨v, u, _, _, hGu, hk | hk⟩
    · subst hGu; rw [hG] at hk; simp at hk
    · subst hGu; exact hk.2
  · intro hm
    obtain ⟨v, hv, hu⟩ := huse
    exact ⟨v, G, hv, hu, rfl, Or.inr ⟨hG, hm⟩⟩

/-- C10, on the node of the member `a` of the scenario and the offset computation `12`,
a user of the loaded argument `11`. -/
theorem computeDerived_gep_mem_iff_offsetMatch_witness :
    ∃ h' me', computeDerivedAddrVarsFromParent pairEnv0 pairHeapMid 2 = some h' ∧
      h'.nodes[2]? = some me' ∧
      (some 12 ∈ me'.addrVars ↔ pairEnv0.isGEPOffsetMatchDIOffset 2 12 = true) :=
  computeDerived_gep_mem_iff_offsetMatch pairEnv0 pairHeapMid 2 1
    { nodeType := 1, val := some 9, func := some 7, diType := some 2, depth := 2,
      parentNode := some 1, tree := some 0, children := [], addrVars := [], accTags := [] }
    { nodeType := 1, val := some 9, func := some 7, diType := some 1, depth := 1,
      parentNode := some 0, tree := some 0, children := [], addrVars := [some 11],
      accTags := [] }
    2 1 [some 10, some 11] 12 rfl rfl rfl rfl rfl rfl rfl rfl
    ⟨11, by decide, by decide⟩

/-- C11, as the code has it: in every memory reached by runs of `expandNode` and
`Tree::build` from one in which the root `r` is allocated and has no children, every child
`c` of a node `p` of the tree rooted at `r` is allocated and has `p` as its parent; its
depth is the 32-bit `int` that `expandNode` computes as `_depth + 1`, which is the depth of
`p` plus one whenever the depth of `p` is an `int` below the largest one, 2147483647. -/
theorem child_depth_eq_parent_depth_succ (E : Env) (h0 h : Heap) (r : Nat)
    (root : TreeNode) (hroot : h0.nodes[r]? = some root) (hch : root.children = [])
    (hreach : Reachable E h0 h) (p c : Nat) (n : TreeNode) (hp : InTree h r p)
    (hpn : h.nodes[p]? = some n) (hc : c ∈ n.children) :
    ∃ cn, h.nodes[c]? = some cn ∧ cn.parentNode = some p ∧
      cn.depth = wrapInt 32 (n.depth + 1) ∧
      (-2147483648 ≤ n.depth → n.depth < 2147483647 → cn.depth = n.depth + 1) := by
  obtain ⟨_, cn, hcn, hd, hpar⟩ :=
    (shapeInv_reachable (shapeInv_childless_root hroot hch) hreach).kid p n c hp hpn hc
  exact ⟨cn, hcn, hpar, hd, fun hlo hhi => by
    rw [hd]; exact wrapInt32_of_inRange (by omega) (by omega)⟩

/-- C11 as amended, on the tree of the scenario after `build(3)`, for the `Pair` node at
address `1` and the node of its member `b` at address `3`. -/
theorem child_depth_eq_parent_depth_succ_witness :
    ∃ cn, pairHeapBuilt.nodes[3]? = some cn ∧ cn.parentNode = some 1 ∧
      cn.depth = wrapInt 32 ((1 : Int) + 1) ∧
      (-2147483648 ≤ (1 : Int) → (1 : Int) < 2147483647 → cn.depth = (1 : Int) + 1) :=
  child_depth_eq_parent_depth_succ pairEnv0 pairHeap0 pairHeapBuilt 0 pairRoot0 rfl rfl
    (Reachable.byBuild Reachable.init build_pairHeap0) 1 3
    { nodeType := 1, val := some 9, func := some 7, diType := some 1, depth := 1,
      parentNode := some 0, tree := some 0, children := [2, 3],
      addrVars := [some 11], accTags := [] }
    (InTree.child InTree.root
      (rfl : pairHeapBuilt.nodes[0]? = some
        { nodeType := 1, val := some 9, func := some 7, diType := some 0, depth := 0,
          parentNode := none, tree := some 0, children := [1], addrVars := [some 10],
          accTags := [] }) (by decide))
    rfl (by decide)

/-- C11 as stated fails: the root of `deepHeap` has no children and the depth 2147483647;
one run of `expandNode` on it gives it the child `1`, whose depth is -2147483648 and not
the depth of the root plus one. -/
theorem child_depth_wraps_at_intMax :
    expandNode ptrEnv deepHeap 0 = some (deepHeapExpanded, 1) ∧
    Reachable ptrEnv deepHeap deepHeapExpanded ∧
    ∃ n cn, InTree deepHeapExpanded 0 0 ∧ deepHeapExpanded.nodes[0]? = some n ∧
      1 ∈ n.children ∧ deepHeapExpanded.nodes[1]? = some cn ∧
      n.depth = 2147483647 ∧ cn.depth = -2147483648 ∧ cn.depth ≠ n.depth + 1 :=
  ⟨expandNode_deepHeap, Reachable.byExpand Reachable.init expandNode_deepHeap,
    _, _, InTree.root, rfl, by decide, rfl, rfl, rfl, by decide⟩

/-- C12: in every memory reached by runs of `expandNode` and `Tree::build` from one in
which the root `r` is allocated and has no children, a node of the tree rooted at `r`
whose type descriptor is null has no children. -/
theorem null_type_node_childless (E : Env) (h0 h : Heap) (r : Nat)
    (root : TreeNode) (hroot : h0.nodes[r]? = some root) (hch : root.children = [])
    (hreach : Reachable E h0 h) (p : Nat) (n : TreeNode) (hp : InTree h r p)
    (hpn : h.nodes[p]? = some n) (hty : n.diType = none) : n.children = [] := by
  cases hcs : n.children with
  | nil => rfl
  | cons c cs =>
    exact absurd hty
      ((shapeInv_reachable (shapeInv_childless_root hroot hch) hreach).kid p n c hp hpn
        (by rw [hcs]; exact List.mem_cons_self _ _)).1

/-- C12, on a fresh tree whose root has no type descriptor, after `build(3)`. -/
theorem null_type_node_childless_witness :
    ({ nodeType := 1, val := some 9, func := some 7, diType := none, depth := 0,
       parentNode := none, tree := some 0, children := [], addrVars := [some 10],
       accTags := [] } : TreeNode).children = [] :=
  null_type_node_childless pairEnv0 untypedHeap
    { untypedHeap with trees := [{ rootNode := 0, baseVal := some 9, size := 1 }] } 0
    _ rfl rfl (@Reachable.byBuild pairEnv0 untypedHeap untypedHeap _ 0 3 Reachable.init (by decide))
    0 _ InTree.root rfl rfl

/-- C13, failing input: with a 32-bit `int`, `Tree::build(2147483647)` on the fresh tree of
an argument of type `Node*`, for the self-referential `struct Node { Node* next; }`, does
not return, however many iterations of the outer loop are allowed: every level leaves one
new node in the queue, and no value of the level counter exceeds the depth bound. -/
theorem build_intMax_self_referential_never_returns :
    ∀ fuel, buildW listEnv listHeap0 0 32 2147483647 fuel = none := by
  intro fuel
  have key := buildLoopW_listEnv_none (w := 32) (by decide) fuel 0 listHeap0 0
    { nodeType := 1, val := some 9, func := some 7, diType := some 0, depth := 0,
      parentNode := none, tree := some 0, children := [], addrVars := [], accTags := [] }
    (safeInv_init (T := { rootNode := 0, baseVal := some 9, size := 0 }) rfl rfl rfl rfl rfl)
    InTree.root rfl rfl (Or.inl rfl)
  have he : ((2 : Int) ^ (32 - 1) - 1) = 2147483647 := by norm_num
  rw [he] at key
  exact key

/-- C14: the failure conditions are silent no-ops. On an allocated node, `expandNode`
returns 0 and leaves the whole memory (children and edge registry included) unchanged when
the type descriptor is null, when the normalized type is neither a pointer type nor
projectable, and when it is projectable, not a pointer type and has no element;
`computeDerivedAddrVarsFromParent` leaves the memory unchanged when the node has no parent
and when it has no type descriptor. -/
theorem failure_conditions_are_noops (E : Env) (h : Heap) (self : Nat) (me : TreeNode)
    (hme : h.nodes[self]? = some me) :
    (me.diType = none → expandNode E h self = some (h, 0)) ∧
    (∀ t, me.diType = some t →
      E.isPointerType (E.stripAttributes (E.stripMemberTag t)) = false →
      E.isProjectableType (E.stripAttributes (E.stripMemberTag t)) = false →
      expandNode E h self = some (h, 0)) ∧
    (∀ t, me.diType = some t →
      E.isPointerType (E.stripAttributes (E.stripMemberTag t)) = false →
      E.isProjectableType (E.stripAttributes (E.stripMemberTag t)) = true →
      E.getElements (E.stripAttributes (E.stripMemberTag t)) = [] →
      expandNode E h self = some (h, 0)) ∧
    (me.parentNode = none → computeDerivedAddrVarsFromParent E h self = some h) ∧
    (me.diType = none → computeDerivedAddrVarsFromParent E h self = some h) := by
  refine ⟨?_, ?_, ?_, ?_, ?_⟩
  · intro hty
    simp [expandNode, hme, hty]
  · intro t hty hp hq
    simp [expandNode, hme, hty, hp, hq]
  · intro t hty hp hq he
    simp [expandNode, hme, hty, hp, hq, he, addChildren]
  · intro hp
    simp [computeDerivedAddrVarsFromParent, hme, hp]
  · intro hty
    unfold computeDerivedAddrVarsFromParent
    simp only [hme, hty]
    cases me.parentNode <;> rfl

/-- C14, on the node of the member `b` of the built tree of the scenario, whose normalized
type `int` is neither a pointer type nor projectable. -/
theorem failure_conditions_are_noops_witness :
    expandNode pairEnv0 pairHeapBuilt 3 = some (pairHeapBuilt, 0) :=
  (failure_conditions_are_noops pairEnv0 pairHeapBuilt 3
    { nodeType := 1, val := some 9, func := some 7, diType := some 3, depth := 2,
      parentNode := some 1, tree := some 0, children := [], addrVars := [],
      accTags := [] } rfl).2.1 3 rfl rfl rfl

/-- C15: in `computeDerivedAddrVarsFromParent`, run on a node with the parent `pn` of type
`pty`, the base set is the address-variable set of the parent when there is no
grandparent and when the parent type is not a struct type; when there is a grandparent
`gn` of type `gty` and the parent type is a struct type, it is the address-variable set of
the grandparent if `gty` is a struct-pointer type and that of the parent otherwise. Every
member of the address-variable set of the node after the run was in the set before or is a
user of a non-null member of the base set. -/
theorem base_set_choice_and_direct_uses (E : Env) (h : Heap) (self p : Nat)
    (me pn : TreeNode) (ty pty : DIType)
    (hme : h.nodes[self]? = some me) (hp : me.parentNode = some p)
    (hty : me.diType = some ty) (hpn : h.nodes[p]? = some pn)
    (hpty : pn.diType = some pty) :
    (pn.parentNode = none → baseAddrVars E h pn pty = some pn.addrVars) ∧
    (E.isStructType pty = false → baseAddrVars E h pn pty = some pn.addrVars) ∧
    (∀ g gn gty, pn.parentNode = some g → E.isStructType pty = true →
      h.nodes[g]? = some gn → gn.diType = some gty →
      baseAddrVars E h pn pty =
        some (if E.isStructPointerType gty then gn.addrVars else pn.addrVars)) ∧
    (∀ base, baseAddrVars E h pn pty = some base →
      ∃ h' me', computeDerivedAddrVarsFromParent E h self = some h' ∧
        h'.nodes[self]? = some me' ∧
        ∀ x ∈ me'.addrVars, x ∈ me.addrVars ∨
          ∃ v u, some v ∈ base ∧ u ∈ E.users v ∧ x = some u) := by
  refine ⟨?_, ?_, ?_, ?_⟩
  · intro hg
    simp [baseAddrVars, hg]
  · intro hs
    unfold baseAddrVars
    cases pn.parentNode <;> simp [hs]
  · intro g gn gty hg hs hgn hgty
    simp only [baseAddrVars, hg, hs, if_true, hgn, hgty]
    split <;> rfl
  · intro base hb
    refine ⟨_, _, computeDerived_eq hme hp hty hpn hpty hb, setNode_get_self hme, ?_⟩
    intro x hx
    simp only [foldl_scanBaseVar_mem] at hx
    rcases hx with hx | ⟨v, u, hv, hu, hxu, _⟩
    · exact Or.inl hx
    · exact Or.inr ⟨v, u, hv, hu, hxu⟩

/-- C15, on the node of the member `a` of the scenario: its parent is the `Pair` node and
its grandparent the root of type `Pair*`, so the base set is that of the root. -/
theorem base_set_choice_and_direct_uses_witness :
    baseAddrVars pairEnv0 pairHeapMid
        { nodeType := 1, val := some 9, func := some 7, diType := some 1, depth := 1,
          parentNode := some 0, tree := some 0, children := [], addrVars := [some 11],
          accTags := [] } 1 =
      some [some 10, some 11] :=
  (base_set_choice_and_direct_uses pairEnv0 pairHeapMid 2 1
    { nodeType := 1, val := some 9, func := some 7, diType := some 2, depth := 2,
      parentNode := some 1, tree := some 0, children := [], addrVars := [], accTags := [] }
    { nodeType := 1, val := some 9, func := some 7, diType := some 1, depth := 1,
      parentNode := some 0, tree := some 0, children := [], addrVars := [some 11],
      accTags := [] }
    2 1 rfl rfl rfl rfl rfl).2.2.1 0
    { nodeType := 1, val := some 9, func := some 7, diType := some 0, depth := 0,
      parentNode := none, tree := some 0, children := [1],
      addrVars := [some 10, some 11], accTags := [] } 0 rfl rfl rfl rfl

/-- C16: for a tree whose root is allocated, belongs to the tree and has no children, every
memory returned by `Tree::build`, whatever the depth bound and the number of iterations
are, holds the root with its value unchanged, and every other node of the tree carries this
value; and when the root has no parent and the depth bound is below the largest `int`,
2147483647, `Tree::build` does return a memory, whatever number of at least
`maxTreeDepth + 1` iterations its loop is allowed. -/
theorem built_nodes_carry_root_value (E : Env) (h : Heap) (t : Nat) (T : Tree)
    (root : TreeNode) (maxTreeDepth : Int) (hT : h.trees[t]? = some T)
    (hroot : h.nodes[T.rootNode]? = some root) (hown : root.tree = some t)
    (hch : root.children = []) :
    (root.parentNode = none → maxTreeDepth < 2147483647 →
      ∃ h', build E h t maxTreeDepth = some h' ∧
        ∀ fuel, maxTreeDepth.toNat + 1 ≤ fuel →
          buildW E h t 32 maxTreeDepth fuel = some h') ∧
    ∀ fuel h', buildW E h t 32 maxTreeDepth fuel = some h' →
      ∃ root', h'.nodes[T.rootNode]? = some root' ∧ root'.val = root.val ∧
        ∀ i n, InTree h' T.rootNode i → i ≠ T.rootNode → h'.nodes[i]? = some n →
          n.val = root.val := by
  constructor
  · intro hpar hmax
    obtain ⟨h', hrun, _⟩ := build_safe (E := E) maxTreeDepth hT hroot hown hch hpar hmax
    exact ⟨h', hrun, fun fuel hfuel => by rw [buildW_eq_build hmax hfuel, hrun]⟩
  · intro fuel h' hrun
    have key := buildW_preserves
      (fun m => ShapeInv m T.rootNode ∧ OwnedInv m t T.rootNode ∧
        ∃ n, m.nodes[T.rootNode]? = some n ∧ n.val = root.val)
      (fun m m1 hi hP => ⟨shapeInv_congr (incSize_nodes hi) hP.1,
        ownedInv_incSize hi hP.2.1, by rw [incSize_nodes hi]; exact hP.2.2⟩)
      (fun m self m2 cnt he hP => ⟨shapeInv_expand hP.1 he, ownedInv_expand hP.1 hP.2.1 he,
        by
          obtain ⟨n, hn, hv⟩ := hP.2.2
          obtain ⟨cs, hcs⟩ := expandNode_old he hn
          exact ⟨_, hcs, hv⟩⟩)
      hrun
      ⟨shapeInv_childless_root hroot hch,
        ⟨⟨T, hT, rfl⟩,
          fun i n hi hn => by
            have := inTree_childless_root hroot hch hi
            subst this
            rw [hroot] at hn; injection hn with hn; subst hn
            exact hown,
          fun i n rn hi hir => absurd (inTree_childless_root hroot hch hi) hir⟩,
        ⟨root, hroot, rfl⟩⟩
    obtain ⟨_, own, root', hroot', hval⟩ := key
    refine ⟨root', hroot', hval, ?_⟩
    intro i n hi hir hn
    rw [own.val i n root' hi hir hn hroot', hval]

/-- C16, on the fresh tree of the scenario with depth bound 3: the `build` returns, and
every node but the root of the built tree carries the value of the root. -/
theorem built_nodes_carry_root_value_witness :
    (∃ h', build pairEnv0 pairHeap0 0 3 = some h' ∧
      ∀ fuel, (3 : Int).toNat + 1 ≤ fuel →
        buildW pairEnv0 pairHeap0 0 32 3 fuel = some h') ∧
    ∃ root', pairHeapBuilt.nodes[0]? = some root' ∧ root'.val = pairRoot0.val ∧
      ∀ i n, InTree pairHeapBuilt 0 i → i ≠ 0 → pairHeapBuilt.nodes[i]? = some n →
        n.val = pairRoot0.val :=
  ⟨(built_nodes_carry_root_value pairEnv0 pairHeap0 0
      { rootNode := 0, baseVal := some 9, size := 0 } pairRoot0 3 rfl rfl rfl rfl).1 rfl
      (by norm_num),
   (built_nodes_carry_root_value pairEnv0 pairHeap0 0
      { rootNode := 0, baseVal := some 9, size := 0 } pairRoot0 3 rfl rfl rfl rfl).2
      4 pairHeapBuilt build_pairHeap0⟩

/-- C17: on a finished tree, for every tag and every effect of `addAccessTag` that changes
nothing but the tag set of the node, `Tree::addAccessForAllNodes` ends. The memory it
returns is the result of one call of `addAccessTag` on each node of a list without
duplicates whose members are the nodes of the tree, the root included; so every node of
the tree holds the result of one call on the node it was, and every other node is as it
was. The trees with their sizes, the edges, and the children, depth, type descriptor,
address variables, parent and value of every node are unchanged. -/
theorem addAccessForAllNodes_tags_each_node_once
    (addAccessTag : AccessTag → TreeNode → TreeNode) (h : Heap) (t : Nat) (T : Tree)
    (tag : AccessTag) (fuel : Nat) (hT : h.trees[t]? = some T)
    (wf : WellFormedTree h T.rootNode)
    (hframe : ∀ n, addAccessTag tag n = { n with accTags := (addAccessTag tag n).accTags })
    (hfuel : h.nodes.length ≤ fuel) :
    ∃ (h' : Heap) (ord : List Nat),
      addAccessForAllNodes addAccessTag h t tag fuel = some h' ∧
      ord.Nodup ∧ (∀ i, i ∈ ord ↔ InTree h T.rootNode i) ∧
      h' = ord.foldl (tagNode (addAccessTag tag)) h ∧
      h'.trees = h.trees ∧ h'.edges = h.edges ∧ h'.nodes.length = h.nodes.length ∧
      ∀ i n, h.nodes[i]? = some n →
        (InTree h T.rootNode i → h'.nodes[i]? = some (addAccessTag tag n)) ∧
        (¬ InTree h T.rootNode i → h'.nodes[i]? = some n) ∧
        ∃ n', h'.nodes[i]? = some n' ∧ n'.children = n.children ∧ n'.depth = n.depth ∧
          n'.diType = n.diType ∧ n'.addrVars = n.addrVars ∧
          n'.parentNode = n.parentNode ∧ n'.val = n.val := by
  have hf : ∀ n, (addAccessTag tag n).children = n.children := fun n => by rw [hframe n]
  have inv0 : TagInv (addAccessTag tag) h T.rootNode h [T.rootNode] 0 := by
    refine ⟨by simp, by simp, by simp, ?_, rfl, rfl, rfl, ?_, by simp⟩
    · intro c hc
      rw [List.mem_singleton.1 hc]
      exact InTree.root
    · intro i n hn
      exact ⟨fun hi => by simp at hi, fun _ => hn⟩
  obtain ⟨h', ord, hrun, inv⟩ := addAccessLoop_inv wf hf fuel inv0 (by omega)
  have hmem := tagInv_mem_iff inv
  have hrun2 := inv.run
  rw [List.take_length] at hrun2
  refine ⟨h', ord, ?_, inv.nodup, hmem, hrun2, inv.trees, inv.edges, inv.len, ?_⟩
  · unfold addAccessForAllNodes
    simp only [hT]
    simpa using hrun
  · intro i n hn
    have hnode := inv.node i n hn
    rw [List.take_length] at hnode
    have h1 : InTree h T.rootNode i → h'.nodes[i]? = some (addAccessTag tag n) :=
      fun hi => hnode.1 ((hmem i).2 hi)
    have h2 : ¬ InTree h T.rootNode i → h'.nodes[i]? = some n :=
      fun hi => hnode.2 (fun hi2 => hi ((hmem i).1 hi2))
    refine ⟨h1, h2, ?_⟩
    by_cases hi : InTree h T.rootNode i
    · refine ⟨_, h1 hi, ?_⟩
      rw [hframe n]
      exact ⟨rfl, rfl, rfl, rfl, rfl, rfl⟩
    · exact ⟨n, h2 hi, rfl, rfl, rfl, rfl, rfl, rfl⟩

/-- C17, on the formal tree of `ptrHeap`, whose size counter 2 does not count the node at
address `2`, with the tag `5` and the tag-set union as the effect of `addAccessTag`. -/
theorem addAccessForAllNodes_tags_each_node_once_witness :
    ∃ (h' : Heap) (ord : List Nat),
      addAccessForAllNodes TreeNode.addAccessTag ptrHeap 0 5 5 = some h' ∧
      ord.Nodup ∧ (∀ i, i ∈ ord ↔ InTree ptrHeap 0 i) ∧
      h' = ord.foldl (tagNode (TreeNode.addAccessTag 5)) ptrHeap ∧
      h'.trees = ptrHeap.trees ∧ h'.edges = ptrHeap.edges ∧
      h'.nodes.length = ptrHeap.nodes.length ∧
      ∀ i n, ptrHeap.nodes[i]? = some n →
        (InTree ptrHeap 0 i → h'.nodes[i]? = some (TreeNode.addAccessTag 5 n)) ∧
        (¬ InTree ptrHeap 0 i → h'.nodes[i]? = some n) ∧
        ∃ n', h'.nodes[i]? = some n' ∧ n'.children = n.children ∧ n'.depth = n.depth ∧
          n'.diType = n.diType ∧ n'.addrVars = n.addrVars ∧
          n'.parentNode = n.parentNode ∧ n'.val = n.val :=
  addAccessForAllNodes_tags_each_node_once TreeNode.addAccessTag ptrHeap 0
    { rootNode := 0, baseVal := some 9, size := 2 } 5 5 rfl ptrHeap_wellFormed
    (fun _ => rfl) (by decide)

/-- C18: from a root that is allocated, belongs to the tree, has no parent, no children
and no address variables, no node of the tree has an address variable in any memory that
`Tree::build` returns, for every type environment, every use relation of the program,
every depth bound and every number of iterations; and for every depth bound below the
largest `int`, 2147483647, `Tree::build` does return a memory, whatever number of at least
`maxTreeDepth + 1` iterations its loop is allowed. -/
theorem build_from_empty_seed_derives_nothing (E : Env) (h : Heap) (t : Nat) (T : Tree)
    (root : TreeNode) (maxTreeDepth : Int) (hT : h.trees[t]? = some T)
    (hroot : h.nodes[T.rootNode]? = some root) (hown : root.tree = some t)
    (hch : root.children = []) (hpar : root.parentNode = none)
    (hseed : root.addrVars = []) :
    (maxTreeDepth < 2147483647 →
      ∃ h', build E h t maxTreeDepth = some h' ∧
        ∀ fuel, maxTreeDepth.toNat + 1 ≤ fuel →
          buildW E h t 32 maxTreeDepth fuel = some h') ∧
    ∀ fuel h', buildW E h t 32 maxTreeDepth fuel = some h' →
      ∀ i n, InTree h' T.rootNode i → h'.nodes[i]? = some n → n.addrVars = [] := by
  constructor
  · intro hmax
    obtain ⟨h', hrun, _⟩ := build_safe (E := E) maxTreeDepth hT hroot hown hch hpar hmax
    exact ⟨h', hrun, fun fuel hfuel => by rw [buildW_eq_build hmax hfuel, hrun]⟩
  · intro fuel h' hrun
    have key := buildW_preserves
      (fun m => SafeInv m t T.rootNode ∧
        ∀ i n, InTree m T.rootNode i → m.nodes[i]? = some n → n.addrVars = [])
      (fun m m1 hi hP => ⟨safeInv_incSize hi hP.1, fun i n hin hn => by
          rw [incSize_nodes hi] at hn
          exact hP.2 i n (inTree_congr (incSize_nodes hi).symm hin) hn⟩)
      (fun m self m2 cnt he hP => ⟨safeInv_expand hP.1 he, emptyInv_expand hP.1 hP.2 he⟩)
      hrun
      ⟨safeInv_init hT hroot hown hch hpar, fun i n hi hn => by
        have := inTree_childless_root hroot hch hi
        subst this
        rw [hroot] at hn; injection hn with hn; subst hn
        exact hseed⟩
    exact key.2

/-- C18, on the copy of the tree of the scenario, whose root is not given the address
variables `10` and `11` of the source root, with depth bound 3. -/
theorem build_from_empty_seed_derives_nothing_witness :
    ∃ h', (build pairEnv0 pairHeapCopy 1 3 = some h' ∧
      ∀ fuel, (3 : Int).toNat + 1 ≤ fuel →
        buildW pairEnv0 pairHeapCopy 1 32 3 fuel = some h') ∧
      ∀ i n, InTree h' 3 i → h'.nodes[i]? = some n → n.addrVars = [] :=
  (fun hthm => Exists.elim (hthm.1 (by norm_num))
    (fun h' hrun => ⟨h', hrun, hthm.2 4 h' hrun.1⟩))
  (build_from_empty_seed_derives_nothing pairEnv0 pairHeapCopy 1
    { rootNode := 3, baseVal := some 9, size := 0 }
    { nodeType := 1, val := none, func := some 7, diType := some 0, depth := 0,
      parentNode := none, tree := some 1, children := [], addrVars := [], accTags := [] }
    3 rfl rfl rfl rfl rfl rfl)

/-- C19: `Tree::build` is not idempotent and does not reset the state. On a fresh tree
whose root has a pointer type, one run of `build(1)` ends with size 1 and one child of the
root, allocated at the first free address; a second run of `build(1)` on the result ends
with size 2 and two children of the root: the second expansion appends a second child to
the existing one, and the size is incremented again. -/
theorem build_twice_appends_and_counts_again (E : Env) (h : Heap) (t : Nat) (T : Tree)
    (root : TreeNode) (ty : DIType) (hf : FreshTree h t T root)
    (hty : root.diType = some ty)
    (hptr : E.isPointerType (E.stripAttributes (E.stripMemberTag ty)) = true) :
    ∃ (h1 h2 : Heap) (T1 T2 : Tree) (r1 r2 : TreeNode),
      build E h t 1 = some h1 ∧ h1.trees[t]? = some T1 ∧ T1.size = 1 ∧
      h1.nodes[T.rootNode]? = some r1 ∧ r1.children = [h.nodes.length] ∧
      build E h1 t 1 = some h2 ∧ h2.trees[t]? = some T2 ∧ T2.size = 2 ∧
      h2.nodes[T.rootNode]? = some r2 ∧
      r2.children = [h.nodes.length, h.nodes.length + 1] := by
  have hlt := lt_of_getElem? hf.node
  obtain ⟨h1, k1, hb1, ht1, hn1⟩ :=
    build_one_pointer (E := E) hf.tree hf.node hf.owner hf.parentNode hty hptr
  have hr1 : h1.nodes[T.rootNode]? =
      some { root with children := root.children ++ [h.nodes.length] } := by
    rw [hn1, List.getElem?_append_left (by simpa using hlt)]
    simp [List.getElem?_set, hlt]
  obtain ⟨h2, k2, hb2, ht2, hn2⟩ :=
    build_one_pointer (E := E) (T := { T with size := T.size + 1 }) ht1 hr1 hf.owner
      hf.parentNode hty hptr
  have hlen1 : h1.nodes.length = h.nodes.length + 1 := by rw [hn1]; simp
  have hr2 : h2.nodes[T.rootNode]? =
      some { root with children := root.children ++ [h.nodes.length] ++ [h1.nodes.length] } := by
    rw [hn2, List.getElem?_append_left (by simp; omega)]
    simp [List.getElem?_set]
    omega
  refine ⟨h1, h2, _, _, _, _, hb1, ht1, by simp [hf.size], hr1, by simp [hf.children],
    hb2, ht2, by simp [hf.size], hr2, by simp [hf.children, hlen1]⟩

/-- C19, on the fresh tree of the scenario, whose root has the type `Pair*`. -/
theorem build_twice_appends_and_counts_again_witness :
    ∃ (h1 h2 : Heap) (T1 T2 : Tree) (r1 r2 : TreeNode),
      build pairEnv0 pairHeap0 0 1 = some h1 ∧ h1.trees[0]? = some T1 ∧ T1.size = 1 ∧
      h1.nodes[0]? = some r1 ∧ r1.children = [1] ∧
      build pairEnv0 h1 0 1 = some h2 ∧ h2.trees[0]? = some T2 ∧ T2.size = 2 ∧
      h2.nodes[0]? = some r2 ∧ r2.children = [1, 2] :=
  build_twice_appends_and_counts_again pairEnv0 pairHeap0 0
    { rootNode := 0, baseVal := some 9, size := 0 } pairRoot0 0
    ⟨rfl, rfl, rfl, rfl, rfl, rfl, rfl⟩ rfl rfl

/-- C20: from a root that is allocated, belongs to the tree and has no parent and no
children, no call of `computeDerivedAddrVarsFromParent` made by `Tree::build` meets a null
pointer. The run starts in a safe state; every iteration of the outer loop, run from a safe
state with a queue of nodes of the tree, returns, which it does only when no dereference
in it met a null pointer, and ends in a safe state with such a queue, whatever the depth
bound is; for every depth bound below the largest `int`, 2147483647, the whole run
returns, whatever number of at least `maxTreeDepth + 1` iterations is allowed, and every
memory that a run returns is safe. In a safe state, for every node of the tree past the two
early returns (it has a parent and a type descriptor), the parent is allocated and has a
type descriptor; whenever the type of the grandparent is inspected (the parent has a parent
and a struct type), the grandparent is allocated and has a type descriptor; and
`computeDerivedAddrVarsFromParent`, run on the node, returns. -/
theorem build_derives_without_null_dereference (E : Env) (h : Heap) (t : Nat) (T : Tree)
    (root : TreeNode) (maxTreeDepth : Int) (hT : h.trees[t]? = some T)
    (hroot : h.nodes[T.rootNode]? = some root) (hown : root.tree = some t)
    (hch : root.children = []) (hpar : root.parentNode = none) :
    SafeInv h t T.rootNode ∧
    (∀ m q, SafeInv m t T.rootNode → (∀ i ∈ q, InTree m T.rootNode i) →
      ∃ m' q', buildLevel E t q.length m q = some (m', q') ∧ SafeInv m' t T.rootNode ∧
        ∀ i ∈ q', InTree m' T.rootNode i) ∧
    (maxTreeDepth < 2147483647 →
      ∃ h', build E h t maxTreeDepth = some h' ∧
        ∀ fuel, maxTreeDepth.toNat + 1 ≤ fuel →
          buildW E h t 32 maxTreeDepth fuel = some h') ∧
    (∀ fuel h', buildW E h t 32 maxTreeDepth fuel = some h' → SafeInv h' t T.rootNode) ∧
    ∀ m, SafeInv m t T.rootNode →
      ∀ c cn p ty, InTree m T.rootNode c → m.nodes[c]? = some cn →
        cn.parentNode = some p → cn.diType = some ty →
        ∃ pn pty, m.nodes[p]? = some pn ∧ pn.diType = some pty ∧
          (∀ g, pn.parentNode = some g → E.isStructType pty = true →
            ∃ gn gty, m.nodes[g]? = some gn ∧ gn.diType = some gty) ∧
          ∃ m', computeDerivedAddrVarsFromParent E m c = some m' := by
  have inv0 := safeInv_init hT hroot hown hch hpar
  refine ⟨inv0, fun m q inv hq => buildLevel_safe (E := E) q.length m q inv hq le_rfl,
    ?_, ?_, ?_⟩
  · intro hmax
    obtain ⟨h', hrun, _⟩ := build_safe (E := E) maxTreeDepth hT hroot hown hch hpar hmax
    exact ⟨h', hrun, fun fuel hfuel => by rw [buildW_eq_build hmax hfuel, hrun]⟩
  · intro fuel h' hrun
    exact buildW_preserves (fun m => SafeInv m t T.rootNode)
      (fun _ _ hi hP => safeInv_incSize hi hP) (fun _ _ _ _ he hP => safeInv_expand hP he)
      hrun inv0
  · intro m inv
    obtain ⟨rn, hrn, hrp⟩ := inv.rootP
    have hgp : ∀ p pn, InTree m T.rootNode p → m.nodes[p]? = some pn →
        ∀ g, pn.parentNode = some g →
          ∃ gn gty, m.nodes[g]? = some gn ∧ gn.diType = some gty := by
      intro p pn hp hpn g hg
      rcases inTree_parent inv.shape hp with hpr | ⟨g', gn, pn', _, hgn, hgty, hpn', hpar'⟩
      · subst hpr
        rw [hpn] at hrn; injection hrn with hrn; subst hrn
        rw [hrp] at hg; exact absurd hg (by simp)
      · rw [hpn] at hpn'; injection hpn' with hpn'; subst hpn'
        rw [hpar'] at hg; injection hg with hg; subst hg
        cases hd : gn.diType with
        | none => exact absurd hd hgty
        | some gty => exact ⟨gn, gty, hgn, hd⟩
    intro c cn p ty hc hcn hp hty
    rcases inTree_parent inv.shape hc with hcr | ⟨p', pn, cn', hpT, hpn, hpty, hcn', hpar'⟩
    · subst hcr
      rw [hcn] at hrn; injection hrn with hrn; subst hrn
      rw [hrp] at hp; exact absurd hp (by simp)
    · rw [hcn] at hcn'; injection hcn' with hcn'; subst hcn'
      rw [hpar'] at hp; injection hp with hp; subst hp
      cases hd : pn.diType with
      | none => exact absurd hd hpty
      | some pty =>
        have hcd : CanDerive E m pn := fun _ g _ hg _ => hgp p' pn hpT hpn g hg
        obtain ⟨base, hb⟩ := baseAddrVars_ok hd hcd
        exact ⟨pn, pty, hpn, hd, fun g hg _ => hgp p' pn hpT hpn g hg,
          _, computeDerived_eq hcn hpar' hty hpn hd hb⟩

/-- C20, on the fresh tree of the scenario with depth bound 3: the run returns the built
tree of the scenario, and on its node `2`, whose parent is the `Pair` node and whose
grandparent is the root, `computeDerivedAddrVarsFromParent` returns. -/
theorem build_derives_without_null_dereference_witness :
    (∃ h', build pairEnv0 pairHeap0 0 3 = some h' ∧
      ∀ fuel, (3 : Int).toNat + 1 ≤ fuel →
        buildW pairEnv0 pairHeap0 0 32 3 fuel = some h') ∧
    SafeInv pairHeapBuilt 0 0 ∧
    ∀ c cn p ty, InTree pairHeapBuilt 0 c → pairHeapBuilt.nodes[c]? = some cn →
      cn.parentNode = some p → cn.diType = some ty →
      ∃ pn pty, pairHeapBuilt.nodes[p]? = some pn ∧ pn.diType = some pty ∧
        (∀ g, pn.parentNode = some g → pairEnv0.isStructType pty = true →
          ∃ gn gty, pairHeapBuilt.nodes[g]? = some gn ∧ gn.diType = some gty) ∧
        ∃ m', computeDerivedAddrVarsFromParent pairEnv0 pairHeapBuilt c = some m' :=
  (fun hthm => ⟨hthm.2.2.1 (by norm_num), hthm.2.2.2.1 4 pairHeapBuilt build_pairHeap0,
    hthm.2.2.2.2 pairHeapBuilt (hthm.2.2.2.1 4 pairHeapBuilt build_pairHeap0)⟩)
  (build_derives_without_null_dereference pairEnv0 pairHeap0 0
    { rootNode := 0, baseVal := some 9, size := 0 } pairRoot0 3 rfl rfl rfl rfl rfl)

end pdg
